import Mathlib

/-! Pyramid match kernel: a shallow embedding of
`pyramids/pyramid-matcher.cc` (libpmk `PyramidMatcher`).

* The code is embedded twice.  In `step`, `loop` and `MatchPyramids` the
  `double` values (counts, sizes, scores) are rationals and arithmetic is
  exact: this embedding settles what the traversal visits, when it aborts, and
  the formula that it evaluates.  In `stepD`, `loopD` and `MatchPyramidsD` the
  same lines compute in IEEE 754 binary64 (type `Double`), every operation
  rounded on its own: this embedding settles the sign, the bounds and the zero
  results of the numbers returned.
* Sizes are nonnegative in the data model, so the divisor `1 + bin_size` of
  the weight is not zero there.
* A `Bin*` is a `BinPtr`: `NULL`, or a bin together with the two links that
  `GetFirstChild()` and `GetNextSibling()` return.  A pointer known to be
  non-null (a root, the bins of a `MatchNode`) is a `Bin` record.
* The `vector<MatchNode*> todo` is a list whose head is `todo.back()`.  A
  `MatchNode*` is the slot (counted from the bottom of the vector) in which
  the node it points to is stored; a node stays in its slot until it is
  popped and deleted.
* A failed `assert` (assertions enabled) and the `std::out_of_range` thrown by
  `vector::at` are outcomes of their own; loops carry an iteration budget.
-/

namespace libpmk

/-! ## Data model -/

/-- Modelled from the spec: the class `Bin` is declared in a header that is not
part of the sources.  A `Bin*` is `NULL`, or a bin with its index path
(`GetIndex()`), count (`GetCount()`), size (`GetSize()`) and the links
`GetFirstChild()` and `GetNextSibling()`. -/
inductive BinPtr where
  | null : BinPtr
  | bin (index : List Int) (count size : ℚ) (firstChild nextSibling : BinPtr) : BinPtr

/-- Modelled from the spec: a bin reached through a non-null `Bin*`, with the
values of the accessors of the class `Bin`, whose declaration is not part of
the sources. -/
structure Bin where
  /-- Value of `GetIndex()`. -/
  index : List Int
  /-- Value of `GetCount()`. -/
  count : ℚ
  /-- Value of `GetSize()`. -/
  size : ℚ
  /-- Value of `GetFirstChild()`. -/
  firstChild : BinPtr
  /-- Value of `GetNextSibling()`. -/
  nextSibling : BinPtr

/-- The pointer to a bin. -/
def Bin.toPtr (b : Bin) : BinPtr :=
  .bin b.index b.count b.size b.firstChild b.nextSibling

/-- Modelled from the spec: the enumeration `BinWeightScheme` of
`util/bin-weight-scheme.h`, which is not part of the sources. -/
inductive BinWeightScheme where
  | BIN_WEIGHT_GLOBAL
  | BIN_WEIGHT_LOCAL
  deriving DecidableEq, Repr

/-- Modelled from the spec: the enumeration `MatchReturnType` of
`pyramid-matcher.h`, which is not part of the sources; the code names its
value `COST` and returns the score for the other one. -/
inductive MatchReturnType where
  | COST
  | SIMILARITY
  deriving DecidableEq, Repr

/-- Modelled from the spec: the class `MultiResolutionHistogram` is declared in
a header that is not part of the sources.  The matcher reads `GetRootBin()`
and `GetNumBins()`. -/
structure MultiResolutionHistogram where
  /-- Value of `GetRootBin()`. -/
  root : Bin
  /-- Value of `GetNumBins()`. -/
  numBins : Int

/-- How a computation ends. -/
inductive Outcome (α : Type) where
  /-- Normal completion. -/
  | value (a : α)
  /-- An `assert` failed: the computation aborted. -/
  | assertFailed
  /-- `vector::at` threw `std::out_of_range`. -/
  | outOfRange
  /-- The iteration budget of the model ran out. -/
  | outOfFuel
  deriving DecidableEq, Repr

/-- Modelled from the spec: the class `MatchNode` is declared in
`pyramid-matcher.h`, which is not part of the sources.  It pairs one bin of
each tree, carries the child ledger `intersection_`, a back-reference
`parent_` to the parent `MatchNode`, and the two-phase tag `marked_`
(`false` = Unexpanded, `true` = Expanded). -/
structure MatchNode where
  node_ : Bin
  counterpart_ : Bin
  intersection_ : ℚ
  parent_ : Option Nat
  marked_ : Bool

/-- Modelled from the spec: the constructor
`MatchNode(node, counterpart, intersection, parent)`; a new node is
Unexpanded. -/
def MatchNode.new (node counterpart : Bin) (intersection : ℚ) (parent : Option Nat) :
    MatchNode :=
  ⟨node, counterpart, intersection, parent, false⟩

/-- Apply `f` to the node stored in slot `i` of the vector (slot `0` is the
bottom, the head of the list is the back). -/
def updateSlot (f : MatchNode → MatchNode) (i : Nat) : List MatchNode → List MatchNode
  | [] => []
  | x :: xs => if xs.length = i then f x :: xs else x :: updateSlot f i xs

/-- Number of bins on a sibling chain. -/
def BinPtr.chainLength : BinPtr → Nat
  | .null => 0
  | .bin _ _ _ _ ns => ns.chainLength + 1

/-- Number of bins reachable from a pointer (through children and siblings). -/
def BinPtr.numBins : BinPtr → Nat
  | .null => 0
  | .bin _ _ _ fc ns => fc.numBins + ns.numBins + 1

/-- The variables of `MatchPyramids` that the outer loop changes, with two
observers: the nodes deleted so far, in order, as they were when deleted, and
the number of `new MatchNode` executed. -/
structure LoopState where
  todo : List MatchNode
  score : ℚ
  cost : ℚ
  finalized : List MatchNode
  created : Nat

/-! ## The code -/

/-- The inner `while (next_first_bin != NULL && next_second_bin != NULL)` loop
(lines 81-97).  `current` is the slot of the node being expanded; one unit of
budget is used per iteration. -/
def mergeLoop (next_level : Nat) (current : Nat) :
    Nat → BinPtr → BinPtr → List MatchNode → Nat → Outcome (List MatchNode × Nat)
  | _, .null, _, todo, created => .value (todo, created)
  | _, .bin _ _ _ _ _, .null, todo, created => .value (todo, created)
  | 0, .bin _ _ _ _ _, .bin _ _ _ _ _, _, _ => .outOfFuel
  | fuel + 1, .bin i1 c1 s1 f1 n1, .bin i2 c2 s2 f2 n2, todo, created =>
    match i1.get? next_level with
    | none => .outOfRange
    | some next_first_index =>
      match i2.get? next_level with
      | none => .outOfRange
      | some next_second_index =>
        if next_first_index = next_second_index then
          mergeLoop next_level current fuel n1 n2
            (MatchNode.new ⟨i1, c1, s1, f1, n1⟩ ⟨i2, c2, s2, f2, n2⟩ 0 (some current) :: todo)
            (created + 1)
        else if next_first_index < next_second_index then
          mergeLoop next_level current fuel n1 (.bin i2 c2 s2 f2 n2) todo created
        else
          mergeLoop next_level current fuel (.bin i1 c1 s1 f1 n1) n2 todo created

/-- One iteration of the outer `while (!todo.empty())` loop (lines 55-139). -/
def step (bin_weight_scheme : BinWeightScheme) (st : LoopState) : Outcome LoopState :=
  match st.todo with
  | [] => .value st
  | current :: rest =>
    let current_first_bin := current.node_
    let current_second_bin := current.counterpart_
    if !current.marked_ then
      let next_first_bin := current_first_bin.firstChild
      let next_second_bin := current_second_bin.firstChild
      let next_level := current_first_bin.index.length
      match mergeLoop next_level rest.length
          (next_first_bin.chainLength + next_second_bin.chainLength)
          next_first_bin next_second_bin st.todo st.created with
      | .value (todo, created) =>
        .value { st with
          todo := updateSlot (fun n => { n with marked_ := true }) rest.length todo
          created := created }
      | .assertFailed => .assertFailed
      | .outOfRange => .outOfRange
      | .outOfFuel => .outOfFuel
    else
      if bin_weight_scheme = .BIN_WEIGHT_GLOBAL ∧
          current_first_bin.size ≠ current_second_bin.size then
        .assertFailed
      else
        let bin_size :=
          if bin_weight_scheme = .BIN_WEIGHT_GLOBAL then current_first_bin.size
          else current_first_bin.size + current_second_bin.size
        let weight := 1 / (1 + bin_size)
        let intersection :=
          if current_first_bin.count > current_second_bin.count then
            current_second_bin.count
          else current_first_bin.count
        let todo1 :=
          match current.parent_ with
          | some p =>
            updateSlot (fun n => { n with intersection_ := n.intersection_ + intersection })
              p st.todo
          | none => st.todo
        match todo1 with
        | [] => .value st
        | current1 :: rest1 =>
          let intersection1 := intersection - current1.intersection_
          .value { st with
            todo := rest1
            score := st.score + weight * intersection1
            cost := st.cost + bin_size * intersection1
            finalized := st.finalized ++ [current1] }

/-- The outer `while (!todo.empty())` loop; one unit of budget per iteration. -/
def loop (bin_weight_scheme : BinWeightScheme) : Nat → LoopState → Outcome LoopState
  | 0, st =>
    match st.todo with
    | [] => .value st
    | _ :: _ => .outOfFuel
  | fuel + 1, st =>
    match st.todo with
    | [] => .value st
    | _ :: _ =>
      match step bin_weight_scheme st with
      | .value st1 => loop bin_weight_scheme fuel st1
      | .assertFailed => .assertFailed
      | .outOfRange => .outOfRange
      | .outOfFuel => .outOfFuel

/-- The first `n` iterations of the outer loop, without the loop guard. -/
def stepsFrom (bin_weight_scheme : BinWeightScheme) : Nat → LoopState → Outcome LoopState
  | 0, st => .value st
  | n + 1, st =>
    match step bin_weight_scheme st with
    | .value st1 => stepsFrom bin_weight_scheme n st1
    | .assertFailed => .assertFailed
    | .outOfRange => .outOfRange
    | .outOfFuel => .outOfFuel

/-- The state in which the outer loop is entered (lines 43-48). -/
def initState (first second : MultiResolutionHistogram) : LoopState :=
  { todo := [MatchNode.new first.root second.root 0 none]
    score := 0
    cost := 0
    finalized := []
    created := 1 }

/-- The loop of `MatchPyramids` run from its initial state with a given
iteration budget. -/
def runPyramids (fuel : Nat) (first second : MultiResolutionHistogram)
    (bin_weight_scheme : BinWeightScheme) : Outcome LoopState :=
  loop bin_weight_scheme fuel (initState first second)

/-- The state in which the loop of `MatchPyramids` ends.  The loop visits
every created node twice and creates at most one node per bin of `first`,
which gives the budget. -/
def finalState (first second : MultiResolutionHistogram)
    (bin_weight_scheme : BinWeightScheme) : Outcome LoopState :=
  runPyramids (2 * (first.root.firstChild.numBins + 1)) first second bin_weight_scheme

/-- `PyramidMatcher::MatchPyramids`. -/
def MatchPyramids (first second : MultiResolutionHistogram) (return_type : MatchReturnType)
    (bin_weight_scheme : BinWeightScheme) : Outcome ℚ :=
  match finalState first second bin_weight_scheme with
  | .value st => .value (if return_type = .COST then st.cost else st.score)
  | .assertFailed => .assertFailed
  | .outOfRange => .outOfRange
  | .outOfFuel => .outOfFuel

/-- `PyramidMatcher::GetPyramidMatchCost`. -/
def GetPyramidMatchCost (first second : MultiResolutionHistogram)
    (bin_weight_scheme : BinWeightScheme) : Outcome ℚ :=
  if first.numBins < second.numBins then
    MatchPyramids first second .COST bin_weight_scheme
  else
    MatchPyramids second first .COST bin_weight_scheme

/-- `PyramidMatcher::GetPyramidMatchSimilarity`. -/
def GetPyramidMatchSimilarity (first second : MultiResolutionHistogram)
    (bin_weight_scheme : BinWeightScheme) : Outcome ℚ :=
  if first.numBins < second.numBins then
    MatchPyramids first second .SIMILARITY bin_weight_scheme
  else
    MatchPyramids second first .SIMILARITY bin_weight_scheme

/-! ## A recursive description of the traversal -/

/-- The chain of bins starting at a pointer and following `GetNextSibling()`. -/
def BinPtr.toList : BinPtr → List Bin
  | .null => []
  | .bin i c s fc ns => ⟨i, c, s, fc, ns⟩ :: ns.toList

/-- The children of a bin, in sibling order. -/
def Bin.children (b : Bin) : List Bin := b.firstChild.toList

/-- The bin pairs for which the inner loop creates a `MatchNode`, in the
order in which they are pushed. -/
def mergePairs (next_level : Nat) : Nat → BinPtr → BinPtr → Outcome (List (Bin × Bin))
  | _, .null, _ => .value []
  | _, .bin _ _ _ _ _, .null => .value []
  | 0, .bin _ _ _ _ _, .bin _ _ _ _ _ => .outOfFuel
  | fuel + 1, .bin i1 c1 s1 f1 n1, .bin i2 c2 s2 f2 n2 =>
    match i1.get? next_level with
    | none => .outOfRange
    | some next_first_index =>
      match i2.get? next_level with
      | none => .outOfRange
      | some next_second_index =>
        if next_first_index = next_second_index then
          match mergePairs next_level fuel n1 n2 with
          | .value ps => .value ((⟨i1, c1, s1, f1, n1⟩, ⟨i2, c2, s2, f2, n2⟩) :: ps)
          | .assertFailed => .assertFailed
          | .outOfRange => .outOfRange
          | .outOfFuel => .outOfFuel
        else if next_first_index < next_second_index then
          mergePairs next_level fuel n1 (.bin i2 c2 s2 f2 n2)
        else
          mergePairs next_level fuel (.bin i1 c1 s1 f1 n1) n2

/-- The nodes pushed for a list of bin pairs, last pushed first. -/
def pushed (current : Nat) (ps : List (Bin × Bin)) : List MatchNode :=
  (ps.map fun p => MatchNode.new p.1 p.2 0 (some current)).reverse

/-- The raw intersection of a bin pair, as lines 120-122 compute it. -/
def rawIntersection (a b : Bin) : ℚ :=
  if a.count > b.count then b.count else a.count

/-- The `bin_size` of a bin pair (lines 109-117), when the assertion holds. -/
def binSize (scheme : BinWeightScheme) (a b : Bin) : ℚ :=
  if scheme = .BIN_WEIGHT_GLOBAL then a.size else a.size + b.size

/-- The finalized nodes of a list of sibling pairs: the pair pushed last is
processed first.  `f slot a b` gives the finalized nodes of one pair whose
node sits in slot `slot`. -/
def evalChildren (f : Nat → Bin → Bin → Outcome (List MatchNode)) :
    Nat → List (Bin × Bin) → Outcome (List MatchNode)
  | _, [] => .value []
  | base, p :: ps =>
    match evalChildren f (base + 1) ps with
    | .value T1 =>
      match f base p.1 p.2 with
      | .value T0 => .value (T1 ++ T0)
      | .assertFailed => .assertFailed
      | .outOfRange => .outOfRange
      | .outOfFuel => .outOfFuel
    | .assertFailed => .assertFailed
    | .outOfRange => .outOfRange
    | .outOfFuel => .outOfFuel

/-- The nodes that the traversal finalizes for the pair `(A, B)` and the
pairs below it, in the order of finalization and as they are when deleted,
when no assertion fails.  The first argument bounds the depth; `parent` is the
slot of the parent node and `slot` the slot of the node of `(A, B)`. -/
def finalizedTrace : Nat → Option Nat → Nat → Bin → Bin → Outcome (List MatchNode)
  | 0, _, _, _, _ => .outOfFuel
  | d + 1, parent, slot, A, B =>
    match mergePairs A.index.length
        (A.firstChild.chainLength + B.firstChild.chainLength) A.firstChild B.firstChild with
    | .value ps =>
      match evalChildren (fun s a b => finalizedTrace d (some slot) s a b) (slot + 1) ps with
      | .value T =>
        .value (T ++ [⟨A, B, (ps.map fun p => rawIntersection p.1 p.2).sum, parent, true⟩])
      | .assertFailed => .assertFailed
      | .outOfRange => .outOfRange
      | .outOfFuel => .outOfFuel
    | .assertFailed => .assertFailed
    | .outOfRange => .outOfRange
    | .outOfFuel => .outOfFuel

/-- The assertion of line 111 holds for a node. -/
def passes (scheme : BinWeightScheme) (r : MatchNode) : Bool :=
  !(scheme = .BIN_WEIGHT_GLOBAL ∧ r.node_.size ≠ r.counterpart_.size)

/-- The net intersection of a finalized node (line 133). -/
def netIntersection (r : MatchNode) : ℚ :=
  rawIntersection r.node_ r.counterpart_ - r.intersection_

/-- Sum of the similarity contributions of a list of finalized nodes. -/
def scoreOf (scheme : BinWeightScheme) (T : List MatchNode) : ℚ :=
  (T.map fun r => 1 / (1 + binSize scheme r.node_ r.counterpart_) * netIntersection r).sum

/-- Sum of the cost contributions of a list of finalized nodes. -/
def costOf (scheme : BinWeightScheme) (T : List MatchNode) : ℚ :=
  (T.map fun r => binSize scheme r.node_ r.counterpart_ * netIntersection r).sum

/-- The ledger update `parent_->intersection_ += x` on a vector. -/
def bump (parent : Option Nat) (x : ℚ) (todo : List MatchNode) : List MatchNode :=
  match parent with
  | some p => updateSlot (fun n => { n with intersection_ := n.intersection_ + x }) p todo
  | none => todo

/-- What running the loop on a freshly pushed node does, as a property of a
trace function `f`. -/
def SimulatesAt (scheme : BinWeightScheme) (pslot : Nat)
    (f : Nat → Bin → Bin → Outcome (List MatchNode)) : Prop :=
  ∀ slot a b T, f slot a b = .value T →
    ∀ (rest : List MatchNode) (sc co : ℚ) (fin : List MatchNode) (cr k : Nat),
      rest.length = slot → pslot < slot →
      loop scheme (2 * T.length + k)
          ⟨MatchNode.new a b 0 (some pslot) :: rest, sc, co, fin, cr + 1⟩ =
        if T.all (passes scheme) then
          loop scheme k ⟨bump (some pslot) (rawIntersection a b) rest,
            sc + scoreOf scheme T, co + costOf scheme T, fin ++ T, cr + T.length⟩
        else .assertFailed


/-! ## Histograms of the data model -/

/-- The index paths on a sibling chain and below it are well formed: every
bin of the chain has the index `parentIndex` extended by one element, and the
same holds below each of them. -/
def BinPtr.WellFormed (parentIndex : List Int) : BinPtr → Prop
  | .null => True
  | .bin i _ _ fc ns =>
    (i ≠ [] ∧ i.dropLast = parentIndex) ∧ fc.WellFormed i ∧ ns.WellFormed parentIndex

/-- The index paths below a bin are well formed. -/
def Bin.WellFormed (b : Bin) : Prop := b.firstChild.WellFormed b.index

/-- The last element of `i` is strictly below the last element of `j`. -/
def lastLt (i j : List Int) : Prop :=
  match i.getLast?, j.getLast? with
  | some x, some y => x < y
  | _, _ => False

/-- Every sibling chain, here and below, is in strictly ascending order of
last index element. -/
def BinPtr.Ascending : BinPtr → Prop
  | .null => True
  | .bin i _ _ fc ns => (∀ b ∈ ns.toList, lastLt i b.index) ∧ fc.Ascending ∧ ns.Ascending

/-- The children of a bin, and of every bin below it, are in strictly
ascending order of last index element. -/
def Bin.Ascending (b : Bin) : Prop := b.firstChild.Ascending

instance lastLt.decidable (i j : List Int) : Decidable (lastLt i j) := by
  unfold lastLt
  split <;> infer_instance

instance BinPtr.WellFormed.decidable : (p : List Int) → (b : BinPtr) → Decidable (b.WellFormed p)
  | _, .null => isTrue trivial
  | p, .bin i _ _ fc ns =>
    have := BinPtr.WellFormed.decidable i fc
    have := BinPtr.WellFormed.decidable p ns
    inferInstanceAs (Decidable ((i ≠ [] ∧ i.dropLast = p) ∧ fc.WellFormed i ∧ ns.WellFormed p))

instance BinPtr.Ascending.decidable : (b : BinPtr) → Decidable b.Ascending
  | .null => isTrue trivial
  | .bin i _ _ fc ns =>
    have := BinPtr.Ascending.decidable fc
    have := BinPtr.Ascending.decidable ns
    inferInstanceAs
      (Decidable ((∀ b ∈ ns.toList, lastLt i b.index) ∧ fc.Ascending ∧ ns.Ascending))

instance Bin.WellFormed.decidable (b : Bin) : Decidable b.WellFormed :=
  inferInstanceAs (Decidable (b.firstChild.WellFormed b.index))

instance Bin.Ascending.decidable (b : Bin) : Decidable b.Ascending :=
  inferInstanceAs (Decidable b.firstChild.Ascending)

/-- The finalized nodes of a whole match, in order of finalization. -/
def matchTrace (first second : MultiResolutionHistogram) : Outcome (List MatchNode) :=
  finalizedTrace (first.root.firstChild.numBins + 1) none 0 first.root second.root

/-! ## The specification, in the words of the spec -/

/-- All the bins on a sibling chain and below it. -/
def BinPtr.binsBelow : BinPtr → List Bin
  | .null => []
  | .bin i c s fc ns => ⟨i, c, s, fc, ns⟩ :: fc.binsBelow ++ ns.binsBelow

/-- All the bins of the tree rooted at a bin, the root first. -/
def Bin.bins (A : Bin) : List Bin := A :: A.firstChild.binsBelow

/-- The root-relative index path of a bin `b` of the tree rooted at `root`. -/
def relPath (root b : Bin) : List Int := b.index.drop root.index.length

/-- The pairs `(x, y)` of `xs` and `ys` that are related by `r`. -/
def pairsWhere {α β : Type} (r : α → β → Bool) (xs : List α) (ys : List β) : List (α × β) :=
  xs.flatMap fun x => (ys.filter (r x)).map fun y => (x, y)

/-- The pairs of bins of two trees that share an identical root-relative
index path (the root pair included). -/
def correspondences (A B : Bin) : List (Bin × Bin) :=
  pairsWhere (fun a b => decide (relPath A a = relPath B b)) A.bins B.bins

/-- The pairs of children of two bins that share the same last index
element. -/
def commonChildren (a b : Bin) : List (Bin × Bin) :=
  pairsWhere (fun x y => decide (x.index.getLast? = y.index.getLast?)) a.children b.children

/-- The quantity `L` of a bin pair: the sum of `min(A'.count, B'.count)` over
the pairs of children that share the same last index element. -/
def childIntersections (a b : Bin) : ℚ :=
  ((commonChildren a b).map fun p => min p.1.count p.2.count).sum

/-- The similarity contribution of a bin pair according to the spec. -/
def specScoreTerm (scheme : BinWeightScheme) (p : Bin × Bin) : ℚ :=
  1 / (1 + binSize scheme p.1 p.2) * (min p.1.count p.2.count - childIntersections p.1 p.2)

/-- The cost contribution of a bin pair according to the spec. -/
def specCostTerm (scheme : BinWeightScheme) (p : Bin × Bin) : ℚ :=
  binSize scheme p.1 p.2 * (min p.1.count p.2.count - childIntersections p.1 p.2)

/-- The similarity of two trees according to the spec. -/
def specSimilarity (scheme : BinWeightScheme) (A B : Bin) : ℚ :=
  ((correspondences A B).map (specScoreTerm scheme)).sum

/-- The cost of two trees according to the spec. -/
def specCost (scheme : BinWeightScheme) (A B : Bin) : ℚ :=
  ((correspondences A B).map (specCostTerm scheme)).sum

/-- Some pair of bins sharing an identical root-relative index path has
differing sizes. -/
def sizeMismatch (A B : Bin) : Prop :=
  ∃ p ∈ correspondences A B, p.1.size ≠ p.2.size

instance sizeMismatch.decidable (A B : Bin) : Decidable (sizeMismatch A B) :=
  inferInstanceAs (Decidable (∃ p ∈ correspondences A B, p.1.size ≠ p.2.size))

/-- The bin pair of a `MatchNode`. -/
def MatchNode.pair (r : MatchNode) : Bin × Bin := (r.node_, r.counterpart_)

/-! ## Example histograms -/

/-- Scenario 1, first histogram: a root with count 3 and size 2. -/
def scenario1A (n : Int) : MultiResolutionHistogram := ⟨⟨[], 3, 2, .null, .null⟩, n⟩

/-- Scenario 1, second histogram: a root with count 5 and size 2. -/
def scenario1B (n : Int) : MultiResolutionHistogram := ⟨⟨[], 5, 2, .null, .null⟩, n⟩

/-- Scenario 2, the child of the first histogram: path `[0]`, count 4, size 1. -/
def scenario2ChildA : Bin := ⟨[0], 4, 1, .null, .null⟩

/-- Scenario 2, the child of the second histogram: path `[0]`, count 6, size 1. -/
def scenario2ChildB : Bin := ⟨[0], 6, 1, .null, .null⟩

/-- Scenario 2, first histogram: root count 10, size 4, one child. -/
def scenario2A (n : Int) : MultiResolutionHistogram :=
  ⟨⟨[], 10, 4, scenario2ChildA.toPtr, .null⟩, n⟩

/-- Scenario 2, second histogram: root count 10, size 4, one child. -/
def scenario2B (n : Int) : MultiResolutionHistogram :=
  ⟨⟨[], 10, 4, scenario2ChildB.toPtr, .null⟩, n⟩

/-- A histogram that consists of a root only. -/
def rootOnly (count size : ℚ) (n : Int) : MultiResolutionHistogram :=
  ⟨⟨[], count, size, .null, .null⟩, n⟩

/-- A histogram whose bin at path `[0]` has size 1; its bin at path `[1]` has
no counterpart in `mismatchB`. -/
def mismatchA : MultiResolutionHistogram :=
  ⟨⟨[], 10, 4, .bin [0] 4 1 .null (.bin [1] 1 7 .null .null), .null⟩, 3⟩

/-- A histogram whose bin at path `[0]` has size 2. -/
def mismatchB : MultiResolutionHistogram :=
  ⟨⟨[], 10, 4, .bin [0] 6 2 .null .null, .null⟩, 2⟩

/-- Two histograms of the data model that can be matched: in both, the index
of every child extends the index of its parent by one element and children
are in strictly ascending order of last index element; the two root indices
have the same length. -/
def ValidPair (h1 h2 : MultiResolutionHistogram) : Prop :=
  h1.root.WellFormed ∧ h2.root.WellFormed ∧
    h1.root.index.length = h2.root.index.length ∧ h1.root.Ascending ∧ h2.root.Ascending

instance ValidPair.decidable (h1 h2 : MultiResolutionHistogram) : Decidable (ValidPair h1 h2) :=
  inferInstanceAs (Decidable (h1.root.WellFormed ∧ h2.root.WellFormed ∧
    h1.root.index.length = h2.root.index.length ∧ h1.root.Ascending ∧ h2.root.Ascending))

/-- All counts and sizes on a sibling chain and below it are nonnegative. -/
def BinPtr.Nonneg : BinPtr → Prop
  | .null => True
  | .bin _ c s fc ns => 0 ≤ c ∧ 0 ≤ s ∧ fc.Nonneg ∧ ns.Nonneg

/-- All counts and sizes of the tree rooted at a bin are nonnegative. -/
def Bin.Nonneg (b : Bin) : Prop := 0 ≤ b.count ∧ 0 ≤ b.size ∧ b.firstChild.Nonneg

/-- The sum of the counts of the bins of a sibling chain. -/
def BinPtr.countSum : BinPtr → ℚ
  | .null => 0
  | .bin _ c _ _ ns => c + ns.countSum

/-- Count conservation on a sibling chain and below it: the count of every
bin is at least the sum of the counts of its children. -/
def BinPtr.Conserving : BinPtr → Prop
  | .null => True
  | .bin _ c _ fc ns => fc.countSum ≤ c ∧ fc.Conserving ∧ ns.Conserving

/-- Count conservation in the tree rooted at a bin. -/
def Bin.Conserving (b : Bin) : Prop :=
  b.firstChild.countSum ≤ b.count ∧ b.firstChild.Conserving

/-- A histogram with nonnegative counts and sizes whose only child holds more
points than its root: root count 1 and size 0, child count 5 and size 9. -/
def invertedCounts : MultiResolutionHistogram :=
  ⟨⟨[], 1, 0, .bin [0] 5 9 .null .null, .null⟩, 2⟩

/-- What the matcher reads of a bin pair: the two counts, the two sizes and
the quantity `L`, as `(A.count, A.size, B.count, B.size, L)`. -/
def pairData (p : Bin × Bin) : ℚ × ℚ × ℚ × ℚ × ℚ :=
  (p.1.count, p.1.size, p.2.count, p.2.size, childIntersections p.1 p.2)

/-- The sibling chain `as1` is obtained from the chain `as` by removing bins
that have no counterpart on the chain `bs` (no bin of `bs` has the same last
index element) together with their subtrees, or by changing the count, the
size or the descendants of such bins; bins that have a counterpart keep their
count and size, and the same holds below them, relative to the children of
the counterpart.  Indices and sibling order are kept. -/
def BinPtr.Pruned : BinPtr → BinPtr → BinPtr → Prop
  | .null, as1, _ => as1 = .null
  | .bin i c s f ns, as1, bs =>
    ((∀ b ∈ bs.toList, i.getLast? ≠ b.index.getLast?) ∧ ns.Pruned as1 bs) ∨
    ∃ c1 s1 f1 ns1, as1 = .bin i c1 s1 f1 ns1 ∧ ns.Pruned ns1 bs ∧
      ((∀ b ∈ bs.toList, i.getLast? ≠ b.index.getLast?) ∨
        (c1 = c ∧ s1 = s ∧
          ∀ b ∈ bs.toList, i.getLast? = b.index.getLast? → f.Pruned f1 b.firstChild))

/-- The histogram `mismatchA` without its bin at path `[1]`, which has no
counterpart in `mismatchB`. -/
def mismatchAPruned : MultiResolutionHistogram :=
  ⟨⟨[], 10, 4, .bin [0] 4 1 .null .null, .null⟩, 2⟩

/-- The chains `as` and `bs` have the same shape, here and below (the same
index paths in the same positions), and every bin of `bs` has at most the
count of the bin of `as` at the same path. -/
def BinPtr.ShapeLe : BinPtr → BinPtr → Prop
  | .null, .null => True
  | .bin i1 c1 _ f1 n1, .bin i2 c2 _ f2 n2 =>
    i1 = i2 ∧ c2 ≤ c1 ∧ f1.ShapeLe f2 ∧ n1.ShapeLe n2
  | .null, .bin _ _ _ _ _ => False
  | .bin _ _ _ _ _, .null => False

/-- The trees rooted at `A` and `B` have the same shape and the counts of `B`
are point-wise at most those of `A`. -/
def Bin.ShapeLe (A B : Bin) : Prop :=
  A.index = B.index ∧ B.count ≤ A.count ∧ A.firstChild.ShapeLe B.firstChild

/-- Bins in the same position of the two chains, here and below, have the
same size. -/
def BinPtr.SameSizes : BinPtr → BinPtr → Prop
  | .null, .null => True
  | .bin _ _ s1 f1 n1, .bin _ _ s2 f2 n2 => s1 = s2 ∧ f1.SameSizes f2 ∧ n1.SameSizes n2
  | .null, .bin _ _ _ _ _ => True
  | .bin _ _ _ _ _, .null => True

/-- Bins in the same position of the two trees have the same size. -/
def Bin.SameSizes (A B : Bin) : Prop :=
  A.size = B.size ∧ A.firstChild.SameSizes B.firstChild

/-- Sizes are nonnegative and no bin is larger than its parent, whose size is
`parentSize`, on a chain and below it. -/
def BinPtr.SizeMonotone (parentSize : ℚ) : BinPtr → Prop
  | .null => True
  | .bin _ _ s fc ns => (0 ≤ s ∧ s ≤ parentSize) ∧ fc.SizeMonotone s ∧ ns.SizeMonotone parentSize

/-- Sizes are nonnegative and no bin of the tree is larger than its parent. -/
def Bin.SizeMonotone (A : Bin) : Prop := 0 ≤ A.size ∧ A.firstChild.SizeMonotone A.size

/-- A histogram whose child is larger than its root: root count 10 and size
0, child count 10 and size 9. -/
def largeChildA : MultiResolutionHistogram :=
  ⟨⟨[], 10, 0, .bin [0] 10 9 .null .null, .null⟩, 2⟩

/-- The histogram `largeChildA` with the count of the child lowered to 0. -/
def largeChildB : MultiResolutionHistogram :=
  ⟨⟨[], 10, 0, .bin [0] 0 9 .null .null, .null⟩, 2⟩


/-- Every count on a sibling chain and below it satisfies `P`. -/
def BinPtr.AllCounts (P : ℚ → Prop) : BinPtr → Prop
  | .null => True
  | .bin _ c _ fc ns => P c ∧ fc.AllCounts P ∧ ns.AllCounts P

/-- Every count of the tree rooted at a bin satisfies `P`. -/
def Bin.AllCounts (P : ℚ → Prop) (b : Bin) : Prop := P b.count ∧ b.firstChild.AllCounts P

/-- A histogram in which every count is zero. -/
def zeroCounts : MultiResolutionHistogram :=
  ⟨⟨[], 0, 4, .bin [0] 0 1 .null (.bin [2] 0 3 .null .null), .null⟩, 3⟩

/-- A histogram whose children are not in ascending order: the child at path
`[1]` (count 3) comes before the child at path `[0]` (count 4). -/
def unsortedA : MultiResolutionHistogram :=
  ⟨⟨[], 10, 4, .bin [1] 3 1 .null (.bin [0] 4 1 .null .null), .null⟩, 3⟩

/-- The same bins as in `unsortedA`, in ascending order. -/
def sortedB : MultiResolutionHistogram :=
  ⟨⟨[], 10, 4, .bin [0] 4 1 .null (.bin [1] 3 1 .null .null), .null⟩, 3⟩

/-- The node stored in slot `i` of the vector (slot `0` is the bottom, the
head of the list is the back). -/
def slotGet : List MatchNode → Nat → Option MatchNode
  | [], _ => none
  | x :: xs, i => if xs.length = i then some x else slotGet xs i

/-- The invariant of the pending work set of a match of the trees rooted at
`A` and `B`.  Every node pairs two bins with an identical root-relative index
path; the bottom node is the root node, the only one without a parent; every
other node has a parent pointer to a slot strictly below its own, the node
stored there is marked Expanded and pairs the parents of the two bins. -/
def StackInv (A B : Bin) : List MatchNode → Prop
  | [] => True
  | n :: rest =>
    ((n.node_, n.counterpart_) ∈ correspondences A B ∧
      (rest = [] → n.parent_ = none ∧ n.node_ = A ∧ n.counterpart_ = B) ∧
      (rest ≠ [] → ∃ p m, n.parent_ = some p ∧ p < rest.length ∧ slotGet rest p = some m ∧
        m.marked_ = true ∧ n.node_ ∈ m.node_.children ∧
        n.counterpart_ ∈ m.counterpart_.children)) ∧
    StackInv A B rest

/-- The number of iterations behind a state: every iteration either marks one
node Expanded or deletes one Expanded node. -/
def progress (st : LoopState) : Nat :=
  2 * st.finalized.length + st.todo.countP (fun n => n.marked_)

/-! ## Naive matrix multiplication (`common/mkl_math.cpp`)

Memory is a map from cell addresses to values; a `double*` or `float*` is the
address of a cell, and `p + i` is the address `i` cells further.  Values are
rationals (arithmetic is exact), so the `double` and the `float` function run
the same steps.  The dimensions are natural numbers: the functions are used
with `m, n, k ≥ 0`. -/

/-- One iteration of the innermost loop (lines 15-19 and 110-114): the state
is the memory, `ptra` and `ptrb`; `target` is the address of
`c[row*n+col]`. -/
def dotStep (n target : Nat) (s : (Nat → ℚ) × Nat × Nat) (_kk : Nat) :
    (Nat → ℚ) × Nat × Nat :=
  (Function.update s.1 target (s.1 target + s.1 s.2.1 * s.1 s.2.2), s.2.1 + 1, s.2.2 + n)

/-- One iteration of the loop over `col` (lines 11-20 and 106-115). -/
def cellStep (n k a b c row : Nat) (mem : Nat → ℚ) (col : Nat) : Nat → ℚ :=
  ((List.range k).foldl (dotStep n (c + (row * n + col)))
    (Function.update mem (c + (row * n + col)) 0, a + row * k, b + col)).1

/-- One iteration of the loop over `row` (lines 10-21 and 105-116). -/
def rowStep (n k a b c : Nat) (mem : Nat → ℚ) (row : Nat) : Nat → ℚ :=
  (List.range n).foldl (cellStep n k a b c row) mem

/-- `math_matrix_mult_naive`: the memory after the call. -/
def math_matrix_mult_naive (m n k : Nat) (a b c : Nat) (mem : Nat → ℚ) : Nat → ℚ :=
  (List.range m).foldl (rowStep n k a b c) mem

/-- `math_matrix_mult_naive_float`: the memory after the call. -/
def math_matrix_mult_naive_float (m n k : Nat) (a b c : Nat) (mem : Nat → ℚ) : Nat → ℚ :=
  (List.range m).foldl (fun mem row =>
    (List.range n).foldl (fun mem col =>
      ((List.range k).foldl (dotStep n (c + (row * n + col)))
        (Function.update mem (c + (row * n + col)) 0, a + row * k, b + col)).1) mem) mem

/-- Entry `(row, col)` of the product of the `m × k` matrix at `a` and the
`k × n` matrix at `b`, both row-major. -/
def productEntry (n k a b : Nat) (mem : Nat → ℚ) (row col : Nat) : ℚ :=
  Finset.sum (Finset.range k) fun kk => mem (a + (row * k + kk)) * mem (b + (kk * n + col))

/-- A memory for a `2 × 2` example: `a` at cells 0-3 holds `1 2 3 4`, `b` at
cells 4-7 holds `5 6 7 8`, the cells of `c` from 8 on hold 9. -/
def exampleMem (x : Nat) : ℚ :=
  if x < 4 then (x : ℚ) + 1 else if x < 8 then (x : ℚ) + 1 else 9

/-! ## The code in `double` arithmetic

The definitions above compute with exact rationals.  The definitions of this
section follow the same lines of `pyramid-matcher.cc` with the arithmetic of
the type `double` (IEEE 754 binary64, round to nearest, ties to even): each
`+`, `-`, `*` and `/` of the source is one operation that rounds on its own,
overflows to an infinity, and yields NaN where IEEE does.  The counts and
sizes stored in a histogram are finite doubles, given by their rational
values.  The two zeros are one value: they compare equal, and the only
division of the code is by `1 + bin_size`, which is never `-0`. -/

/-- A value of the type `double`: NaN, an infinity with its sign, or a finite
number given by its rational value. -/
inductive Double where
  | nan
  | inf (negative : Bool)
  | fin (q : ℚ)
  deriving DecidableEq

/-- The integer nearest to `y`, the even one when two are equally near. -/
def roundHalfEven (y : ℚ) : ℤ :=
  if y - ⌊y⌋ < 1 / 2 then ⌊y⌋
  else if 1 / 2 < y - ⌊y⌋ then ⌊y⌋ + 1
  else if ⌊y⌋ % 2 = 0 then ⌊y⌋ else ⌊y⌋ + 1

/-- The position of the leading bit of `q`, found by binary search:
`⌊log₂ q⌋` for `1 ≤ q < 2 ^ 2048`, and 0 for `q = 0`. -/
@[irreducible] def leadingBit (q : Nat) : Nat :=
  [1024, 512, 256, 128, 64, 32, 16, 8, 4, 2, 1].foldl
    (fun s w => if 2 ^ (s + w) ≤ q then s + w else s) 0

/-- The binary exponent at which `x` is rounded: that of `x`, but `-1022`
for a subnormal `x` and `1023` for an `x` beyond the double range.
Neighbouring doubles near `x` are `2 ^ (exponent x - 52)` apart. -/
@[irreducible] def exponent (x : ℚ) : ℤ :=
  min (leadingBit ⌊|x| * 2 ^ 1022⌋.toNat : ℤ) 2045 - 1022

/-- The rational `x` rounded to 53 significant bits at its exponent. -/
def roundQ (x : ℚ) : ℚ :=
  roundHalfEven (x / 2 ^ (exponent x - 52)) * 2 ^ (exponent x - 52)

/-- The double nearest to the rational `x`: an infinity when the rounded
value is beyond the largest finite double. -/
def Double.round (x : ℚ) : Double :=
  if |roundQ x| < 2 ^ 1024 then .fin (roundQ x) else .inf (decide (x < 0))

/-- The rational `q` is the value of a finite double. -/
def Double.Representable (q : ℚ) : Prop := Double.round q = .fin q

instance Double.Representable.decidable (q : ℚ) : Decidable (Double.Representable q) := by
  unfold Double.Representable; infer_instance

/-- Unary minus. -/
def Double.neg : Double → Double
  | .nan => .nan
  | .inf s => .inf (!s)
  | .fin x => .fin (-x)

/-- The operator `+` of the type `double`. -/
def Double.add : Double → Double → Double
  | .nan, _ => .nan
  | _, .nan => .nan
  | .inf s, .inf t => if s = t then .inf s else .nan
  | .inf s, .fin _ => .inf s
  | .fin _, .inf t => .inf t
  | .fin x, .fin y => Double.round (x + y)

/-- The operator `-` of the type `double`. -/
def Double.sub (a b : Double) : Double := a.add b.neg

/-- The operator `*` of the type `double`. -/
def Double.mul : Double → Double → Double
  | .nan, _ => .nan
  | _, .nan => .nan
  | .inf s, .inf t => .inf (s != t)
  | .inf s, .fin y => if y = 0 then .nan else .inf (s != decide (y < 0))
  | .fin x, .inf t => if x = 0 then .nan else .inf (decide (x < 0) != t)
  | .fin x, .fin y => Double.round (x * y)

/-- The operator `/` of the type `double`; a zero divisor counts as `+0`. -/
def Double.div : Double → Double → Double
  | .nan, _ => .nan
  | _, .nan => .nan
  | .inf _, .inf _ => .nan
  | .inf s, .fin y => .inf (s != decide (y < 0))
  | .fin _, .inf _ => .fin 0
  | .fin x, .fin y =>
    if y = 0 then (if x = 0 then .nan else .inf (decide (x < 0))) else Double.round (x / y)

/-- The operator `>` of the type `double`. -/
def Double.gt : Double → Double → Bool
  | .nan, _ => false
  | _, .nan => false
  | .inf s, .inf t => !s && t
  | .inf s, .fin _ => !s
  | .fin _, .inf t => t
  | .fin x, .fin y => decide (x > y)

/-- The operator `==` of the type `double`. -/
def Double.eq : Double → Double → Bool
  | .nan, _ => false
  | _, .nan => false
  | .inf s, .inf t => s == t
  | .inf _, .fin _ => false
  | .fin _, .inf _ => false
  | .fin x, .fin y => decide (x = y)

/-- The class `MatchNode` with its ledger `intersection_` of type `double`;
see `MatchNode`. -/
structure MatchNodeD where
  node_ : Bin
  counterpart_ : Bin
  intersection_ : Double
  parent_ : Option Nat
  marked_ : Bool

/-- The constructor `MatchNode(node, counterpart, intersection, parent)`. -/
def MatchNodeD.new (node counterpart : Bin) (intersection : Double) (parent : Option Nat) :
    MatchNodeD :=
  ⟨node, counterpart, intersection, parent, false⟩

/-- Apply `f` to the node stored in slot `i` of the vector; see `updateSlot`. -/
def updateSlotD (f : MatchNodeD → MatchNodeD) (i : Nat) : List MatchNodeD → List MatchNodeD
  | [] => []
  | x :: xs => if xs.length = i then f x :: xs else x :: updateSlotD f i xs

/-- The variables of `MatchPyramids` that the outer loop changes, `score` and
`cost` of type `double`; see `LoopState`. -/
structure LoopStateD where
  todo : List MatchNodeD
  score : Double
  cost : Double
  finalized : List MatchNodeD
  created : Nat

/-- The inner `while (next_first_bin != NULL && next_second_bin != NULL)` loop
(lines 81-97); see `mergeLoop`. -/
def mergeLoopD (next_level : Nat) (current : Nat) :
    Nat → BinPtr → BinPtr → List MatchNodeD → Nat → Outcome (List MatchNodeD × Nat)
  | _, .null, _, todo, created => .value (todo, created)
  | _, .bin _ _ _ _ _, .null, todo, created => .value (todo, created)
  | 0, .bin _ _ _ _ _, .bin _ _ _ _ _, _, _ => .outOfFuel
  | fuel + 1, .bin i1 c1 s1 f1 n1, .bin i2 c2 s2 f2 n2, todo, created =>
    match i1.get? next_level with
    | none => .outOfRange
    | some next_first_index =>
      match i2.get? next_level with
      | none => .outOfRange
      | some next_second_index =>
        if next_first_index = next_second_index then
          mergeLoopD next_level current fuel n1 n2
            (MatchNodeD.new ⟨i1, c1, s1, f1, n1⟩ ⟨i2, c2, s2, f2, n2⟩ (.fin 0) (some current) ::
              todo)
            (created + 1)
        else if next_first_index < next_second_index then
          mergeLoopD next_level current fuel n1 (.bin i2 c2 s2 f2 n2) todo created
        else
          mergeLoopD next_level current fuel (.bin i1 c1 s1 f1 n1) n2 todo created

/-- One iteration of the outer `while (!todo.empty())` loop (lines 55-139) in
`double` arithmetic. -/
def stepD (bin_weight_scheme : BinWeightScheme) (st : LoopStateD) : Outcome LoopStateD :=
  match st.todo with
  | [] => .value st
  | current :: rest =>
    let current_first_bin := current.node_
    let current_second_bin := current.counterpart_
    if !current.marked_ then
      let next_first_bin := current_first_bin.firstChild
      let next_second_bin := current_second_bin.firstChild
      let next_level := current_first_bin.index.length
      match mergeLoopD next_level rest.length
          (next_first_bin.chainLength + next_second_bin.chainLength)
          next_first_bin next_second_bin st.todo st.created with
      | .value (todo, created) =>
        .value { st with
          todo := updateSlotD (fun n => { n with marked_ := true }) rest.length todo
          created := created }
      | .assertFailed => .assertFailed
      | .outOfRange => .outOfRange
      | .outOfFuel => .outOfFuel
    else
      if bin_weight_scheme = .BIN_WEIGHT_GLOBAL ∧
          (Double.fin current_first_bin.size).eq (.fin current_second_bin.size) = false then
        .assertFailed
      else
        let bin_size :=
          if bin_weight_scheme = .BIN_WEIGHT_GLOBAL then Double.fin current_first_bin.size
          else (Double.fin current_first_bin.size).add (.fin current_second_bin.size)
        let weight := (Double.fin 1).div ((Double.fin 1).add bin_size)
        let intersection :=
          if (Double.fin current_first_bin.count).gt (.fin current_second_bin.count) then
            Double.fin current_second_bin.count
          else Double.fin current_first_bin.count
        let todo1 :=
          match current.parent_ with
          | some p =>
            updateSlotD
              (fun n => { n with intersection_ := n.intersection_.add intersection }) p st.todo
          | none => st.todo
        match todo1 with
        | [] => .value st
        | current1 :: rest1 =>
          let intersection1 := intersection.sub current1.intersection_
          .value { st with
            todo := rest1
            score := st.score.add (weight.mul intersection1)
            cost := st.cost.add (bin_size.mul intersection1)
            finalized := st.finalized ++ [current1] }

/-- The outer `while (!todo.empty())` loop; one unit of budget per iteration. -/
def loopD (bin_weight_scheme : BinWeightScheme) : Nat → LoopStateD → Outcome LoopStateD
  | 0, st =>
    match st.todo with
    | [] => .value st
    | _ :: _ => .outOfFuel
  | fuel + 1, st =>
    match st.todo with
    | [] => .value st
    | _ :: _ =>
      match stepD bin_weight_scheme st with
      | .value st1 => loopD bin_weight_scheme fuel st1
      | .assertFailed => .assertFailed
      | .outOfRange => .outOfRange
      | .outOfFuel => .outOfFuel

/-- The state in which the outer loop is entered (lines 43-48). -/
def initStateD (first second : MultiResolutionHistogram) : LoopStateD :=
  { todo := [MatchNodeD.new first.root second.root (.fin 0) none]
    score := .fin 0
    cost := .fin 0
    finalized := []
    created := 1 }

/-- The state in which the loop of `MatchPyramids` ends, in `double`
arithmetic, with the budget of `finalState`. -/
def finalStateD (first second : MultiResolutionHistogram)
    (bin_weight_scheme : BinWeightScheme) : Outcome LoopStateD :=
  loopD bin_weight_scheme (2 * (first.root.firstChild.numBins + 1)) (initStateD first second)

/-- `PyramidMatcher::MatchPyramids` in `double` arithmetic. -/
def MatchPyramidsD (first second : MultiResolutionHistogram) (return_type : MatchReturnType)
    (bin_weight_scheme : BinWeightScheme) : Outcome Double :=
  match finalStateD first second bin_weight_scheme with
  | .value st => .value (if return_type = .COST then st.cost else st.score)
  | .assertFailed => .assertFailed
  | .outOfRange => .outOfRange
  | .outOfFuel => .outOfFuel

/-- `PyramidMatcher::GetPyramidMatchCost` in `double` arithmetic. -/
def GetPyramidMatchCostD (first second : MultiResolutionHistogram)
    (bin_weight_scheme : BinWeightScheme) : Outcome Double :=
  if first.numBins < second.numBins then
    MatchPyramidsD first second .COST bin_weight_scheme
  else
    MatchPyramidsD second first .COST bin_weight_scheme

/-- `PyramidMatcher::GetPyramidMatchSimilarity` in `double` arithmetic. -/
def GetPyramidMatchSimilarityD (first second : MultiResolutionHistogram)
    (bin_weight_scheme : BinWeightScheme) : Outcome Double :=
  if first.numBins < second.numBins then
    MatchPyramidsD first second .SIMILARITY bin_weight_scheme
  else
    MatchPyramidsD second first .SIMILARITY bin_weight_scheme

/-- A histogram whose root (count `1 + 3 * 2^-52`, size 1) has three children
of size 0 with counts `3 * 2^-53`, `2^-53` and `1 + 2^-52`: the counts of the
children add up to the count of the root. -/
def roundingTree : MultiResolutionHistogram :=
  ⟨⟨[], 1 + 3 / 2 ^ 52, 1,
    .bin [0] (3 / 2 ^ 53) 0 .null (.bin [1] (1 / 2 ^ 53) 0 .null
      (.bin [2] (1 + 1 / 2 ^ 52) 0 .null .null)), .null⟩, 4⟩

/-- A root-only histogram of count 0 and size `2^1023`. -/
def hugeSize : MultiResolutionHistogram := ⟨⟨[], 0, 2 ^ 1023, .null, .null⟩, 1⟩

/-- A root of count 10 with one child of count `c`, all sizes 2. -/
def tieTree (c : ℚ) : MultiResolutionHistogram :=
  ⟨⟨[], 10, 2, .bin [0] c 2 .null .null, .null⟩, 2⟩

/-! ### A description of the traversal in `double` arithmetic -/

/-- The nodes pushed for a list of bin pairs, last pushed first; see `pushed`. -/
def pushedD (current : Nat) (ps : List (Bin × Bin)) : List MatchNodeD :=
  (ps.map fun p => MatchNodeD.new p.1 p.2 (.fin 0) (some current)).reverse

/-- The `bin_size` of a bin pair (lines 109-117) in `double` arithmetic, when
the assertion holds. -/
def binSizeD (scheme : BinWeightScheme) (a b : Bin) : Double :=
  if scheme = .BIN_WEIGHT_GLOBAL then .fin a.size else (Double.fin a.size).add (.fin b.size)

/-- The `weight` of a bin pair (line 118) in `double` arithmetic. -/
def weightD (scheme : BinWeightScheme) (a b : Bin) : Double :=
  (Double.fin 1).div ((Double.fin 1).add (binSizeD scheme a b))

/-- The ledger that the nodes of the pairs `ps`, pushed in this order and
finalized in the opposite order, leave in their parent (line 127). -/
def ledgerOf (ps : List (Bin × Bin)) : Double :=
  (ps.reverse.map fun p => Double.fin (rawIntersection p.1 p.2)).foldl Double.add (.fin 0)

/-- The ledger of the node of `(A, B)` when it is finalized. -/
def ledgerD (A B : Bin) : Double :=
  match mergePairs A.index.length (A.firstChild.chainLength + B.firstChild.chainLength)
      A.firstChild B.firstChild with
  | .value ps => ledgerOf ps
  | _ => .fin 0

/-- A finalized node as it is in `double` arithmetic. -/
def MatchNode.toD (r : MatchNode) : MatchNodeD :=
  ⟨r.node_, r.counterpart_, ledgerD r.node_ r.counterpart_, r.parent_, r.marked_⟩

/-- The net intersection of a finalized node (line 133) in `double`
arithmetic. -/
def netIntersectionD (r : MatchNodeD) : Double :=
  (Double.fin (rawIntersection r.node_ r.counterpart_)).sub r.intersection_

/-- The `score` after the nodes of `T` are finalized in this order, starting
from `sc` (line 134). -/
def scoreD (scheme : BinWeightScheme) (sc : Double) (T : List MatchNodeD) : Double :=
  T.foldl (fun s r => s.add ((weightD scheme r.node_ r.counterpart_).mul (netIntersectionD r))) sc

/-- The `cost` after the nodes of `T` are finalized in this order, starting
from `co` (line 135). -/
def costD (scheme : BinWeightScheme) (co : Double) (T : List MatchNodeD) : Double :=
  T.foldl (fun s r => s.add ((binSizeD scheme r.node_ r.counterpart_).mul (netIntersectionD r))) co

/-- The ledger updates `parent_->intersection_ += x` for the `x` of a list, in
order, on a vector. -/
def bumpD (parent : Option Nat) (xs : List Double) (todo : List MatchNodeD) : List MatchNodeD :=
  match parent with
  | some p =>
    updateSlotD (fun n => { n with intersection_ := xs.foldl Double.add n.intersection_ }) p todo
  | none => todo

/-- What running the loop on a freshly pushed node does in `double`
arithmetic, as a property of a trace function `f`; see `SimulatesAt`. -/
def SimulatesAtD (scheme : BinWeightScheme) (pslot : Nat)
    (f : Nat → Bin → Bin → Outcome (List MatchNode)) : Prop :=
  ∀ slot a b T, f slot a b = .value T →
    ∀ (rest : List MatchNodeD) (sc co : Double) (fin : List MatchNodeD) (cr k : Nat),
      rest.length = slot → pslot < slot →
      loopD scheme (2 * T.length + k)
          ⟨MatchNodeD.new a b (.fin 0) (some pslot) :: rest, sc, co, fin, cr + 1⟩ =
        if T.all (passes scheme) then
          loopD scheme k ⟨bumpD (some pslot) [.fin (rawIntersection a b)] rest,
            scoreD scheme sc (T.map MatchNode.toD), costD scheme co (T.map MatchNode.toD),
            fin ++ T.map MatchNode.toD, cr + T.length⟩
        else .assertFailed

/-- A result that is zero or more, or `+∞`. -/
def Double.NonnegOrInf (v : Double) : Prop := v = .inf false ∨ ∃ x, v = .fin x ∧ 0 ≤ x

/-- The rational `q` is a natural number not above `2 ^ 53`. -/
def SmallNat (q : ℚ) : Prop := ∃ n : ℕ, q = n ∧ n ≤ 2 ^ 53

/-- Every size on a sibling chain and below it satisfies `P`. -/
def BinPtr.AllSizes (P : ℚ → Prop) : BinPtr → Prop
  | .null => True
  | .bin _ _ s fc ns => P s ∧ fc.AllSizes P ∧ ns.AllSizes P

/-- Every size of the tree rooted at a bin satisfies `P`. -/
def Bin.AllSizes (P : ℚ → Prop) (b : Bin) : Prop := P b.size ∧ b.firstChild.AllSizes P

/-- The net intersections of the finalized nodes, in the order of
finalization, in `double` arithmetic. -/
def finalNetsD (first second : MultiResolutionHistogram)
    (bin_weight_scheme : BinWeightScheme) : Outcome (List Double) :=
  match finalStateD first second bin_weight_scheme with
  | .value st => .value (st.finalized.map netIntersectionD)
  | .assertFailed => .assertFailed
  | .outOfRange => .outOfRange
  | .outOfFuel => .outOfFuel

/-! ## Theorems -/


theorem mergeLoop_eq (lvl cur : Nat) (fuel : Nat) (a b : BinPtr) (todo : List MatchNode)
    (created : Nat) :
    mergeLoop lvl cur fuel a b todo created =
      match mergePairs lvl fuel a b with
      | .value ps => .value (pushed cur ps ++ todo, created + ps.length)
      | .assertFailed => .assertFailed
      | .outOfRange => .outOfRange
      | .outOfFuel => .outOfFuel := by
  induction fuel generalizing a b todo created with
  | zero =>
    cases a <;> cases b <;> simp [mergeLoop, mergePairs, pushed]
  | succ n ih =>
    cases a with
    | null => simp [mergeLoop, mergePairs, pushed]
    | bin i1 c1 s1 f1 n1 =>
      cases b with
      | null => simp [mergeLoop, mergePairs, pushed]
      | bin i2 c2 s2 f2 n2 =>
        simp only [mergeLoop, mergePairs]
        cases h1 : i1.get? lvl with
        | none => simp
        | some x =>
          cases h2 : i2.get? lvl with
          | none => simp
          | some y =>
            simp only
            by_cases hxy : x = y
            · simp only [hxy, if_true]
              rw [ih]
              cases mergePairs lvl n n1 n2 <;> simp [pushed, Nat.add_comm, Nat.add_left_comm]
            · simp only [hxy, if_false]
              by_cases hlt : x < y
              · simp only [hlt, if_true]; rw [ih]
              · simp only [hlt, if_false]; rw [ih]

theorem updateSlot_length (f : MatchNode → MatchNode) (i : Nat) (l : List MatchNode) :
    (updateSlot f i l).length = l.length := by
  induction l with
  | nil => rfl
  | cons x xs ih => by_cases h : xs.length = i <;> simp [updateSlot, h, ih]

theorem updateSlot_append (f : MatchNode → MatchNode) (xs : List MatchNode) (n : MatchNode)
    (rest : List MatchNode) :
    updateSlot f rest.length (xs ++ n :: rest) = xs ++ f n :: rest := by
  induction xs with
  | nil => simp [updateSlot]
  | cons x xs ih =>
    have h : (xs ++ n :: rest).length ≠ rest.length := by simp; omega
    rw [List.cons_append, updateSlot, if_neg h, ih]
    rfl

theorem updateSlot_cons_lt (f : MatchNode → MatchNode) (p : Nat) (x : MatchNode)
    (rest : List MatchNode) (h : p < rest.length) :
    updateSlot f p (x :: rest) = x :: updateSlot f p rest := by
  have h1 : rest.length ≠ p := by omega
  simp [updateSlot, h1]

theorem bump_length (parent : Option Nat) (x : ℚ) (l : List MatchNode) :
    (bump parent x l).length = l.length := by
  cases parent <;> simp [bump, updateSlot_length]

theorem bump_cons_lt (p : Nat) (x : ℚ) (n : MatchNode) (rest : List MatchNode)
    (h : p < rest.length) :
    bump (some p) x (n :: rest) = n :: bump (some p) x rest := by
  simp [bump, updateSlot_cons_lt _ _ _ _ h]

theorem bump_zero (parent : Option Nat) (l : List MatchNode) : bump parent 0 l = l := by
  cases parent with
  | none => rfl
  | some p =>
    simp only [bump]
    induction l with
    | nil => rfl
    | cons x xs ih =>
      by_cases h : xs.length = p
      · simp [updateSlot, h]
      · rw [updateSlot, if_neg h, ih]

theorem bump_bump (parent : Option Nat) (x y : ℚ) (l : List MatchNode) :
    bump parent y (bump parent x l) = bump parent (x + y) l := by
  cases parent with
  | none => rfl
  | some p =>
    simp only [bump]
    induction l with
    | nil => rfl
    | cons a xs ih =>
      by_cases h : xs.length = p
      · simp [updateSlot, h, add_assoc]
      · simp [updateSlot, h, ih, updateSlot_length]

theorem loop_succ_cons (scheme : BinWeightScheme) (fuel : Nat) (st : LoopState)
    (h : st.todo ≠ []) :
    loop scheme (fuel + 1) st =
      match step scheme st with
      | .value st1 => loop scheme fuel st1
      | .assertFailed => .assertFailed
      | .outOfRange => .outOfRange
      | .outOfFuel => .outOfFuel := by
  cases hst : st.todo with
  | nil => exact absurd hst h
  | cons x xs => simp [loop, hst]

theorem step_expand (scheme : BinWeightScheme) (A B : Bin) (parent : Option Nat)
    (rest : List MatchNode) (sc co : ℚ) (fin : List MatchNode) (cr : Nat)
    (ps : List (Bin × Bin))
    (hps : mergePairs A.index.length (A.firstChild.chainLength + B.firstChild.chainLength)
      A.firstChild B.firstChild = .value ps) :
    step scheme ⟨MatchNode.new A B 0 parent :: rest, sc, co, fin, cr⟩ =
      .value ⟨pushed rest.length ps ++ ⟨A, B, 0, parent, true⟩ :: rest, sc, co, fin,
        cr + ps.length⟩ := by
  simp [step, MatchNode.new, mergeLoop_eq, hps, updateSlot_append]

theorem step_finalize (scheme : BinWeightScheme) (A B : Bin) (L : ℚ) (parent : Option Nat)
    (rest : List MatchNode) (sc co : ℚ) (fin : List MatchNode) (cr : Nat)
    (hp : ∀ p, parent = some p → p < rest.length) :
    step scheme ⟨⟨A, B, L, parent, true⟩ :: rest, sc, co, fin, cr⟩ =
      if passes scheme ⟨A, B, L, parent, true⟩ then
        .value ⟨bump parent (rawIntersection A B) rest,
          sc + 1 / (1 + binSize scheme A B) * (rawIntersection A B - L),
          co + binSize scheme A B * (rawIntersection A B - L),
          fin ++ [⟨A, B, L, parent, true⟩], cr⟩
      else .assertFailed := by
  by_cases hpass : scheme = .BIN_WEIGHT_GLOBAL ∧ A.size ≠ B.size
  · simp [step, passes, hpass]
  · cases parent with
    | none => simp [step, passes, hpass, bump, rawIntersection, binSize]
    | some p =>
      have h := hp p rfl
      simp [step, passes, hpass, bump, rawIntersection, binSize, updateSlot_cons_lt _ _ _ _ h]

theorem scoreOf_append (scheme : BinWeightScheme) (T1 T2 : List MatchNode) :
    scoreOf scheme (T1 ++ T2) = scoreOf scheme T1 + scoreOf scheme T2 := by
  simp [scoreOf]

theorem costOf_append (scheme : BinWeightScheme) (T1 T2 : List MatchNode) :
    costOf scheme (T1 ++ T2) = costOf scheme T1 + costOf scheme T2 := by
  simp [costOf]

theorem loop_children (scheme : BinWeightScheme) (pslot : Nat)
    (f : Nat → Bin → Bin → Outcome (List MatchNode)) (hf : SimulatesAt scheme pslot f)
    (ps : List (Bin × Bin)) :
    ∀ (base : Nat) (Tc : List MatchNode), evalChildren f base ps = .value Tc →
    ∀ (below : List MatchNode) (sc co : ℚ) (fin : List MatchNode) (cr k : Nat),
      below.length = base → pslot < base →
      loop scheme (2 * Tc.length + k)
          ⟨pushed pslot ps ++ below, sc, co, fin, cr + ps.length⟩ =
        if Tc.all (passes scheme) then
          loop scheme k ⟨bump (some pslot) (ps.map fun p => rawIntersection p.1 p.2).sum below,
            sc + scoreOf scheme Tc, co + costOf scheme Tc, fin ++ Tc, cr + Tc.length⟩
        else .assertFailed := by
  induction ps with
  | nil =>
    intro base Tc hTc below sc co fin cr k _ _
    simp only [evalChildren, Outcome.value.injEq] at hTc
    subst hTc
    simp [pushed, bump_zero, scoreOf, costOf]
  | cons p ps ih =>
    intro base Tc hTc below sc co fin cr k hlen hlt
    simp only [evalChildren] at hTc
    cases h1 : evalChildren f (base + 1) ps with
    | value T1 =>
      rw [h1] at hTc
      cases h0 : f base p.1 p.2 with
      | value T0 =>
        rw [h0] at hTc
        simp only [Outcome.value.injEq] at hTc
        subst hTc
        have e1 : pushed pslot (p :: ps) ++ below =
            pushed pslot ps ++ (MatchNode.new p.1 p.2 0 (some pslot) :: below) := by
          simp [pushed]
        have e2 : 2 * (T1 ++ T0).length + k = 2 * T1.length + (2 * T0.length + k) := by
          simp; omega
        have e3 : cr + (p :: ps).length = (cr + 1) + ps.length := by simp; omega
        rw [e1, e2, e3]
        rw [ih (base + 1) T1 h1 _ sc co fin (cr + 1) (2 * T0.length + k) (by simp [hlen])
          (by omega)]
        by_cases hp1 : T1.all (passes scheme) = true
        · rw [if_pos hp1]
          rw [bump_cons_lt _ _ _ _ (by omega)]
          have e4 : cr + 1 + T1.length = (cr + T1.length) + 1 := by omega
          rw [e4]
          rw [hf base p.1 p.2 T0 h0 _ _ _ _ _ k (by simp [bump_length, hlen]) hlt]
          by_cases hp0 : T0.all (passes scheme) = true
          · have hall : (T1 ++ T0).all (passes scheme) = true := by
              simp only [List.all_append, hp1, hp0, Bool.and_self]
            rw [if_pos hp0, if_pos hall, bump_bump]
            simp only [scoreOf_append, costOf_append, List.map_cons, List.sum_cons,
              List.length_append, List.append_assoc]
            congr 2
            · congr 1; ring
            · ring
            · ring
            · omega
          · have hall : ¬ (T1 ++ T0).all (passes scheme) = true := by
              simp only [List.all_append, hp1, Bool.true_and]; exact hp0
            rw [if_neg hp0, if_neg hall]
        · have hall : ¬ (T1 ++ T0).all (passes scheme) = true := by
            simp only [List.all_append, Bool.and_eq_true, not_and]
            intro h; exact absurd h hp1
          rw [if_neg hp1, if_neg hall]
      | assertFailed => rw [h0] at hTc; simp at hTc
      | outOfRange => rw [h0] at hTc; simp at hTc
      | outOfFuel => rw [h0] at hTc; simp at hTc
    | assertFailed => rw [h1] at hTc; simp at hTc
    | outOfRange => rw [h1] at hTc; simp at hTc
    | outOfFuel => rw [h1] at hTc; simp at hTc

theorem bump_head (x : ℚ) (n : MatchNode) (rest : List MatchNode) :
    bump (some rest.length) x (n :: rest) =
      { n with intersection_ := n.intersection_ + x } :: rest := by
  simp [bump, updateSlot]

theorem loop_finalizedTrace (scheme : BinWeightScheme) :
    ∀ (d : Nat) (parent : Option Nat) (slot : Nat) (A B : Bin) (T : List MatchNode),
    finalizedTrace d parent slot A B = .value T →
    ∀ (rest : List MatchNode) (sc co : ℚ) (fin : List MatchNode) (cr k : Nat),
      rest.length = slot → (∀ p, parent = some p → p < slot) →
      loop scheme (2 * T.length + k)
          ⟨MatchNode.new A B 0 parent :: rest, sc, co, fin, cr + 1⟩ =
        if T.all (passes scheme) then
          loop scheme k ⟨bump parent (rawIntersection A B) rest,
            sc + scoreOf scheme T, co + costOf scheme T, fin ++ T, cr + T.length⟩
        else .assertFailed := by
  intro d
  induction d with
  | zero => intro parent slot A B T h; simp [finalizedTrace] at h
  | succ d ih =>
    intro parent slot A B T hT rest sc co fin cr k hlen hpar
    simp only [finalizedTrace] at hT
    cases hps : mergePairs A.index.length
        (A.firstChild.chainLength + B.firstChild.chainLength) A.firstChild B.firstChild with
    | value ps =>
      rw [hps] at hT
      simp only at hT
      cases hTc : evalChildren (fun s a b => finalizedTrace d (some slot) s a b) (slot + 1) ps with
      | value Tc =>
        rw [hTc] at hT
        simp only [Outcome.value.injEq] at hT
        subst hT
        have hf : SimulatesAt scheme slot (fun s a b => finalizedTrace d (some slot) s a b) := by
          intro slot1 a b T1 h1 rest1 sc1 co1 fin1 cr1 k1 hl1 hlt1
          exact ih (some slot) slot1 a b T1 h1 rest1 sc1 co1 fin1 cr1 k1 hl1
            (by intro p hp; cases hp; exact hlt1)
        have e1 : 2 * (Tc ++ [(⟨A, B, (ps.map fun p => rawIntersection p.1 p.2).sum, parent,
            true⟩ : MatchNode)]).length + k = (2 * Tc.length + ((k + 1))) + 1 := by
          simp; omega
        rw [e1, loop_succ_cons _ _ _ (by simp), step_expand scheme A B parent rest sc co fin
          (cr + 1) ps hps]
        simp only
        subst hlen
        rw [loop_children scheme rest.length _ hf ps (rest.length + 1) Tc hTc _ sc co fin
          (cr + 1) (k + 1) (by simp) (by omega)]
        by_cases hp1 : Tc.all (passes scheme) = true
        · rw [if_pos hp1, bump_head, loop_succ_cons _ _ _ (by simp)]
          simp only [zero_add]
          rw [step_finalize scheme A B _ parent rest _ _ _ _ hpar]
          by_cases hp0 : passes scheme ⟨A, B, (ps.map fun p => rawIntersection p.1 p.2).sum,
              parent, true⟩ = true
          · have hall : (Tc ++ [(⟨A, B, (ps.map fun p => rawIntersection p.1 p.2).sum, parent,
                true⟩ : MatchNode)]).all (passes scheme) = true := by
              simp only [List.all_append, hp1, List.all_cons, hp0, List.all_nil, Bool.and_self]
            rw [if_pos hp0, if_pos hall]
            simp only [scoreOf_append, costOf_append, List.length_append, List.length_singleton,
              List.append_assoc]
            congr 2
            · simp [scoreOf, netIntersection]; ring
            · simp [costOf, netIntersection]; ring
            · omega
          · have hall : ¬ (Tc ++ [(⟨A, B, (ps.map fun p => rawIntersection p.1 p.2).sum, parent,
                true⟩ : MatchNode)]).all (passes scheme) = true := by
              simp only [List.all_append, hp1, List.all_cons, List.all_nil, Bool.and_true,
                Bool.true_and]
              exact hp0
            rw [if_neg hp0, if_neg hall]
        · have hall : ¬ (Tc ++ [(⟨A, B, (ps.map fun p => rawIntersection p.1 p.2).sum, parent,
              true⟩ : MatchNode)]).all (passes scheme) = true := by
            simp only [List.all_append, Bool.and_eq_true, not_and]
            intro h; exact absurd h hp1
          rw [if_neg hp1, if_neg hall]
      | assertFailed => rw [hTc] at hT; simp at hT
      | outOfRange => rw [hTc] at hT; simp at hT
      | outOfFuel => rw [hTc] at hT; simp at hT
    | assertFailed => rw [hps] at hT; simp at hT
    | outOfRange => rw [hps] at hT; simp at hT
    | outOfFuel => rw [hps] at hT; simp at hT

theorem mergePairs_ne_outOfFuel (lvl : Nat) :
    ∀ (fuel : Nat) (a b : BinPtr), a.chainLength + b.chainLength ≤ fuel →
      mergePairs lvl fuel a b ≠ .outOfFuel := by
  intro fuel
  induction fuel with
  | zero =>
    intro a b h
    cases a <;> cases b <;> simp [mergePairs, BinPtr.chainLength] at h ⊢
  | succ n ih =>
    intro a b h
    cases a with
    | null => simp [mergePairs]
    | bin i1 c1 s1 f1 n1 =>
      cases b with
      | null => simp [mergePairs]
      | bin i2 c2 s2 f2 n2 =>
        simp only [BinPtr.chainLength] at h
        simp only [mergePairs]
        cases h1 : i1.get? lvl with
        | none => simp
        | some x =>
          cases h2 : i2.get? lvl with
          | none => simp
          | some y =>
            simp only
            by_cases hxy : x = y
            · simp only [hxy, if_true]
              have := ih n1 n2 (by omega)
              cases hm : mergePairs lvl n n1 n2 <;> simp_all
            · simp only [hxy, if_false]
              by_cases hlt : x < y
              · simp only [hlt, if_true]
                exact ih n1 _ (by simp only [BinPtr.chainLength]; omega)
              · simp only [hlt, if_false]
                exact ih _ n2 (by simp only [BinPtr.chainLength]; omega)

theorem mergePairs_ne_assertFailed (lvl : Nat) :
    ∀ (fuel : Nat) (a b : BinPtr), mergePairs lvl fuel a b ≠ .assertFailed := by
  intro fuel
  induction fuel with
  | zero =>
    intro a b
    cases a <;> cases b <;> simp [mergePairs]
  | succ n ih =>
    intro a b
    cases a with
    | null => simp [mergePairs]
    | bin i1 c1 s1 f1 n1 =>
      cases b with
      | null => simp [mergePairs]
      | bin i2 c2 s2 f2 n2 =>
        simp only [mergePairs]
        cases h1 : i1.get? lvl with
        | none => simp
        | some x =>
          cases h2 : i2.get? lvl with
          | none => simp
          | some y =>
            simp only
            by_cases hxy : x = y
            · simp only [hxy, if_true]
              have := ih n1 n2
              cases hm : mergePairs lvl n n1 n2 <;> simp_all
            · simp only [hxy, if_false]
              by_cases hlt : x < y
              · simp only [hlt, if_true]
                exact ih n1 _
              · simp only [hlt, if_false]
                exact ih _ n2

theorem mergePairs_sublist (lvl : Nat) :
    ∀ (fuel : Nat) (a b : BinPtr) (ps : List (Bin × Bin)),
      mergePairs lvl fuel a b = .value ps →
      (ps.map Prod.fst).Sublist a.toList ∧ (ps.map Prod.snd).Sublist b.toList := by
  intro fuel
  induction fuel with
  | zero =>
    intro a b ps h
    cases a <;> cases b <;> simp [mergePairs] at h <;> subst h <;> simp
  | succ n ih =>
    intro a b ps h
    cases a with
    | null => simp [mergePairs] at h; subst h; simp
    | bin i1 c1 s1 f1 n1 =>
      cases b with
      | null => simp [mergePairs] at h; subst h; simp
      | bin i2 c2 s2 f2 n2 =>
        simp only [mergePairs] at h
        cases h1 : i1.get? lvl with
        | none => rw [h1] at h; simp at h
        | some x =>
          rw [h1] at h
          cases h2 : i2.get? lvl with
          | none => rw [h2] at h; simp at h
          | some y =>
            rw [h2] at h
            simp only at h
            by_cases hxy : x = y
            · simp only [hxy, if_true] at h
              cases hm : mergePairs lvl n n1 n2 with
              | value qs =>
                rw [hm] at h
                simp only [Outcome.value.injEq] at h
                subst h
                obtain ⟨ha, hb⟩ := ih n1 n2 qs hm
                simp only [List.map_cons, BinPtr.toList]
                exact ⟨ha.cons₂ _, hb.cons₂ _⟩
              | assertFailed => rw [hm] at h; simp at h
              | outOfRange => rw [hm] at h; simp at h
              | outOfFuel => rw [hm] at h; simp at h
            · simp only [hxy, if_false] at h
              by_cases hlt : x < y
              · simp only [hlt, if_true] at h
                obtain ⟨ha, hb⟩ := ih n1 _ ps h
                exact ⟨by simp only [BinPtr.toList]; exact ha.cons _, hb⟩
              · simp only [hlt, if_false] at h
                obtain ⟨ha, hb⟩ := ih _ n2 ps h
                exact ⟨ha, by simp only [BinPtr.toList]; exact hb.cons _⟩

theorem get?_of_dropLast (i p : List Int) (h1 : i ≠ []) (h2 : i.dropLast = p) :
    i.get? p.length = i.getLast? := by
  subst h2
  obtain ⟨l, a, rfl⟩ : ∃ l a, i = l ++ [a] := by
    rcases List.eq_nil_or_concat i with h | ⟨l, a, h⟩
    · exact absurd h h1
    · exact ⟨l, a, by simpa using h⟩
  simp

theorem length_of_dropLast (i p : List Int) (h1 : i ≠ []) (h2 : i.dropLast = p) :
    i.length = p.length + 1 := by
  subst h2
  have : 0 < i.length := List.length_pos.mpr h1
  simp; omega

theorem wellFormed_mem {p : List Int} {as : BinPtr} (h : as.WellFormed p) {a : Bin}
    (ha : a ∈ as.toList) : (a.index ≠ [] ∧ a.index.dropLast = p) ∧ a.WellFormed := by
  induction as with
  | null => simp [BinPtr.toList] at ha
  | bin i c s fc ns _ ih2 =>
    simp only [BinPtr.WellFormed] at h
    simp only [BinPtr.toList, List.mem_cons] at ha
    rcases ha with rfl | ha
    · exact ⟨h.1, h.2.1⟩
    · exact ih2 h.2.2 ha

theorem numBins_mem {as : BinPtr} {a : Bin} (ha : a ∈ as.toList) :
    a.firstChild.numBins + 1 ≤ as.numBins := by
  induction as with
  | null => simp [BinPtr.toList] at ha
  | bin i c s fc ns _ ih2 =>
    simp only [BinPtr.toList, List.mem_cons] at ha
    simp only [BinPtr.numBins]
    rcases ha with rfl | ha
    · simp
    · have := ih2 ha; omega

theorem numBins_eq_sum (as : BinPtr) :
    as.numBins = (as.toList.map fun a => a.firstChild.numBins + 1).sum := by
  induction as with
  | null => rfl
  | bin i c s fc ns _ ih2 =>
    simp only [BinPtr.numBins, BinPtr.toList, List.map_cons, List.sum_cons, ih2]
    omega

theorem mergePairs_wellFormed (lvl : Nat) :
    ∀ (fuel : Nat) (a b : BinPtr) (pa pb : List Int),
      a.WellFormed pa → b.WellFormed pb → pa.length = lvl → pb.length = lvl →
      a.chainLength + b.chainLength ≤ fuel →
      ∃ ps, mergePairs lvl fuel a b = .value ps := by
  intro fuel
  induction fuel with
  | zero =>
    intro a b pa pb _ _ _ _ h
    cases a <;> cases b <;> simp [mergePairs, BinPtr.chainLength] at h ⊢
  | succ n ih =>
    intro a b pa pb ha hb hla hlb h
    cases a with
    | null => simp [mergePairs]
    | bin i1 c1 s1 f1 n1 =>
      cases b with
      | null => simp [mergePairs]
      | bin i2 c2 s2 f2 n2 =>
        simp only [BinPtr.chainLength] at h
        have ha0 := ha
        have hb0 := hb
        simp only [BinPtr.WellFormed] at ha hb
        have g1 : i1.get? lvl = i1.getLast? := hla ▸ get?_of_dropLast i1 pa ha.1.1 ha.1.2
        have g2 : i2.get? lvl = i2.getLast? := hlb ▸ get?_of_dropLast i2 pb hb.1.1 hb.1.2
        obtain ⟨x, hx⟩ : ∃ x, i1.getLast? = some x := by
          cases hh : i1.getLast? with
          | none => exact absurd (List.getLast?_eq_none_iff.mp hh) ha.1.1
          | some x => exact ⟨x, rfl⟩
        obtain ⟨y, hy⟩ : ∃ y, i2.getLast? = some y := by
          cases hh : i2.getLast? with
          | none => exact absurd (List.getLast?_eq_none_iff.mp hh) hb.1.1
          | some x => exact ⟨x, rfl⟩
        simp only [mergePairs, g1, g2, hx, hy]
        by_cases hxy : x = y
        · simp only [hxy, if_true]
          obtain ⟨qs, hq⟩ := ih n1 n2 pa pb ha.2.2 hb.2.2 hla hlb (by omega)
          rw [hq]; exact ⟨_, rfl⟩
        · simp only [hxy, if_false]
          by_cases hlt : x < y
          · simp only [hlt, if_true]
            exact ih n1 _ pa pb ha.2.2 hb0 hla hlb (by simp only [BinPtr.chainLength]; omega)
          · simp only [hlt, if_false]
            exact ih _ n2 pa pb ha0 hb.2.2 hla hlb (by simp only [BinPtr.chainLength]; omega)

theorem evalChildren_value (f : Nat → Bin → Bin → Outcome (List MatchNode))
    (ps : List (Bin × Bin)) (h : ∀ p ∈ ps, ∀ s, ∃ T, f s p.1 p.2 = .value T) :
    ∀ base, ∃ T, evalChildren f base ps = .value T := by
  induction ps with
  | nil => intro base; exact ⟨[], rfl⟩
  | cons p ps ih =>
    intro base
    obtain ⟨T1, h1⟩ := ih (fun q hq => h q (List.mem_cons_of_mem _ hq)) (base + 1)
    obtain ⟨T0, h0⟩ := h p (List.mem_cons_self _ _) base
    exact ⟨T1 ++ T0, by simp [evalChildren, h1, h0]⟩

theorem finalizedTrace_wellFormed :
    ∀ (d : Nat) (parent : Option Nat) (slot : Nat) (A B : Bin),
      A.WellFormed → B.WellFormed → A.index.length = B.index.length →
      A.firstChild.numBins + 1 ≤ d →
      ∃ T, finalizedTrace d parent slot A B = .value T := by
  intro d
  induction d with
  | zero => intro _ _ A B _ _ _ h; omega
  | succ d ih =>
    intro parent slot A B hA hB hlen hd
    obtain ⟨ps, hps⟩ := mergePairs_wellFormed A.index.length _ A.firstChild B.firstChild
      A.index B.index hA hB rfl hlen.symm (le_refl _)
    have hsub := mergePairs_sublist _ _ _ _ _ hps
    have hch : ∀ p ∈ ps, ∀ s, ∃ T, finalizedTrace d (some slot) s p.1 p.2 = .value T := by
      intro p hp s
      have h1 : p.1 ∈ A.firstChild.toList := hsub.1.subset (List.mem_map_of_mem _ hp)
      have h2 : p.2 ∈ B.firstChild.toList := hsub.2.subset (List.mem_map_of_mem _ hp)
      have w1 := wellFormed_mem hA h1
      have w2 := wellFormed_mem hB h2
      have l1 := length_of_dropLast _ _ w1.1.1 w1.1.2
      have l2 := length_of_dropLast _ _ w2.1.1 w2.1.2
      have := numBins_mem h1
      exact ih (some slot) s p.1 p.2 w1.2 w2.2 (by omega) (by omega)
    obtain ⟨Tc, hTc⟩ := evalChildren_value _ ps hch (slot + 1)
    refine ⟨Tc ++ [⟨A, B, (ps.map fun p => rawIntersection p.1 p.2).sum, parent, true⟩], ?_⟩
    simp only [finalizedTrace, hps, hTc]

theorem evalChildren_length (f : Nat → Bin → Bin → Outcome (List MatchNode))
    (g : Bin → Nat) (ps : List (Bin × Bin))
    (h : ∀ p ∈ ps, ∀ s T, f s p.1 p.2 = .value T → T.length ≤ g p.1) :
    ∀ base T, evalChildren f base ps = .value T →
      T.length ≤ ((ps.map Prod.fst).map g).sum := by
  induction ps with
  | nil => intro base T hT; simp [evalChildren] at hT; subst hT; simp
  | cons p ps ih =>
    intro base T hT
    simp only [evalChildren] at hT
    cases h1 : evalChildren f (base + 1) ps with
    | value T1 =>
      rw [h1] at hT
      cases h0 : f base p.1 p.2 with
      | value T0 =>
        rw [h0] at hT
        simp only [Outcome.value.injEq] at hT
        subst hT
        have a1 := ih (fun q hq => h q (List.mem_cons_of_mem _ hq)) (base + 1) T1 h1
        have a0 := h p (List.mem_cons_self _ _) base T0 h0
        simp only [List.length_append, List.map_cons, List.sum_cons]
        omega
      | assertFailed => rw [h0] at hT; simp at hT
      | outOfRange => rw [h0] at hT; simp at hT
      | outOfFuel => rw [h0] at hT; simp at hT
    | assertFailed => rw [h1] at hT; simp at hT
    | outOfRange => rw [h1] at hT; simp at hT
    | outOfFuel => rw [h1] at hT; simp at hT

theorem finalizedTrace_length_le :
    ∀ (d : Nat) (parent : Option Nat) (slot : Nat) (A B : Bin) (T : List MatchNode),
      finalizedTrace d parent slot A B = .value T → T.length ≤ A.firstChild.numBins + 1 := by
  intro d
  induction d with
  | zero => intro _ _ A B T h; simp [finalizedTrace] at h
  | succ d ih =>
    intro parent slot A B T hT
    simp only [finalizedTrace] at hT
    cases hps : mergePairs A.index.length
        (A.firstChild.chainLength + B.firstChild.chainLength) A.firstChild B.firstChild with
    | value ps =>
      rw [hps] at hT
      simp only at hT
      cases hTc : evalChildren (fun s a b => finalizedTrace d (some slot) s a b) (slot + 1) ps with
      | value Tc =>
        rw [hTc] at hT
        simp only [Outcome.value.injEq] at hT
        subst hT
        have hsub := (mergePairs_sublist _ _ _ _ _ hps).1
        have h1 := evalChildren_length _ (fun a => a.firstChild.numBins + 1) ps
          (fun p _ s T h => ih (some slot) s p.1 p.2 T h) (slot + 1) Tc hTc
        have h2 : ((ps.map Prod.fst).map fun a => a.firstChild.numBins + 1).sum ≤
            (A.firstChild.toList.map fun a => a.firstChild.numBins + 1).sum :=
          (hsub.map _).sum_le_sum (fun _ _ => Nat.zero_le _)
        rw [← numBins_eq_sum] at h2
        simp only [List.length_append, List.length_singleton]
        omega
      | assertFailed => rw [hTc] at hT; simp at hT
      | outOfRange => rw [hTc] at hT; simp at hT
      | outOfFuel => rw [hTc] at hT; simp at hT
    | assertFailed => rw [hps] at hT; simp at hT
    | outOfRange => rw [hps] at hT; simp at hT
    | outOfFuel => rw [hps] at hT; simp at hT

theorem loop_nil (scheme : BinWeightScheme) (k : Nat) (sc co : ℚ) (fin : List MatchNode)
    (cr : Nat) : loop scheme k ⟨[], sc, co, fin, cr⟩ = .value ⟨[], sc, co, fin, cr⟩ := by
  cases k <;> simp [loop]

theorem runPyramids_eq (first second : MultiResolutionHistogram) (scheme : BinWeightScheme)
    (T : List MatchNode) (hT : matchTrace first second = .value T) (k : Nat) :
    runPyramids (2 * T.length + k) first second scheme =
      if T.all (passes scheme) then
        .value ⟨[], scoreOf scheme T, costOf scheme T, T, T.length⟩
      else .assertFailed := by
  have h := loop_finalizedTrace scheme _ none 0 first.root second.root T hT [] 0 0 [] 0 k rfl
    (by intro p hp; cases hp)
  simp only [runPyramids, initState]
  simp only [zero_add, List.nil_append, bump, loop_nil] at h
  exact h

theorem MatchPyramids_eq (first second : MultiResolutionHistogram)
    (return_type : MatchReturnType) (scheme : BinWeightScheme)
    (T : List MatchNode) (hT : matchTrace first second = .value T) :
    MatchPyramids first second return_type scheme =
      if T.all (passes scheme) then
        .value (if return_type = .COST then costOf scheme T else scoreOf scheme T)
      else .assertFailed := by
  have hle := finalizedTrace_length_le _ _ _ _ _ _ hT
  obtain ⟨k, hk⟩ : ∃ k, 2 * (first.root.firstChild.numBins + 1) = 2 * T.length + k :=
    ⟨2 * (first.root.firstChild.numBins + 1) - 2 * T.length, by omega⟩
  simp only [MatchPyramids, finalState]
  rw [hk, runPyramids_eq first second scheme T hT k]
  by_cases hp : T.all (passes scheme) = true
  · simp [hp]
  · simp [hp]

/-! ### Pairs related by a predicate -/

theorem pairsWhere_nil_right {α β : Type} (r : α → β → Bool) (xs : List α) :
    pairsWhere r xs ([] : List β) = [] := by
  induction xs with
  | nil => rfl
  | cons x xs ih => simp [pairsWhere]

theorem pairsWhere_cons_left {α β : Type} (r : α → β → Bool) (x : α) (xs : List α)
    (ys : List β) :
    pairsWhere r (x :: xs) ys = ((ys.filter (r x)).map fun y => (x, y)) ++ pairsWhere r xs ys := by
  simp [pairsWhere]

theorem pairsWhere_append_left {α β : Type} (r : α → β → Bool) (xs xs' : List α)
    (ys : List β) :
    pairsWhere r (xs ++ xs') ys = pairsWhere r xs ys ++ pairsWhere r xs' ys := by
  simp [pairsWhere]

theorem pairsWhere_flatMap_left {α β γ : Type} (r : α → β → Bool) (l : List γ)
    (f : γ → List α) (ys : List β) :
    pairsWhere r (l.flatMap f) ys = l.flatMap fun c => pairsWhere r (f c) ys := by
  induction l with
  | nil => rfl
  | cons c l ih => simp [List.flatMap_cons, pairsWhere_append_left, ih]

theorem pairsWhere_congr {α β : Type} (r r' : α → β → Bool) (xs : List α) (ys : List β)
    (h : ∀ x ∈ xs, ∀ y ∈ ys, r x y = r' x y) :
    pairsWhere r xs ys = pairsWhere r' xs ys := by
  induction xs with
  | nil => rfl
  | cons x xs ih =>
    rw [pairsWhere_cons_left, pairsWhere_cons_left,
      ih (fun a ha => h a (List.mem_cons_of_mem _ ha))]
    congr 2
    exact List.filter_congr (fun y hy => h x (List.mem_cons_self _ _) y hy)

theorem pairsWhere_eq_nil {α β : Type} (r : α → β → Bool) (xs : List α) (ys : List β)
    (h : ∀ x ∈ xs, ∀ y ∈ ys, r x y = false) : pairsWhere r xs ys = [] := by
  induction xs with
  | nil => rfl
  | cons x xs ih =>
    rw [pairsWhere_cons_left, ih (fun a ha => h a (List.mem_cons_of_mem _ ha))]
    have : ys.filter (r x) = [] := by
      rw [List.filter_eq_nil_iff]
      intro y hy
      simp [h x (List.mem_cons_self _ _) y hy]
    simp [this]

theorem pairsWhere_cons_right_of_false {α β : Type} (r : α → β → Bool) (xs : List α) (y : β)
    (ys : List β) (h : ∀ x ∈ xs, r x y = false) :
    pairsWhere r xs (y :: ys) = pairsWhere r xs ys := by
  induction xs with
  | nil => rfl
  | cons x xs ih =>
    rw [pairsWhere_cons_left, pairsWhere_cons_left,
      ih (fun a ha => h a (List.mem_cons_of_mem _ ha))]
    simp [List.filter_cons, h x (List.mem_cons_self _ _)]

theorem pairsWhere_append_right {α β : Type} (r : α → β → Bool) (xs : List α)
    (ys ys' : List β) :
    (pairsWhere r xs (ys ++ ys')).Perm (pairsWhere r xs ys ++ pairsWhere r xs ys') := by
  induction xs with
  | nil => exact List.Perm.refl _
  | cons x xs ih =>
    simp only [pairsWhere_cons_left, List.filter_append, List.map_append, List.append_assoc]
    refine List.Perm.append_left _ ?_
    refine (List.Perm.append_left _ ih).trans ?_
    simp only [← List.append_assoc]
    refine List.Perm.append_right _ ?_
    exact List.perm_append_comm

theorem pairsWhere_flatMap_right {α β γ : Type} (r : α → β → Bool) (xs : List α)
    (l : List γ) (g : γ → List β) :
    (pairsWhere r xs (l.flatMap g)).Perm (l.flatMap fun c => pairsWhere r xs (g c)) := by
  induction l with
  | nil => simp [pairsWhere_nil_right]
  | cons c l ih =>
    simp only [List.flatMap_cons]
    exact (pairsWhere_append_right r xs _ _).trans (List.Perm.append_left _ ih)

theorem pairsWhere_swap {α β : Type} (r : α → β → Bool) (xs : List α) (ys : List β) :
    (pairsWhere (fun y x => r x y) ys xs).Perm ((pairsWhere r xs ys).map Prod.swap) := by
  induction xs with
  | nil => simp [pairsWhere_nil_right, pairsWhere]
  | cons x xs ih =>
    have h1 : pairsWhere (fun y x => r x y) ys (x :: xs) =
        pairsWhere (fun y x => r x y) ys ([x] ++ xs) := rfl
    rw [h1, pairsWhere_cons_left, List.map_append]
    refine (pairsWhere_append_right _ ys [x] xs).trans ?_
    refine List.Perm.append ?_ ih
    have : pairsWhere (fun y x => r x y) ys [x] =
        ((ys.filter (r x)).map fun y => (x, y)).map Prod.swap := by
      clear ih h1
      induction ys with
      | nil => rfl
      | cons y ys ih2 =>
        rw [pairsWhere_cons_left, ih2]
        by_cases hr : r x y = true <;> simp [List.filter_cons, hr]
    rw [this]

theorem mem_pairsWhere {α β : Type} (r : α → β → Bool) (xs : List α) (ys : List β)
    (p : α × β) : p ∈ pairsWhere r xs ys ↔ p.1 ∈ xs ∧ p.2 ∈ ys ∧ r p.1 p.2 = true := by
  obtain ⟨a, b⟩ := p
  simp only [pairsWhere, List.mem_flatMap, List.mem_map, List.mem_filter, Prod.mk.injEq]
  constructor
  · rintro ⟨x, hx, y, ⟨hy, hr⟩, rfl, rfl⟩
    exact ⟨hx, hy, hr⟩
  · rintro ⟨hx, hy, hr⟩
    exact ⟨a, hx, b, ⟨hy, hr⟩, rfl, rfl⟩

theorem flatMap_filter_eq {β γ : Type} (p : β → Bool) (l : List β) (f : β → List γ) :
    (l.filter p).flatMap f = l.flatMap fun b => if p b then f b else [] := by
  induction l with
  | nil => rfl
  | cons b l ih =>
    by_cases hp : p b = true <;> simp [List.filter_cons, hp, ih]

theorem pairsWhere_flatMap {α β γ : Type} (r : α → β → Bool) (xs : List α) (ys : List β)
    (f : α × β → List γ) :
    (pairsWhere r xs ys).flatMap f =
      xs.flatMap fun x => ys.flatMap fun y => if r x y then f (x, y) else [] := by
  simp only [pairsWhere, List.flatMap_assoc, List.flatMap_map, flatMap_filter_eq]

/-! ### Index paths in well-formed trees -/

theorem binsBelow_eq_flatMap (as : BinPtr) : as.binsBelow = as.toList.flatMap Bin.bins := by
  induction as with
  | null => rfl
  | bin i c s fc ns _ ih2 =>
    simp only [BinPtr.binsBelow, BinPtr.toList, List.flatMap_cons, Bin.bins, ih2,
      List.cons_append]

theorem bins_eq (A : Bin) : A.bins = A :: A.children.flatMap Bin.bins := by
  simp only [Bin.bins, Bin.children, binsBelow_eq_flatMap]

theorem eq_append_of_dropLast {i p : List Int} (h1 : i ≠ []) (h2 : i.dropLast = p) :
    ∃ k, i = p ++ [k] ∧ i.getLast? = some k := by
  subst h2
  refine ⟨i.getLast h1, (List.dropLast_append_getLast h1).symm, ?_⟩
  exact List.getLast?_eq_getLast _ h1

theorem binsBelow_index (as : BinPtr) :
    ∀ (p : List Int), as.WellFormed p → ∀ x ∈ as.binsBelow, ∃ k q, x.index = p ++ k :: q := by
  induction as with
  | null => intro p _ x hx; simp [BinPtr.binsBelow] at hx
  | bin i c s fc ns ih1 ih2 =>
    intro p h x hx
    simp only [BinPtr.WellFormed] at h
    obtain ⟨k, hk, _⟩ := eq_append_of_dropLast h.1.1 h.1.2
    simp only [BinPtr.binsBelow, List.cons_append, List.mem_cons, List.mem_append] at hx
    rcases hx with rfl | hx | hx
    · exact ⟨k, [], hk⟩
    · obtain ⟨k1, q1, h1⟩ := ih1 i h.2.1 x hx
      exact ⟨k, k1 :: q1, by rw [h1, hk]; simp⟩
    · exact ih2 p h.2.2 x hx

theorem bins_index {A : Bin} (hA : A.WellFormed) {x : Bin} (hx : x ∈ A.bins) :
    ∃ q, x.index = A.index ++ q := by
  simp only [Bin.bins, List.mem_cons] at hx
  rcases hx with rfl | hx
  · exact ⟨[], by simp⟩
  · obtain ⟨k, q, h⟩ := binsBelow_index _ _ hA x hx
    exact ⟨k :: q, h⟩

theorem relPath_self (A : Bin) : relPath A A = [] := by
  simp [relPath]

theorem relPath_below {A : Bin} (hA : A.WellFormed) {x : Bin}
    (hx : x ∈ A.children.flatMap Bin.bins) : relPath A x ≠ [] := by
  rw [Bin.children, ← binsBelow_eq_flatMap] at hx
  obtain ⟨k, q, h⟩ := binsBelow_index _ _ hA x hx
  simp [relPath, h]

theorem relPath_child {A a : Bin} (hA : A.WellFormed) (ha : a ∈ A.children) {x : Bin}
    (hx : x ∈ a.bins) :
    ∃ k, a.index.getLast? = some k ∧ relPath A x = k :: relPath a x := by
  have w := wellFormed_mem hA ha
  obtain ⟨k, hk, hl⟩ := eq_append_of_dropLast w.1.1 w.1.2
  obtain ⟨q, hq⟩ := bins_index w.2 hx
  refine ⟨k, hl, ?_⟩
  simp [relPath, hq, hk]

theorem correspondences_rec {A B : Bin} (hA : A.WellFormed) (hB : B.WellFormed) :
    (correspondences A B).Perm
      ((A, B) :: (commonChildren A B).flatMap fun p => correspondences p.1 p.2) := by
  have e1 : correspondences A B =
      (A, B) :: pairsWhere (fun a b => decide (relPath A a = relPath B b))
        (A.children.flatMap Bin.bins) (B.children.flatMap Bin.bins) := by
    simp only [correspondences]
    rw [bins_eq A, bins_eq B, pairsWhere_cons_left]
    have f1 : ((B :: B.children.flatMap Bin.bins).filter
        (fun b => decide (relPath A A = relPath B b))) = [B] := by
      rw [List.filter_cons, relPath_self, relPath_self]
      simp only [decide_True, if_true, List.cons.injEq, true_and]
      rw [List.filter_eq_nil_iff]
      intro y hy
      have := relPath_below hB hy
      simp only [decide_eq_true_eq]
      exact fun h => this h.symm
    rw [f1, pairsWhere_cons_right_of_false]
    · rfl
    · intro x hx
      have := relPath_below hA hx
      simpa [relPath_self] using this
  rw [e1]
  refine List.Perm.cons _ ?_
  rw [pairsWhere_flatMap_left]
  have e2 : (commonChildren A B).flatMap (fun p => correspondences p.1 p.2) =
      A.children.flatMap fun a => B.children.flatMap fun b =>
        if decide (a.index.getLast? = b.index.getLast?) then correspondences a b else [] := by
    simp only [commonChildren, pairsWhere_flatMap]
  rw [e2]
  refine List.Perm.flatMap_left _ ?_
  intro a ha
  refine (pairsWhere_flatMap_right _ _ _ _).trans ?_
  refine List.Perm.flatMap_left _ ?_
  intro b hb
  have key : ∀ x ∈ a.bins, ∀ y ∈ b.bins,
      decide (relPath A x = relPath B y) =
        (decide (a.index.getLast? = b.index.getLast?) && decide (relPath a x = relPath b y)) := by
    intro x hx y hy
    obtain ⟨k1, hk1, hr1⟩ := relPath_child hA ha hx
    obtain ⟨k2, hk2, hr2⟩ := relPath_child hB hb hy
    rw [hr1, hr2, hk1, hk2]
    simp only [List.cons.injEq, Option.some.injEq, Bool.decide_and]
  by_cases hk : a.index.getLast? = b.index.getLast?
  · simp only [hk, decide_True, if_true]
    rw [correspondences, pairsWhere_congr _ _ _ _ key]
    simp [hk]
  · simp only [hk, decide_False]
    rw [pairsWhere_eq_nil]
    · simp
    · intro x hx y hy
      rw [key x hx y hy]
      simp [hk]

/-! ### The merge on ascending chains -/

theorem lastLt_iff (i j : List Int) :
    lastLt i j ↔ ∃ x y, i.getLast? = some x ∧ j.getLast? = some y ∧ x < y := by
  unfold lastLt
  cases hi : i.getLast? with
  | none => simp
  | some x =>
    cases hj : j.getLast? with
    | none => simp
    | some y => simp

theorem ascending_mem {as : BinPtr} (h : as.Ascending) {a : Bin} (ha : a ∈ as.toList) :
    a.Ascending := by
  induction as with
  | null => simp [BinPtr.toList] at ha
  | bin i c s fc ns _ ih2 =>
    simp only [BinPtr.Ascending] at h
    simp only [BinPtr.toList, List.mem_cons] at ha
    rcases ha with rfl | ha
    · exact h.2.1
    · exact ih2 h.2.2 ha

theorem mergePairs_eq_pairsWhere (lvl : Nat) :
    ∀ (fuel : Nat) (a b : BinPtr) (pa pb : List Int),
      a.WellFormed pa → b.WellFormed pb → pa.length = lvl → pb.length = lvl →
      a.Ascending → b.Ascending → a.chainLength + b.chainLength ≤ fuel →
      mergePairs lvl fuel a b =
        .value (pairsWhere (fun x y => decide (x.index.getLast? = y.index.getLast?))
          a.toList b.toList) := by
  intro fuel
  induction fuel with
  | zero =>
    intro a b pa pb _ _ _ _ _ _ h
    cases a <;> cases b <;>
      simp [mergePairs, BinPtr.chainLength, BinPtr.toList, pairsWhere] at h ⊢
  | succ n ih =>
    intro a b pa pb ha hb hla hlb sa sb h
    cases a with
    | null => simp [mergePairs, BinPtr.toList, pairsWhere]
    | bin i1 c1 s1 f1 n1 =>
      cases b with
      | null => simp [mergePairs, BinPtr.toList, pairsWhere_nil_right]
      | bin i2 c2 s2 f2 n2 =>
        simp only [BinPtr.chainLength] at h
        have ha0 := ha
        have hb0 := hb
        have sa0 := sa
        have sb0 := sb
        simp only [BinPtr.WellFormed] at ha hb
        simp only [BinPtr.Ascending] at sa sb
        have g1 : i1.get? lvl = i1.getLast? := hla ▸ get?_of_dropLast i1 pa ha.1.1 ha.1.2
        have g2 : i2.get? lvl = i2.getLast? := hlb ▸ get?_of_dropLast i2 pb hb.1.1 hb.1.2
        obtain ⟨x, _, hx⟩ := eq_append_of_dropLast ha.1.1 ha.1.2
        obtain ⟨y, _, hy⟩ := eq_append_of_dropLast hb.1.1 hb.1.2
        have ka : ∀ a' ∈ n1.toList, ∃ z, a'.index.getLast? = some z ∧ x < z := by
          intro a' ha'
          obtain ⟨x', z, h1, h2, h3⟩ := (lastLt_iff _ _).mp (sa.1 a' ha')
          rw [hx] at h1; cases h1
          exact ⟨z, h2, h3⟩
        have kb : ∀ b' ∈ n2.toList, ∃ z, b'.index.getLast? = some z ∧ y < z := by
          intro b' hb'
          obtain ⟨y', z, h1, h2, h3⟩ := (lastLt_iff _ _).mp (sb.1 b' hb')
          rw [hy] at h1; cases h1
          exact ⟨z, h2, h3⟩
        simp only [mergePairs, g1, g2, hx, hy, BinPtr.toList]
        by_cases hxy : x = y
        · simp only [hxy, if_true]
          rw [ih n1 n2 pa pb ha.2.2 hb.2.2 hla hlb sa.2.2 sb.2.2 (by omega)]
          simp only [Outcome.value.injEq]
          rw [pairsWhere_cons_left, pairsWhere_cons_right_of_false]
          · have : n2.toList.filter
                (fun y1 => decide (i1.getLast? = y1.index.getLast?)) = [] := by
              rw [List.filter_eq_nil_iff]
              intro b' hb'
              obtain ⟨z, hz, hlt⟩ := kb b' hb'
              simp only [hx, hz, hxy, decide_eq_true_eq, Option.some.injEq]
              omega
            rw [List.filter_cons, this]
            simp [hx, hy, hxy]
          · intro a' ha'
            obtain ⟨z, hz, hlt⟩ := ka a' ha'
            simp only [hz, hy, decide_eq_false_iff_not, Option.some.injEq]
            omega
        · simp only [hxy, if_false]
          by_cases hlt : x < y
          · simp only [hlt, if_true]
            rw [ih n1 _ pa pb ha.2.2 hb0 hla hlb sa.2.2 sb0
              (by simp only [BinPtr.chainLength]; omega)]
            simp only [Outcome.value.injEq, BinPtr.toList]
            rw [pairsWhere_cons_left]
            have : (((⟨i2, c2, s2, f2, n2⟩ : Bin)) :: n2.toList).filter
                (fun y1 => decide (i1.getLast? = y1.index.getLast?)) = [] := by
              rw [List.filter_eq_nil_iff]
              intro b' hb'
              simp only [List.mem_cons] at hb'
              rcases hb' with rfl | hb'
              · simp [hx, hy, hxy]
              · obtain ⟨z, hz, hlt2⟩ := kb b' hb'
                simp only [hx, hz, decide_eq_true_eq, Option.some.injEq]
                omega
            simp [this]
          · simp only [hlt, if_false]
            rw [ih _ n2 pa pb ha0 hb.2.2 hla hlb sa0 sb.2.2
              (by simp only [BinPtr.chainLength]; omega)]
            simp only [Outcome.value.injEq, BinPtr.toList]
            rw [pairsWhere_cons_right_of_false]
            intro a' ha'
            simp only [List.mem_cons] at ha'
            rcases ha' with rfl | ha'
            · simp [hx, hy, hxy]
            · obtain ⟨z, hz, hlt2⟩ := ka a' ha'
              simp only [hz, hy, decide_eq_false_iff_not, Option.some.injEq]
              omega

theorem rawIntersection_eq_min (a b : Bin) : rawIntersection a b = min a.count b.count := by
  unfold rawIntersection
  by_cases h : a.count > b.count
  · rw [if_pos h, min_eq_right (le_of_lt h)]
  · rw [if_neg h, min_eq_left (not_lt.mp h)]

theorem evalChildren_perm (f : Nat → Bin → Bin → Outcome (List MatchNode))
    (g : Bin × Bin → List (Bin × Bin)) (P : MatchNode → Prop) (ps : List (Bin × Bin))
    (h : ∀ p ∈ ps, ∀ s T, f s p.1 p.2 = .value T →
      (T.map MatchNode.pair).Perm (g p) ∧ ∀ r ∈ T, P r) :
    ∀ base Tc, evalChildren f base ps = .value Tc →
      (Tc.map MatchNode.pair).Perm (ps.flatMap g) ∧ ∀ r ∈ Tc, P r := by
  induction ps with
  | nil =>
    intro base Tc hTc
    simp [evalChildren] at hTc; subst hTc; simp
  | cons p ps ih =>
    intro base T hT
    simp only [evalChildren] at hT
    cases h1 : evalChildren f (base + 1) ps with
    | value T1 =>
      rw [h1] at hT
      cases h0 : f base p.1 p.2 with
      | value T0 =>
        rw [h0] at hT
        simp only [Outcome.value.injEq] at hT
        subst hT
        have a1 := ih (fun q hq => h q (List.mem_cons_of_mem _ hq)) (base + 1) T1 h1
        have a0 := h p (List.mem_cons_self _ _) base T0 h0
        constructor
        · simp only [List.map_append, List.flatMap_cons]
          exact List.perm_append_comm.trans (a0.1.append a1.1)
        · intro r hr
          rcases List.mem_append.mp hr with hr | hr
          · exact a1.2 r hr
          · exact a0.2 r hr
      | assertFailed => rw [h0] at hT; simp at hT
      | outOfRange => rw [h0] at hT; simp at hT
      | outOfFuel => rw [h0] at hT; simp at hT
    | assertFailed => rw [h1] at hT; simp at hT
    | outOfRange => rw [h1] at hT; simp at hT
    | outOfFuel => rw [h1] at hT; simp at hT

theorem mergePairs_children {A B : Bin} (hA : A.WellFormed) (hB : B.WellFormed)
    (hlen : A.index.length = B.index.length) (sA : A.Ascending) (sB : B.Ascending) :
    mergePairs A.index.length (A.firstChild.chainLength + B.firstChild.chainLength)
      A.firstChild B.firstChild = .value (commonChildren A B) :=
  mergePairs_eq_pairsWhere _ _ _ _ A.index B.index hA hB rfl hlen.symm sA sB (le_refl _)

theorem commonChildren_mem {A B : Bin} (hA : A.WellFormed) (hB : B.WellFormed)
    (hlen : A.index.length = B.index.length) (sA : A.Ascending) (sB : B.Ascending)
    {p : Bin × Bin} (hp : p ∈ commonChildren A B) :
    p.1.WellFormed ∧ p.2.WellFormed ∧ p.1.index.length = p.2.index.length ∧
      p.1.Ascending ∧ p.2.Ascending ∧ p.1 ∈ A.children ∧ p.2 ∈ B.children := by
  rw [commonChildren, mem_pairsWhere] at hp
  obtain ⟨h1, h2, _⟩ := hp
  have w1 := wellFormed_mem hA h1
  have w2 := wellFormed_mem hB h2
  have l1 := length_of_dropLast _ _ w1.1.1 w1.1.2
  have l2 := length_of_dropLast _ _ w2.1.1 w2.1.2
  exact ⟨w1.2, w2.2, by omega, ascending_mem sA h1, ascending_mem sB h2, h1, h2⟩

theorem finalizedTrace_spec :
    ∀ (d : Nat) (parent : Option Nat) (slot : Nat) (A B : Bin) (T : List MatchNode),
      A.WellFormed → B.WellFormed → A.index.length = B.index.length →
      A.Ascending → B.Ascending →
      finalizedTrace d parent slot A B = .value T →
      (T.map MatchNode.pair).Perm (correspondences A B) ∧
        ∀ r ∈ T, r.intersection_ = childIntersections r.node_ r.counterpart_ := by
  intro d
  induction d with
  | zero => intro _ _ A B T _ _ _ _ _ h; simp [finalizedTrace] at h
  | succ d ih =>
    intro parent slot A B T hA hB hlen sA sB hT
    simp only [finalizedTrace, mergePairs_children hA hB hlen sA sB] at hT
    cases hTc : evalChildren (fun s a b => finalizedTrace d (some slot) s a b) (slot + 1)
        (commonChildren A B) with
    | value Tc =>
      rw [hTc] at hT
      simp only [Outcome.value.injEq] at hT
      subst hT
      have hch := evalChildren_perm _ (fun p => correspondences p.1 p.2)
        (fun r => r.intersection_ = childIntersections r.node_ r.counterpart_)
        (commonChildren A B)
        (fun p hp s T h => by
          obtain ⟨w1, w2, l, a1, a2, _, _⟩ := commonChildren_mem hA hB hlen sA sB hp
          exact ih (some slot) s p.1 p.2 T w1 w2 l a1 a2 h)
        (slot + 1) Tc hTc
      constructor
      · simp only [List.map_append, List.map_cons, List.map_nil, MatchNode.pair]
        refine List.perm_append_comm.trans ?_
        refine List.Perm.trans ?_ (correspondences_rec hA hB).symm
        exact List.Perm.cons _ hch.1
      · intro r hr
        rcases List.mem_append.mp hr with hr | hr
        · exact hch.2 r hr
        · simp only [List.mem_singleton] at hr
          subst hr
          simp only [childIntersections, rawIntersection_eq_min]
    | assertFailed => rw [hTc] at hT; simp at hT
    | outOfRange => rw [hTc] at hT; simp at hT
    | outOfFuel => rw [hTc] at hT; simp at hT

/-! ### The result of `MatchPyramids` on histograms of the data model -/

theorem scoreOf_eq_spec (scheme : BinWeightScheme) (T : List MatchNode)
    (h : ∀ r ∈ T, r.intersection_ = childIntersections r.node_ r.counterpart_) :
    scoreOf scheme T = ((T.map MatchNode.pair).map (specScoreTerm scheme)).sum := by
  rw [scoreOf, List.map_map]
  congr 1
  refine List.map_congr_left ?_
  intro r hr
  simp only [Function.comp, specScoreTerm, MatchNode.pair, netIntersection, h r hr,
    rawIntersection_eq_min]

theorem costOf_eq_spec (scheme : BinWeightScheme) (T : List MatchNode)
    (h : ∀ r ∈ T, r.intersection_ = childIntersections r.node_ r.counterpart_) :
    costOf scheme T = ((T.map MatchNode.pair).map (specCostTerm scheme)).sum := by
  rw [costOf, List.map_map]
  congr 1
  refine List.map_congr_left ?_
  intro r hr
  simp only [Function.comp, specCostTerm, MatchNode.pair, netIntersection, h r hr,
    rawIntersection_eq_min]

theorem all_passes_iff (scheme : BinWeightScheme) (T : List MatchNode) :
    T.all (passes scheme) = true ↔
      ¬ (scheme = .BIN_WEIGHT_GLOBAL ∧ ∃ p ∈ T.map MatchNode.pair, p.1.size ≠ p.2.size) := by
  simp only [List.all_eq_true, passes, Bool.not_eq_true', decide_eq_false_iff_not,
    List.mem_map, MatchNode.pair]
  constructor
  · rintro h ⟨hs, p, ⟨r, hr, rfl⟩, hne⟩
    exact h r hr ⟨hs, hne⟩
  · intro h r hr hc
    exact h ⟨hc.1, (r.node_, r.counterpart_), ⟨r, hr, rfl⟩, hc.2⟩

theorem MatchPyramids_spec (first second : MultiResolutionHistogram)
    (return_type : MatchReturnType) (scheme : BinWeightScheme)
    (hA : first.root.WellFormed) (hB : second.root.WellFormed)
    (hlen : first.root.index.length = second.root.index.length)
    (sA : first.root.Ascending) (sB : second.root.Ascending) :
    MatchPyramids first second return_type scheme =
      if scheme = .BIN_WEIGHT_GLOBAL ∧ sizeMismatch first.root second.root then .assertFailed
      else .value (if return_type = .COST then specCost scheme first.root second.root
        else specSimilarity scheme first.root second.root) := by
  obtain ⟨T, hT⟩ := finalizedTrace_wellFormed (first.root.firstChild.numBins + 1) none 0
    first.root second.root hA hB hlen (le_refl _)
  obtain ⟨hperm, hled⟩ := finalizedTrace_spec _ _ _ _ _ _ hA hB hlen sA sB hT
  rw [MatchPyramids_eq first second return_type scheme T hT]
  have hiff : T.all (passes scheme) = true ↔
      ¬ (scheme = .BIN_WEIGHT_GLOBAL ∧ sizeMismatch first.root second.root) := by
    rw [all_passes_iff]
    simp only [sizeMismatch, hperm.mem_iff]
  have e1 : scoreOf scheme T = specSimilarity scheme first.root second.root := by
    rw [scoreOf_eq_spec scheme T hled, specSimilarity]
    exact (hperm.map _).sum_eq
  have e2 : costOf scheme T = specCost scheme first.root second.root := by
    rw [costOf_eq_spec scheme T hled, specCost]
    exact (hperm.map _).sum_eq
  by_cases hm : scheme = .BIN_WEIGHT_GLOBAL ∧ sizeMismatch first.root second.root
  · rw [if_pos hm, if_neg (fun h => (hiff.mp h) hm)]
  · rw [if_neg hm, if_pos (hiff.mpr hm), e1, e2]

/-! ### Symmetry -/

theorem correspondences_swap (A B : Bin) :
    (correspondences B A).Perm ((correspondences A B).map Prod.swap) := by
  have h := pairsWhere_swap (fun a b => decide (relPath A a = relPath B b)) A.bins B.bins
  have e : correspondences B A =
      pairsWhere (fun y x => decide (relPath A x = relPath B y)) B.bins A.bins := by
    rw [correspondences]
    refine pairsWhere_congr _ _ _ _ ?_
    intro x _ y _
    exact decide_eq_decide.mpr eq_comm
  rw [e]
  exact h

theorem commonChildren_swap (a b : Bin) :
    (commonChildren b a).Perm ((commonChildren a b).map Prod.swap) := by
  have h := pairsWhere_swap (fun x y => decide (x.index.getLast? = y.index.getLast?))
    a.children b.children
  have e : commonChildren b a =
      pairsWhere (fun y x => decide (x.index.getLast? = y.index.getLast?))
        b.children a.children := by
    rw [commonChildren]
    refine pairsWhere_congr _ _ _ _ ?_
    intro x _ y _
    exact decide_eq_decide.mpr eq_comm
  rw [e]
  exact h

theorem childIntersections_comm (a b : Bin) : childIntersections b a = childIntersections a b := by
  rw [childIntersections, childIntersections,
    ((commonChildren_swap a b).map _).sum_eq, List.map_map]
  congr 1
  refine List.map_congr_left ?_
  intro p _
  simp [min_comm]

theorem sizeMismatch_comm (A B : Bin) : sizeMismatch B A ↔ sizeMismatch A B := by
  simp only [sizeMismatch, (correspondences_swap A B).mem_iff, List.mem_map]
  constructor
  · rintro ⟨p, ⟨q, hq, rfl⟩, hne⟩
    exact ⟨q, hq, fun h => hne (by simpa using h.symm)⟩
  · rintro ⟨q, hq, hne⟩
    exact ⟨q.swap, ⟨q, hq, rfl⟩, fun h => hne (by simpa using h.symm)⟩

theorem binSize_swap (scheme : BinWeightScheme) (a b : Bin)
    (h : scheme = .BIN_WEIGHT_GLOBAL → a.size = b.size) :
    binSize scheme b a = binSize scheme a b := by
  unfold binSize
  by_cases hs : scheme = .BIN_WEIGHT_GLOBAL
  · simp [hs, h hs]
  · simp [hs, add_comm]

theorem specSimilarity_comm (scheme : BinWeightScheme) (A B : Bin)
    (h : ¬ (scheme = .BIN_WEIGHT_GLOBAL ∧ sizeMismatch A B)) :
    specSimilarity scheme B A = specSimilarity scheme A B := by
  rw [specSimilarity, specSimilarity, ((correspondences_swap A B).map _).sum_eq, List.map_map]
  congr 1
  refine List.map_congr_left ?_
  intro p hp
  have hs : scheme = .BIN_WEIGHT_GLOBAL → p.1.size = p.2.size := by
    intro hg
    by_contra hne
    exact h ⟨hg, p, hp, hne⟩
  simp only [Function.comp, specScoreTerm, Prod.fst_swap, Prod.snd_swap,
    binSize_swap scheme p.1 p.2 hs, childIntersections_comm, min_comm]

theorem specCost_comm (scheme : BinWeightScheme) (A B : Bin)
    (h : ¬ (scheme = .BIN_WEIGHT_GLOBAL ∧ sizeMismatch A B)) :
    specCost scheme B A = specCost scheme A B := by
  rw [specCost, specCost, ((correspondences_swap A B).map _).sum_eq, List.map_map]
  congr 1
  refine List.map_congr_left ?_
  intro p hp
  have hs : scheme = .BIN_WEIGHT_GLOBAL → p.1.size = p.2.size := by
    intro hg
    by_contra hne
    exact h ⟨hg, p, hp, hne⟩
  simp only [Function.comp, specCostTerm, Prod.fst_swap, Prod.snd_swap,
    binSize_swap scheme p.1 p.2 hs, childIntersections_comm, min_comm]

theorem MatchPyramids_comm (first second : MultiResolutionHistogram)
    (return_type : MatchReturnType) (scheme : BinWeightScheme)
    (hA : first.root.WellFormed) (hB : second.root.WellFormed)
    (hlen : first.root.index.length = second.root.index.length)
    (sA : first.root.Ascending) (sB : second.root.Ascending) :
    MatchPyramids second first return_type scheme =
      MatchPyramids first second return_type scheme := by
  rw [MatchPyramids_spec first second return_type scheme hA hB hlen sA sB,
    MatchPyramids_spec second first return_type scheme hB hA hlen.symm sB sA]
  by_cases hm : scheme = .BIN_WEIGHT_GLOBAL ∧ sizeMismatch first.root second.root
  · have hm2 : scheme = .BIN_WEIGHT_GLOBAL ∧ sizeMismatch second.root first.root :=
      ⟨hm.1, (sizeMismatch_comm _ _).mpr hm.2⟩
    rw [if_pos hm, if_pos hm2]
  · have hm2 : ¬ (scheme = .BIN_WEIGHT_GLOBAL ∧ sizeMismatch second.root first.root) :=
      fun h => hm ⟨h.1, (sizeMismatch_comm _ _).mp h.2⟩
    rw [if_neg hm, if_neg hm2, specSimilarity_comm scheme _ _ hm, specCost_comm scheme _ _ hm]

theorem GetPyramidMatchSimilarity_spec (first second : MultiResolutionHistogram)
    (scheme : BinWeightScheme)
    (hA : first.root.WellFormed) (hB : second.root.WellFormed)
    (hlen : first.root.index.length = second.root.index.length)
    (sA : first.root.Ascending) (sB : second.root.Ascending) :
    GetPyramidMatchSimilarity first second scheme =
      if scheme = .BIN_WEIGHT_GLOBAL ∧ sizeMismatch first.root second.root then .assertFailed
      else .value (specSimilarity scheme first.root second.root) := by
  unfold GetPyramidMatchSimilarity
  split
  · rw [MatchPyramids_spec first second _ scheme hA hB hlen sA sB]; simp
  · rw [MatchPyramids_comm first second _ scheme hA hB hlen sA sB,
      MatchPyramids_spec first second _ scheme hA hB hlen sA sB]; simp

theorem GetPyramidMatchCost_spec (first second : MultiResolutionHistogram)
    (scheme : BinWeightScheme)
    (hA : first.root.WellFormed) (hB : second.root.WellFormed)
    (hlen : first.root.index.length = second.root.index.length)
    (sA : first.root.Ascending) (sB : second.root.Ascending) :
    GetPyramidMatchCost first second scheme =
      if scheme = .BIN_WEIGHT_GLOBAL ∧ sizeMismatch first.root second.root then .assertFailed
      else .value (specCost scheme first.root second.root) := by
  unfold GetPyramidMatchCost
  split
  · rw [MatchPyramids_spec first second _ scheme hA hB hlen sA sB]; simp
  · rw [MatchPyramids_comm first second _ scheme hA hB hlen sA sB,
      MatchPyramids_spec first second _ scheme hA hB hlen sA sB]; simp

/-! ## The claims -/

/-- C1: for histograms of the data model (children strictly ascending by last
index element) and every scheme under which the computation does not abort,
`GetPyramidMatchSimilarity` returns the sum over all pairs of bins with an
identical root-relative index path of `weight * (min(A.count, B.count) - L)`
and `GetPyramidMatchCost` the sum of `bin_size * (min(A.count, B.count) - L)`. -/
theorem C1_match_is_sum_over_correspondences (h1 h2 : MultiResolutionHistogram)
    (scheme : BinWeightScheme) (hv : ValidPair h1 h2) :
    (GetPyramidMatchSimilarity h1 h2 scheme ≠ .assertFailed →
      GetPyramidMatchSimilarity h1 h2 scheme =
        .value (specSimilarity scheme h1.root h2.root)) ∧
    (GetPyramidMatchCost h1 h2 scheme ≠ .assertFailed →
      GetPyramidMatchCost h1 h2 scheme = .value (specCost scheme h1.root h2.root)) := by
  obtain ⟨hA, hB, hlen, sA, sB⟩ := hv
  rw [GetPyramidMatchSimilarity_spec h1 h2 scheme hA hB hlen sA sB,
    GetPyramidMatchCost_spec h1 h2 scheme hA hB hlen sA sB]
  by_cases hm : scheme = .BIN_WEIGHT_GLOBAL ∧ sizeMismatch h1.root h2.root
  · simp [hm]
  · simp [hm]

theorem C1_match_is_sum_over_correspondences_witness :
    ValidPair (scenario2A 2) (scenario2B 2) ∧
    GetPyramidMatchSimilarity (scenario2A 2) (scenario2B 2) .BIN_WEIGHT_GLOBAL =
      .value (specSimilarity .BIN_WEIGHT_GLOBAL (scenario2A 2).root (scenario2B 2).root) ∧
    GetPyramidMatchCost (scenario2A 2) (scenario2B 2) .BIN_WEIGHT_GLOBAL =
      .value (specCost .BIN_WEIGHT_GLOBAL (scenario2A 2).root (scenario2B 2).root) :=
  ⟨by decide,
    (C1_match_is_sum_over_correspondences (scenario2A 2) (scenario2B 2) .BIN_WEIGHT_GLOBAL
      (by decide)).1 (by
        simp [GetPyramidMatchSimilarity, MatchPyramids, finalState, runPyramids, initState,
          loop, step, mergeLoop, MatchNode.new, updateSlot, BinPtr.numBins,
          BinPtr.chainLength, scenario2A, scenario2B, scenario2ChildA, scenario2ChildB,
          Bin.toPtr]),
    (C1_match_is_sum_over_correspondences (scenario2A 2) (scenario2B 2) .BIN_WEIGHT_GLOBAL
      (by decide)).2 (by
        simp [GetPyramidMatchCost, MatchPyramids, finalState, runPyramids, initState,
          loop, step, mergeLoop, MatchNode.new, updateSlot, BinPtr.numBins,
          BinPtr.chainLength, scenario2A, scenario2B, scenario2ChildA, scenario2ChildB,
          Bin.toPtr])⟩

/-- C2: for histograms of the data model and every scheme, similarity and
cost do not depend on the order of the two arguments, whatever the bin counts
the histograms report; the call in one order aborts exactly when the call in
the other order aborts. -/
theorem C2_symmetry (h1 h2 : MultiResolutionHistogram) (scheme : BinWeightScheme)
    (hv : ValidPair h1 h2) :
    GetPyramidMatchSimilarity h1 h2 scheme = GetPyramidMatchSimilarity h2 h1 scheme ∧
    GetPyramidMatchCost h1 h2 scheme = GetPyramidMatchCost h2 h1 scheme ∧
    (GetPyramidMatchSimilarity h1 h2 scheme = .assertFailed ↔
      GetPyramidMatchSimilarity h2 h1 scheme = .assertFailed) ∧
    (GetPyramidMatchCost h1 h2 scheme = .assertFailed ↔
      GetPyramidMatchCost h2 h1 scheme = .assertFailed) := by
  obtain ⟨hA, hB, hlen, sA, sB⟩ := hv
  have e1 : GetPyramidMatchSimilarity h1 h2 scheme = GetPyramidMatchSimilarity h2 h1 scheme := by
    rw [GetPyramidMatchSimilarity_spec h1 h2 scheme hA hB hlen sA sB,
      GetPyramidMatchSimilarity_spec h2 h1 scheme hB hA hlen.symm sB sA]
    by_cases hm : scheme = .BIN_WEIGHT_GLOBAL ∧ sizeMismatch h1.root h2.root
    · have hm2 : scheme = .BIN_WEIGHT_GLOBAL ∧ sizeMismatch h2.root h1.root :=
        ⟨hm.1, (sizeMismatch_comm _ _).mpr hm.2⟩
      rw [if_pos hm, if_pos hm2]
    · have hm2 : ¬ (scheme = .BIN_WEIGHT_GLOBAL ∧ sizeMismatch h2.root h1.root) :=
        fun h => hm ⟨h.1, (sizeMismatch_comm _ _).mp h.2⟩
      rw [if_neg hm, if_neg hm2, specSimilarity_comm scheme _ _ hm]
  have e2 : GetPyramidMatchCost h1 h2 scheme = GetPyramidMatchCost h2 h1 scheme := by
    rw [GetPyramidMatchCost_spec h1 h2 scheme hA hB hlen sA sB,
      GetPyramidMatchCost_spec h2 h1 scheme hB hA hlen.symm sB sA]
    by_cases hm : scheme = .BIN_WEIGHT_GLOBAL ∧ sizeMismatch h1.root h2.root
    · have hm2 : scheme = .BIN_WEIGHT_GLOBAL ∧ sizeMismatch h2.root h1.root :=
        ⟨hm.1, (sizeMismatch_comm _ _).mpr hm.2⟩
      rw [if_pos hm, if_pos hm2]
    · have hm2 : ¬ (scheme = .BIN_WEIGHT_GLOBAL ∧ sizeMismatch h2.root h1.root) :=
        fun h => hm ⟨h.1, (sizeMismatch_comm _ _).mp h.2⟩
      rw [if_neg hm, if_neg hm2, specCost_comm scheme _ _ hm]
  exact ⟨e1, e2, by rw [e1], by rw [e2]⟩

theorem C2_symmetry_witness :
    ValidPair mismatchA mismatchB ∧
    GetPyramidMatchSimilarity mismatchA mismatchB .BIN_WEIGHT_LOCAL =
      GetPyramidMatchSimilarity mismatchB mismatchA .BIN_WEIGHT_LOCAL ∧
    GetPyramidMatchCost mismatchA mismatchB .BIN_WEIGHT_LOCAL =
      GetPyramidMatchCost mismatchB mismatchA .BIN_WEIGHT_LOCAL :=
  ⟨by decide,
    (C2_symmetry mismatchA mismatchB .BIN_WEIGHT_LOCAL (by decide)).1,
    (C2_symmetry mismatchA mismatchB .BIN_WEIGHT_LOCAL (by decide)).2.1⟩

/-- C3: under the GLOBAL scheme, for histograms of the data model, cost and
similarity abort exactly when some pair of bins sharing an identical
root-relative index path has differing sizes; otherwise they return the sums
of the spec. -/
theorem C3_global_abort_iff_mismatch (h1 h2 : MultiResolutionHistogram)
    (hv : ValidPair h1 h2) :
    (GetPyramidMatchCost h1 h2 .BIN_WEIGHT_GLOBAL = .assertFailed ↔
      sizeMismatch h1.root h2.root) ∧
    (GetPyramidMatchSimilarity h1 h2 .BIN_WEIGHT_GLOBAL = .assertFailed ↔
      sizeMismatch h1.root h2.root) ∧
    (¬ sizeMismatch h1.root h2.root →
      GetPyramidMatchCost h1 h2 .BIN_WEIGHT_GLOBAL =
        .value (specCost .BIN_WEIGHT_GLOBAL h1.root h2.root) ∧
      GetPyramidMatchSimilarity h1 h2 .BIN_WEIGHT_GLOBAL =
        .value (specSimilarity .BIN_WEIGHT_GLOBAL h1.root h2.root)) := by
  obtain ⟨hA, hB, hlen, sA, sB⟩ := hv
  rw [GetPyramidMatchSimilarity_spec h1 h2 _ hA hB hlen sA sB,
    GetPyramidMatchCost_spec h1 h2 _ hA hB hlen sA sB]
  by_cases hm : sizeMismatch h1.root h2.root
  · simp [hm]
  · simp [hm]

theorem C3_global_abort_iff_mismatch_witness :
    (ValidPair mismatchA mismatchB ∧
      sizeMismatch mismatchA.root mismatchB.root ∧
      GetPyramidMatchCost mismatchA mismatchB .BIN_WEIGHT_GLOBAL = .assertFailed ∧
      GetPyramidMatchSimilarity mismatchA mismatchB .BIN_WEIGHT_GLOBAL = .assertFailed) ∧
    (ValidPair mismatchA (scenario2B 2) ∧
      ¬ sizeMismatch mismatchA.root (scenario2B 2).root ∧
      GetPyramidMatchCost mismatchA (scenario2B 2) .BIN_WEIGHT_GLOBAL ≠ .assertFailed ∧
      GetPyramidMatchSimilarity mismatchA (scenario2B 2) .BIN_WEIGHT_GLOBAL ≠
        .assertFailed) := by
  have hm : sizeMismatch mismatchA.root mismatchB.root := by
    simp [sizeMismatch, correspondences, pairsWhere, Bin.bins, BinPtr.binsBelow, mismatchA,
      mismatchB, relPath]
  have hn : ¬ sizeMismatch mismatchA.root (scenario2B 2).root := by
    simp [sizeMismatch, correspondences, pairsWhere, Bin.bins, BinPtr.binsBelow, mismatchA,
      scenario2B, scenario2ChildB, Bin.toPtr, relPath]
  exact ⟨⟨by decide, hm,
      (C3_global_abort_iff_mismatch mismatchA mismatchB (by decide)).1.mpr hm,
      (C3_global_abort_iff_mismatch mismatchA mismatchB (by decide)).2.1.mpr hm⟩,
    ⟨by decide, hn,
      fun h => hn ((C3_global_abort_iff_mismatch mismatchA (scenario2B 2) (by decide)).1.mp h),
      fun h => hn
        ((C3_global_abort_iff_mismatch mismatchA (scenario2B 2) (by decide)).2.1.mp h)⟩⟩

/-- C8: scenario 2 (two levels, one matching child, GLOBAL).  After three
iterations the child pair has been finalized, with similarity 2 and cost 4,
and has added 4 to the ledger of the root; the fourth iteration finalizes the
root, which adds 6/5 and 24; the totals are 16/5 and 28. -/
theorem C8_scenario2 (n m : Int) :
    stepsFrom .BIN_WEIGHT_GLOBAL 3 (initState (scenario2A n) (scenario2B m)) =
      .value ⟨[⟨(scenario2A n).root, (scenario2B m).root, 4, none, true⟩], 2, 4,
        [⟨scenario2ChildA, scenario2ChildB, 0, some 0, true⟩], 2⟩ ∧
    stepsFrom .BIN_WEIGHT_GLOBAL 4 (initState (scenario2A n) (scenario2B m)) =
      .value ⟨[], 2 + 6 / 5, 4 + 24,
        [⟨scenario2ChildA, scenario2ChildB, 0, some 0, true⟩,
          ⟨(scenario2A n).root, (scenario2B m).root, 4, none, true⟩], 2⟩ ∧
    GetPyramidMatchSimilarity (scenario2A n) (scenario2B m) .BIN_WEIGHT_GLOBAL =
      .value (16 / 5) ∧
    GetPyramidMatchCost (scenario2A n) (scenario2B m) .BIN_WEIGHT_GLOBAL = .value 28 := by
  refine ⟨?_, ?_, ?_, ?_⟩
  · simp [stepsFrom, initState, step, mergeLoop, MatchNode.new, updateSlot,
      BinPtr.chainLength, scenario2A, scenario2B, scenario2ChildA, scenario2ChildB, Bin.toPtr]
    norm_num
  · simp [stepsFrom, initState, step, mergeLoop, MatchNode.new, updateSlot,
      BinPtr.chainLength, scenario2A, scenario2B, scenario2ChildA, scenario2ChildB, Bin.toPtr]
    norm_num
  · simp [GetPyramidMatchSimilarity, MatchPyramids, finalState, runPyramids, initState,
      loop, step, mergeLoop, MatchNode.new, updateSlot, BinPtr.numBins,
      BinPtr.chainLength, scenario2A, scenario2B, scenario2ChildA, scenario2ChildB, Bin.toPtr]
    split <;> norm_num
  · simp [GetPyramidMatchCost, MatchPyramids, finalState, runPyramids, initState,
      loop, step, mergeLoop, MatchNode.new, updateSlot, BinPtr.numBins,
      BinPtr.chainLength, scenario2A, scenario2B, scenario2ChildA, scenario2ChildB, Bin.toPtr]
    split <;> norm_num

/-- C9: scenario 1 (root-only histograms, GLOBAL, counts 3 and 5, both sizes
2): the similarity is 1 and the cost is 6, in either argument order and
whatever bin counts the histograms report. -/
theorem C9_scenario1 (n m : Int) :
    GetPyramidMatchSimilarity (scenario1A n) (scenario1B m) .BIN_WEIGHT_GLOBAL = .value 1 ∧
    GetPyramidMatchCost (scenario1A n) (scenario1B m) .BIN_WEIGHT_GLOBAL = .value 6 ∧
    GetPyramidMatchSimilarity (scenario1B m) (scenario1A n) .BIN_WEIGHT_GLOBAL = .value 1 ∧
    GetPyramidMatchCost (scenario1B m) (scenario1A n) .BIN_WEIGHT_GLOBAL = .value 6 := by
  refine ⟨?_, ?_, ?_, ?_⟩
  · simp [GetPyramidMatchSimilarity, MatchPyramids, finalState, runPyramids, initState,
      loop, step, mergeLoop, MatchNode.new, updateSlot, BinPtr.numBins,
      BinPtr.chainLength, scenario1A, scenario1B]
    split <;> norm_num
  · simp [GetPyramidMatchCost, MatchPyramids, finalState, runPyramids, initState,
      loop, step, mergeLoop, MatchNode.new, updateSlot, BinPtr.numBins,
      BinPtr.chainLength, scenario1A, scenario1B]
    split <;> norm_num
  · simp [GetPyramidMatchSimilarity, MatchPyramids, finalState, runPyramids, initState,
      loop, step, mergeLoop, MatchNode.new, updateSlot, BinPtr.numBins,
      BinPtr.chainLength, scenario1A, scenario1B]
    split <;> norm_num
  · simp [GetPyramidMatchCost, MatchPyramids, finalState, runPyramids, initState,
      loop, step, mergeLoop, MatchNode.new, updateSlot, BinPtr.numBins,
      BinPtr.chainLength, scenario1A, scenario1B]
    split <;> norm_num

/-! ### Facts about the finalized nodes -/

theorem evalChildren_sum (f : Nat → Bin → Bin → Outcome (List MatchNode))
    (g : MatchNode → ℚ) (h : Bin × Bin → ℚ) (ps : List (Bin × Bin))
    (hf : ∀ p ∈ ps, ∀ s T, f s p.1 p.2 = .value T → (T.map g).sum = h p) :
    ∀ base Tc, evalChildren f base ps = .value Tc → (Tc.map g).sum = (ps.map h).sum := by
  induction ps with
  | nil =>
    intro base Tc hTc
    simp [evalChildren] at hTc; subst hTc; simp
  | cons p ps ih =>
    intro base T hT
    simp only [evalChildren] at hT
    cases h1 : evalChildren f (base + 1) ps with
    | value T1 =>
      rw [h1] at hT
      cases h0 : f base p.1 p.2 with
      | value T0 =>
        rw [h0] at hT
        simp only [Outcome.value.injEq] at hT
        subst hT
        have a1 := ih (fun q hq => hf q (List.mem_cons_of_mem _ hq)) (base + 1) T1 h1
        have a0 := hf p (List.mem_cons_self _ _) base T0 h0
        simp only [List.map_append, List.sum_append, List.map_cons, List.sum_cons, a1, a0]
        ring
      | assertFailed => rw [h0] at hT; simp at hT
      | outOfRange => rw [h0] at hT; simp at hT
      | outOfFuel => rw [h0] at hT; simp at hT
    | assertFailed => rw [h1] at hT; simp at hT
    | outOfRange => rw [h1] at hT; simp at hT
    | outOfFuel => rw [h1] at hT; simp at hT

theorem finalizedTrace_net_sum :
    ∀ (d : Nat) (parent : Option Nat) (slot : Nat) (A B : Bin) (T : List MatchNode),
      finalizedTrace d parent slot A B = .value T →
      (T.map netIntersection).sum = rawIntersection A B := by
  intro d
  induction d with
  | zero => intro _ _ A B T h; simp [finalizedTrace] at h
  | succ d ih =>
    intro parent slot A B T hT
    simp only [finalizedTrace] at hT
    cases hps : mergePairs A.index.length
        (A.firstChild.chainLength + B.firstChild.chainLength) A.firstChild B.firstChild with
    | value ps =>
      rw [hps] at hT
      simp only at hT
      cases hTc : evalChildren (fun s a b => finalizedTrace d (some slot) s a b) (slot + 1) ps with
      | value Tc =>
        rw [hTc] at hT
        simp only [Outcome.value.injEq] at hT
        subst hT
        have h1 := evalChildren_sum _ netIntersection (fun p => rawIntersection p.1 p.2) ps
          (fun p _ s T h => ih (some slot) s p.1 p.2 T h) (slot + 1) Tc hTc
        simp only [List.map_append, List.sum_append, List.map_cons, List.map_nil,
          List.sum_cons, List.sum_nil, h1, netIntersection]
        ring
      | assertFailed => rw [hTc] at hT; simp at hT
      | outOfRange => rw [hTc] at hT; simp at hT
      | outOfFuel => rw [hTc] at hT; simp at hT
    | assertFailed => rw [hps] at hT; simp at hT
    | outOfRange => rw [hps] at hT; simp at hT
    | outOfFuel => rw [hps] at hT; simp at hT

theorem evalChildren_forall (f : Nat → Bin → Bin → Outcome (List MatchNode))
    (R : MatchNode → Prop) (ps : List (Bin × Bin))
    (hf : ∀ p ∈ ps, ∀ s T, f s p.1 p.2 = .value T → ∀ r ∈ T, R r) :
    ∀ base Tc, evalChildren f base ps = .value Tc → ∀ r ∈ Tc, R r := by
  induction ps with
  | nil =>
    intro base Tc hTc
    simp [evalChildren] at hTc; subst hTc; simp
  | cons p ps ih =>
    intro base T hT
    simp only [evalChildren] at hT
    cases h1 : evalChildren f (base + 1) ps with
    | value T1 =>
      rw [h1] at hT
      cases h0 : f base p.1 p.2 with
      | value T0 =>
        rw [h0] at hT
        simp only [Outcome.value.injEq] at hT
        subst hT
        have a1 := ih (fun q hq => hf q (List.mem_cons_of_mem _ hq)) (base + 1) T1 h1
        have a0 := hf p (List.mem_cons_self _ _) base T0 h0
        intro r hr
        rcases List.mem_append.mp hr with hr | hr
        · exact a1 r hr
        · exact a0 r hr
      | assertFailed => rw [h0] at hT; simp at hT
      | outOfRange => rw [h0] at hT; simp at hT
      | outOfFuel => rw [h0] at hT; simp at hT
    | assertFailed => rw [h1] at hT; simp at hT
    | outOfRange => rw [h1] at hT; simp at hT
    | outOfFuel => rw [h1] at hT; simp at hT

/-- A property of the finalized nodes that follows from a property of bin
pairs which children inherit. -/
theorem finalizedTrace_forall (Q : Bin → Bin → Prop) (R : MatchNode → Prop)
    (hchild : ∀ A B, Q A B → ∀ a ∈ A.children, ∀ b ∈ B.children, Q a b)
    (hrec : ∀ A B ps parent, Q A B →
      mergePairs A.index.length (A.firstChild.chainLength + B.firstChild.chainLength)
        A.firstChild B.firstChild = .value ps →
      R ⟨A, B, (ps.map fun p => rawIntersection p.1 p.2).sum, parent, true⟩) :
    ∀ (d : Nat) (parent : Option Nat) (slot : Nat) (A B : Bin) (T : List MatchNode),
      Q A B → finalizedTrace d parent slot A B = .value T → ∀ r ∈ T, R r := by
  intro d
  induction d with
  | zero => intro _ _ A B T _ h; simp [finalizedTrace] at h
  | succ d ih =>
    intro parent slot A B T hQ hT
    simp only [finalizedTrace] at hT
    cases hps : mergePairs A.index.length
        (A.firstChild.chainLength + B.firstChild.chainLength) A.firstChild B.firstChild with
    | value ps =>
      rw [hps] at hT
      simp only at hT
      cases hTc : evalChildren (fun s a b => finalizedTrace d (some slot) s a b) (slot + 1) ps with
      | value Tc =>
        rw [hTc] at hT
        simp only [Outcome.value.injEq] at hT
        subst hT
        have hsub := mergePairs_sublist _ _ _ _ _ hps
        have h1 := evalChildren_forall _ R ps
          (fun p hp s T h => ih (some slot) s p.1 p.2 T
            (hchild A B hQ p.1 (hsub.1.subset (List.mem_map_of_mem _ hp))
              p.2 (hsub.2.subset (List.mem_map_of_mem _ hp))) h) (slot + 1) Tc hTc
        intro r hr
        rcases List.mem_append.mp hr with hr | hr
        · exact h1 r hr
        · simp only [List.mem_singleton] at hr
          subst hr
          exact hrec A B ps parent hQ hps
      | assertFailed => rw [hTc] at hT; simp at hT
      | outOfRange => rw [hTc] at hT; simp at hT
      | outOfFuel => rw [hTc] at hT; simp at hT
    | assertFailed => rw [hps] at hT; simp at hT
    | outOfRange => rw [hps] at hT; simp at hT
    | outOfFuel => rw [hps] at hT; simp at hT

theorem finalState_eq (first second : MultiResolutionHistogram) (scheme : BinWeightScheme)
    (T : List MatchNode) (hT : matchTrace first second = .value T) :
    finalState first second scheme =
      if T.all (passes scheme) then
        .value ⟨[], scoreOf scheme T, costOf scheme T, T, T.length⟩
      else .assertFailed := by
  have hle := finalizedTrace_length_le _ _ _ _ _ _ hT
  obtain ⟨k, hk⟩ : ∃ k, 2 * (first.root.firstChild.numBins + 1) = 2 * T.length + k :=
    ⟨2 * (first.root.firstChild.numBins + 1) - 2 * T.length, by omega⟩
  simp only [finalState]
  rw [hk, runPyramids_eq first second scheme T hT k]

theorem matchTrace_root_only (first second : MultiResolutionHistogram)
    (hv : ValidPair first second)
    (hno : ∀ a ∈ first.root.children, ∀ b ∈ second.root.children,
      a.index.getLast? ≠ b.index.getLast?) :
    matchTrace first second = .value [⟨first.root, second.root, 0, none, true⟩] := by
  obtain ⟨hA, hB, hlen, sA, sB⟩ := hv
  have hc : commonChildren first.root second.root = [] := by
    rw [commonChildren]
    refine pairsWhere_eq_nil _ _ _ ?_
    intro a ha b hb
    simpa using hno a ha b hb
  simp only [matchTrace, finalizedTrace, mergePairs_children hA hB hlen sA sB, hc, evalChildren,
    List.map_nil, List.sum_nil, List.nil_append]

theorem scoreOf_singleton (scheme : BinWeightScheme) (A B : Bin) (parent : Option Nat) :
    scoreOf scheme [⟨A, B, 0, parent, true⟩] =
      min A.count B.count / (1 + binSize scheme A B) := by
  simp only [scoreOf, netIntersection, rawIntersection_eq_min, List.map_cons, List.map_nil,
    List.sum_cons, List.sum_nil]
  ring

theorem costOf_singleton (scheme : BinWeightScheme) (A B : Bin) (parent : Option Nat) :
    costOf scheme [⟨A, B, 0, parent, true⟩] = binSize scheme A B * min A.count B.count := by
  simp only [costOf, netIntersection, rawIntersection_eq_min, List.map_cons, List.map_nil,
    List.sum_cons, List.sum_nil]
  ring

theorem MatchPyramids_root_only (first second : MultiResolutionHistogram)
    (return_type : MatchReturnType) (scheme : BinWeightScheme) (hv : ValidPair first second)
    (hno : ∀ a ∈ first.root.children, ∀ b ∈ second.root.children,
      a.index.getLast? ≠ b.index.getLast?)
    (hok : scheme = .BIN_WEIGHT_GLOBAL → first.root.size = second.root.size) :
    MatchPyramids first second return_type scheme =
      .value (if return_type = .COST then
          binSize scheme first.root second.root * min first.root.count second.root.count
        else min first.root.count second.root.count / (1 + binSize scheme first.root second.root))
      := by
  rw [MatchPyramids_eq first second return_type scheme _ (matchTrace_root_only first second hv hno)]
  have hp : ([⟨first.root, second.root, 0, none, true⟩] : List MatchNode).all (passes scheme)
      = true := by
    simp only [List.all_cons, List.all_nil, Bool.and_true, passes, Bool.not_eq_true',
      decide_eq_false_iff_not, not_and, not_not]
    exact hok
  rw [if_pos hp, scoreOf_singleton, costOf_singleton]

/-- C10 (amended): for histograms of the data model whose roots have no child
last index in common, and every scheme under which the computation does not
abort (LOCAL, or GLOBAL with equal root sizes), exactly one pair, the root
pair, is finalized, the similarity is
`min(rootA.count, rootB.count) / (1 + bin_size_root)` and the cost is
`bin_size_root * min(rootA.count, rootB.count)`. -/
theorem C10_root_only_overlap (h1 h2 : MultiResolutionHistogram) (scheme : BinWeightScheme)
    (hv : ValidPair h1 h2)
    (hno : ∀ a ∈ h1.root.children, ∀ b ∈ h2.root.children,
      a.index.getLast? ≠ b.index.getLast?)
    (hok : scheme = .BIN_WEIGHT_GLOBAL → h1.root.size = h2.root.size) :
    (∃ st, finalState h1 h2 scheme = .value st ∧
      st.finalized.map MatchNode.pair = [(h1.root, h2.root)]) ∧
    (∃ st, finalState h2 h1 scheme = .value st ∧
      st.finalized.map MatchNode.pair = [(h2.root, h1.root)]) ∧
    GetPyramidMatchSimilarity h1 h2 scheme =
      .value (min h1.root.count h2.root.count / (1 + binSize scheme h1.root h2.root)) ∧
    GetPyramidMatchCost h1 h2 scheme =
      .value (binSize scheme h1.root h2.root * min h1.root.count h2.root.count) := by
  have hv2 : ValidPair h2 h1 := ⟨hv.2.1, hv.1, hv.2.2.1.symm, hv.2.2.2.2, hv.2.2.2.1⟩
  have hno2 : ∀ a ∈ h2.root.children, ∀ b ∈ h1.root.children,
      a.index.getLast? ≠ b.index.getLast? := fun a ha b hb h => hno b hb a ha h.symm
  have hok2 : scheme = .BIN_WEIGHT_GLOBAL → h2.root.size = h1.root.size :=
    fun h => (hok h).symm
  have hp : ∀ (A B : Bin), (scheme = .BIN_WEIGHT_GLOBAL → A.size = B.size) →
      ([⟨A, B, 0, none, true⟩] : List MatchNode).all (passes scheme) = true := by
    intro A B h
    simp only [List.all_cons, List.all_nil, Bool.and_true, passes, Bool.not_eq_true',
      decide_eq_false_iff_not, not_and, not_not]
    exact h
  refine ⟨?_, ?_, ?_, ?_⟩
  · rw [finalState_eq h1 h2 scheme _ (matchTrace_root_only h1 h2 hv hno), if_pos (hp _ _ hok)]
    exact ⟨_, rfl, rfl⟩
  · rw [finalState_eq h2 h1 scheme _ (matchTrace_root_only h2 h1 hv2 hno2),
      if_pos (hp _ _ hok2)]
    exact ⟨_, rfl, rfl⟩
  · unfold GetPyramidMatchSimilarity
    split
    · rw [MatchPyramids_root_only h1 h2 _ scheme hv hno hok]; simp
    · rw [MatchPyramids_root_only h2 h1 _ scheme hv2 hno2 hok2]
      simp [binSize_swap scheme h1.root h2.root hok, min_comm]
  · unfold GetPyramidMatchCost
    split
    · rw [MatchPyramids_root_only h1 h2 _ scheme hv hno hok]; simp
    · rw [MatchPyramids_root_only h2 h1 _ scheme hv2 hno2 hok2]
      simp [binSize_swap scheme h1.root h2.root hok, min_comm]

theorem C10_root_only_overlap_witness :
    GetPyramidMatchSimilarity mismatchA (rootOnly 7 3 1) .BIN_WEIGHT_LOCAL =
      .value (min mismatchA.root.count (rootOnly 7 3 1).root.count /
        (1 + binSize .BIN_WEIGHT_LOCAL mismatchA.root (rootOnly 7 3 1).root)) ∧
    GetPyramidMatchCost mismatchA (rootOnly 7 3 1) .BIN_WEIGHT_LOCAL =
      .value (binSize .BIN_WEIGHT_LOCAL mismatchA.root (rootOnly 7 3 1).root *
        min mismatchA.root.count (rootOnly 7 3 1).root.count) :=
  (C10_root_only_overlap mismatchA (rootOnly 7 3 1) .BIN_WEIGHT_LOCAL (by decide)
    (by simp [rootOnly, Bin.children, BinPtr.toList]) (by decide)).2.2

/-- C10 as stated fails: two root-only histograms whose root sizes differ
share no child index, yet under GLOBAL the computation aborts, so no pair is
finalized and no value is returned. -/
theorem C10_root_only_overlap_counterexample :
    ValidPair (rootOnly 3 1 1) (rootOnly 5 2 1) ∧
    (∀ a ∈ (rootOnly 3 1 1).root.children, ∀ b ∈ (rootOnly 5 2 1).root.children,
      a.index.getLast? ≠ b.index.getLast?) ∧
    finalState (rootOnly 3 1 1) (rootOnly 5 2 1) .BIN_WEIGHT_GLOBAL = .assertFailed ∧
    GetPyramidMatchSimilarity (rootOnly 3 1 1) (rootOnly 5 2 1) .BIN_WEIGHT_GLOBAL ≠
      .value (min (rootOnly 3 1 1).root.count (rootOnly 5 2 1).root.count /
        (1 + binSize .BIN_WEIGHT_GLOBAL (rootOnly 3 1 1).root (rootOnly 5 2 1).root)) ∧
    GetPyramidMatchCost (rootOnly 3 1 1) (rootOnly 5 2 1) .BIN_WEIGHT_GLOBAL ≠
      .value (binSize .BIN_WEIGHT_GLOBAL (rootOnly 3 1 1).root (rootOnly 5 2 1).root *
        min (rootOnly 3 1 1).root.count (rootOnly 5 2 1).root.count) := by
  refine ⟨by decide, by simp [rootOnly, Bin.children, BinPtr.toList], ?_, ?_, ?_⟩
  · simp [finalState, runPyramids, initState, loop, step, mergeLoop, MatchNode.new,
      updateSlot, BinPtr.numBins, BinPtr.chainLength, rootOnly]
  · simp [GetPyramidMatchSimilarity, MatchPyramids, finalState, runPyramids, initState, loop,
      step, mergeLoop, MatchNode.new, updateSlot, BinPtr.numBins, BinPtr.chainLength, rootOnly]
  · simp [GetPyramidMatchCost, MatchPyramids, finalState, runPyramids, initState, loop,
      step, mergeLoop, MatchNode.new, updateSlot, BinPtr.numBins, BinPtr.chainLength, rootOnly]

/-! ### Nonnegativity under count conservation -/

theorem nonneg_mem {as : BinPtr} (h : as.Nonneg) {a : Bin} (ha : a ∈ as.toList) :
    a.Nonneg := by
  induction as with
  | null => simp [BinPtr.toList] at ha
  | bin i c s fc ns _ ih2 =>
    simp only [BinPtr.Nonneg] at h
    simp only [BinPtr.toList, List.mem_cons] at ha
    rcases ha with rfl | ha
    · exact ⟨h.1, h.2.1, h.2.2.1⟩
    · exact ih2 h.2.2.2 ha

theorem conserving_mem {as : BinPtr} (h : as.Conserving) {a : Bin} (ha : a ∈ as.toList) :
    a.Conserving := by
  induction as with
  | null => simp [BinPtr.toList] at ha
  | bin i c s fc ns _ ih2 =>
    simp only [BinPtr.Conserving] at h
    simp only [BinPtr.toList, List.mem_cons] at ha
    rcases ha with rfl | ha
    · exact ⟨h.1, h.2.1⟩
    · exact ih2 h.2.2 ha

theorem countSum_eq (as : BinPtr) : as.countSum = (as.toList.map Bin.count).sum := by
  induction as with
  | null => rfl
  | bin i c s fc ns _ ih2 =>
    simp only [BinPtr.countSum, BinPtr.toList, List.map_cons, List.sum_cons, ih2]

theorem ledger_le_count {A B : Bin} (nA : A.Nonneg) (nB : B.Nonneg) (cA : A.Conserving)
    (cB : B.Conserving) {lvl fuel : Nat} {ps : List (Bin × Bin)}
    (hps : mergePairs lvl fuel A.firstChild B.firstChild = .value ps) :
    (ps.map fun p => rawIntersection p.1 p.2).sum ≤ rawIntersection A B := by
  obtain ⟨h1, h2⟩ := mergePairs_sublist _ _ _ _ _ hps
  have hA : ∀ x ∈ A.firstChild.toList.map Bin.count, (0 : ℚ) ≤ x := by
    intro x hx
    obtain ⟨a, ha, rfl⟩ := List.mem_map.mp hx
    exact (nonneg_mem nA.2.2 ha).1
  have hB : ∀ x ∈ B.firstChild.toList.map Bin.count, (0 : ℚ) ≤ x := by
    intro x hx
    obtain ⟨a, ha, rfl⟩ := List.mem_map.mp hx
    exact (nonneg_mem nB.2.2 ha).1
  have s1 : ((ps.map Prod.fst).map Bin.count).sum ≤ A.count := by
    refine le_trans ((h1.map Bin.count).sum_le_sum hA) ?_
    rw [← countSum_eq]; exact cA.1
  have s2 : ((ps.map Prod.snd).map Bin.count).sum ≤ B.count := by
    refine le_trans ((h2.map Bin.count).sum_le_sum hB) ?_
    rw [← countSum_eq]; exact cB.1
  have t1 : (ps.map fun p => rawIntersection p.1 p.2).sum ≤
      ((ps.map Prod.fst).map Bin.count).sum := by
    rw [List.map_map]
    refine List.sum_le_sum ?_
    intro p _
    simp only [Function.comp, rawIntersection_eq_min]
    exact min_le_left _ _
  have t2 : (ps.map fun p => rawIntersection p.1 p.2).sum ≤
      ((ps.map Prod.snd).map Bin.count).sum := by
    rw [List.map_map]
    refine List.sum_le_sum ?_
    intro p _
    simp only [Function.comp, rawIntersection_eq_min]
    exact min_le_right _ _
  rw [rawIntersection_eq_min]
  exact le_min (le_trans t1 s1) (le_trans t2 s2)

theorem finalizedTrace_nonneg :
    ∀ (d : Nat) (parent : Option Nat) (slot : Nat) (A B : Bin) (T : List MatchNode),
      (A.Nonneg ∧ A.Conserving ∧ B.Nonneg ∧ B.Conserving) →
      finalizedTrace d parent slot A B = .value T →
      ∀ r ∈ T, 0 ≤ netIntersection r ∧ 0 ≤ r.node_.size ∧ 0 ≤ r.counterpart_.size := by
  refine finalizedTrace_forall (fun A B => A.Nonneg ∧ A.Conserving ∧ B.Nonneg ∧ B.Conserving)
    (fun r => 0 ≤ netIntersection r ∧ 0 ≤ r.node_.size ∧ 0 ≤ r.counterpart_.size) ?_ ?_
  · intro A B hQ a ha b hb
    exact ⟨nonneg_mem hQ.1.2.2 ha, conserving_mem hQ.2.1.2 ha, nonneg_mem hQ.2.2.1.2.2 hb,
      conserving_mem hQ.2.2.2.2 hb⟩
  · intro A B ps parent hQ hps
    refine ⟨?_, hQ.1.2.1, hQ.2.2.1.2.1⟩
    simp only [netIntersection]
    have := ledger_le_count hQ.1 hQ.2.2.1 hQ.2.1 hQ.2.2.2 hps
    linarith

theorem binSize_nonneg (scheme : BinWeightScheme) (a b : Bin) (ha : 0 ≤ a.size)
    (hb : 0 ≤ b.size) : 0 ≤ binSize scheme a b := by
  unfold binSize
  split
  · exact ha
  · exact add_nonneg ha hb

/-! ### Bins without a counterpart -/

theorem forall₂_flatMap_perm {α β : Type} {R : α → α → Prop} {f : α → List β}
    {l l1 : List α} (h : List.Forall₂ R l l1) (hf : ∀ x y, R x y → (f x).Perm (f y)) :
    (l.flatMap f).Perm (l1.flatMap f) := by
  induction h with
  | nil => exact List.Perm.refl _
  | cons hxy _ ih =>
    simp only [List.flatMap_cons]
    exact (hf _ _ hxy).append ih

theorem forall₂_sum_eq {α : Type} {R : α → α → Prop} {f : α → ℚ}
    {l l1 : List α} (h : List.Forall₂ R l l1) (hf : ∀ x y, R x y → f x = f y) :
    (l.map f).sum = (l1.map f).sum := by
  induction h with
  | nil => rfl
  | cons hxy _ ih =>
    simp only [List.map_cons, List.sum_cons, hf _ _ hxy, ih]

theorem forall₂_append' {α : Type} {R : α → α → Prop} {l1 l2 m1 m2 : List α}
    (h1 : List.Forall₂ R l1 m1) (h2 : List.Forall₂ R l2 m2) :
    List.Forall₂ R (l1 ++ l2) (m1 ++ m2) := by
  induction h1 with
  | nil => exact h2
  | cons hxy _ ih => exact List.Forall₂.cons hxy ih

/-- The relation between corresponding pairs of common children before and
after pruning. -/
theorem pruned_pairs (as : BinPtr) :
    ∀ (as1 bs : BinPtr), as.Pruned as1 bs →
      List.Forall₂
        (fun p q : Bin × Bin => q.2 = p.2 ∧ q.1.count = p.1.count ∧ q.1.size = p.1.size ∧
          p.1.firstChild.Pruned q.1.firstChild p.2.firstChild ∧
          p.1 ∈ as.toList ∧ q.1 ∈ as1.toList ∧ p.2 ∈ bs.toList)
        (pairsWhere (fun x y => decide (x.index.getLast? = y.index.getLast?)) as.toList bs.toList)
        (pairsWhere (fun x y => decide (x.index.getLast? = y.index.getLast?)) as1.toList
          bs.toList) := by
  induction as with
  | null =>
    intro as1 bs h
    simp only [BinPtr.Pruned] at h
    subst h
    simp [BinPtr.toList, pairsWhere]
  | bin i c s f ns _ ih2 =>
    intro as1 bs h
    simp only [BinPtr.Pruned] at h
    have hnil : (∀ b ∈ bs.toList, i.getLast? ≠ b.index.getLast?) → ∀ (c0 s0 : ℚ) (f0 n0 : BinPtr),
        (bs.toList.filter fun y =>
          decide ((⟨i, c0, s0, f0, n0⟩ : Bin).index.getLast? = y.index.getLast?)) = [] := by
      intro hu c0 s0 f0 n0
      rw [List.filter_eq_nil_iff]
      intro b hb
      simpa using hu b hb
    rcases h with ⟨hu, hp⟩ | ⟨c1, s1, f1, ns1, rfl, hp, hcase⟩
    · simp only [BinPtr.toList]
      rw [pairsWhere_cons_left, hnil hu, List.map_nil, List.nil_append]
      refine (ih2 as1 bs hp).imp ?_
      rintro p q ⟨h1, h2, h3, h4, h5, h6, h7⟩
      exact ⟨h1, h2, h3, h4, List.mem_cons_of_mem _ h5, h6, h7⟩
    · have hrest := (ih2 ns1 bs hp).imp (S := fun p q : Bin × Bin =>
          q.2 = p.2 ∧ q.1.count = p.1.count ∧ q.1.size = p.1.size ∧
          p.1.firstChild.Pruned q.1.firstChild p.2.firstChild ∧
          p.1 ∈ (BinPtr.bin i c s f ns).toList ∧ q.1 ∈ (BinPtr.bin i c1 s1 f1 ns1).toList ∧
          p.2 ∈ bs.toList) (by
        rintro p q ⟨h1, h2, h3, h4, h5, h6, h7⟩
        exact ⟨h1, h2, h3, h4, by simp only [BinPtr.toList]; exact List.mem_cons_of_mem _ h5,
          by simp only [BinPtr.toList]; exact List.mem_cons_of_mem _ h6, h7⟩)
      simp only [BinPtr.toList] at hrest ⊢
      rw [pairsWhere_cons_left, pairsWhere_cons_left]
      rcases hcase with hu | ⟨rfl, rfl, hch⟩
      · rw [hnil hu c s f ns]
        simpa using hrest
      · refine forall₂_append' ?_ hrest
        rw [List.forall₂_map_left_iff, List.forall₂_map_right_iff, List.forall₂_same]
        intro b hb
        simp only [List.mem_filter, decide_eq_true_eq] at hb
        exact ⟨rfl, rfl, rfl, hch b hb.1 hb.2, List.mem_cons_self _ _, List.mem_cons_self _ _,
          hb.1⟩

theorem pruned_data :
    ∀ (n : Nat) (A A1 B : Bin), A.firstChild.numBins ≤ n →
      A.WellFormed → A1.WellFormed → B.WellFormed →
      A1.count = A.count → A1.size = A.size →
      A.firstChild.Pruned A1.firstChild B.firstChild →
      ((correspondences A B).map pairData).Perm ((correspondences A1 B).map pairData) := by
  intro n
  induction n with
  | zero =>
    intro A A1 B hn hA hA1 hB hc hs hp
    have hnull : A.firstChild = .null := by
      cases hfc : A.firstChild with
      | null => rfl
      | bin i c s f ns => rw [hfc] at hn; simp [BinPtr.numBins] at hn
    rw [hnull] at hp
    simp only [BinPtr.Pruned] at hp
    refine ((correspondences_rec hA hB).map _).trans
      (List.Perm.trans ?_ ((correspondences_rec hA1 hB).map _).symm)
    simp [commonChildren, Bin.children, hnull, hp, BinPtr.toList, pairsWhere, pairData,
      childIntersections, hc, hs]
  | succ n ih =>
    intro A A1 B hn hA hA1 hB hc hs hp
    have hrel := pruned_pairs _ _ _ hp
    refine ((correspondences_rec hA hB).map _).trans
      (List.Perm.trans ?_ ((correspondences_rec hA1 hB).map _).symm)
    simp only [List.map_cons, List.map_flatMap]
    have hhead : pairData (A, B) = pairData (A1, B) := by
      simp only [pairData, childIntersections, commonChildren, Bin.children, hc, hs]
      congr 4
      exact forall₂_sum_eq hrel (fun p q h => by rw [h.1, h.2.1])
    rw [hhead]
    refine List.Perm.cons _ ?_
    refine forall₂_flatMap_perm hrel ?_
    rintro p q ⟨h1, h2, h3, h4, h5, h6, h7⟩
    have w1 := wellFormed_mem hA h5
    have w2 := wellFormed_mem hA1 h6
    have w3 := wellFormed_mem hB h7
    have hnb := numBins_mem h5
    rw [h1]
    exact ih p.1 q.1 p.2 (by omega) w1.2 w2.2 w3.2 h2 h3 h4

theorem specSimilarity_eq_of_data (scheme : BinWeightScheme) (A A1 B : Bin)
    (h : ((correspondences A B).map pairData).Perm ((correspondences A1 B).map pairData)) :
    specSimilarity scheme A B = specSimilarity scheme A1 B := by
  have e : ∀ l : List (Bin × Bin), (l.map (specScoreTerm scheme)).sum =
      ((l.map pairData).map fun d : ℚ × ℚ × ℚ × ℚ × ℚ =>
        1 / (1 + (if scheme = .BIN_WEIGHT_GLOBAL then d.2.1 else d.2.1 + d.2.2.2.1)) *
          (min d.1 d.2.2.1 - d.2.2.2.2)).sum := by
    intro l
    rw [List.map_map]
    rfl
  rw [specSimilarity, specSimilarity, e, e]
  exact (h.map _).sum_eq

theorem specCost_eq_of_data (scheme : BinWeightScheme) (A A1 B : Bin)
    (h : ((correspondences A B).map pairData).Perm ((correspondences A1 B).map pairData)) :
    specCost scheme A B = specCost scheme A1 B := by
  have e : ∀ l : List (Bin × Bin), (l.map (specCostTerm scheme)).sum =
      ((l.map pairData).map fun d : ℚ × ℚ × ℚ × ℚ × ℚ =>
        (if scheme = .BIN_WEIGHT_GLOBAL then d.2.1 else d.2.1 + d.2.2.2.1) *
          (min d.1 d.2.2.1 - d.2.2.2.2)).sum := by
    intro l
    rw [List.map_map]
    rfl
  rw [specCost, specCost, e, e]
  exact (h.map _).sum_eq

theorem sizeMismatch_iff_data (A B : Bin) :
    sizeMismatch A B ↔ ∃ d ∈ (correspondences A B).map pairData, d.2.1 ≠ d.2.2.2.1 := by
  simp only [sizeMismatch, List.mem_map]
  constructor
  · rintro ⟨p, hp, hne⟩
    exact ⟨pairData p, ⟨p, hp, rfl⟩, hne⟩
  · rintro ⟨d, ⟨p, hp, rfl⟩, hne⟩
    exact ⟨p, hp, hne⟩

theorem sizeMismatch_eq_of_data (A A1 B : Bin)
    (h : ((correspondences A B).map pairData).Perm ((correspondences A1 B).map pairData)) :
    sizeMismatch A B ↔ sizeMismatch A1 B := by
  rw [sizeMismatch_iff_data, sizeMismatch_iff_data]
  simp only [h.mem_iff]

theorem GetPyramidMatchSimilarity_spec_swap (first second : MultiResolutionHistogram)
    (scheme : BinWeightScheme) (hv : ValidPair first second) :
    GetPyramidMatchSimilarity second first scheme =
      if scheme = .BIN_WEIGHT_GLOBAL ∧ sizeMismatch first.root second.root then .assertFailed
      else .value (specSimilarity scheme first.root second.root) := by
  obtain ⟨hA, hB, hlen, sA, sB⟩ := hv
  rw [GetPyramidMatchSimilarity_spec second first scheme hB hA hlen.symm sB sA]
  by_cases hm : scheme = .BIN_WEIGHT_GLOBAL ∧ sizeMismatch first.root second.root
  · have hm2 : scheme = .BIN_WEIGHT_GLOBAL ∧ sizeMismatch second.root first.root :=
      ⟨hm.1, (sizeMismatch_comm _ _).mpr hm.2⟩
    rw [if_pos hm, if_pos hm2]
  · have hm2 : ¬ (scheme = .BIN_WEIGHT_GLOBAL ∧ sizeMismatch second.root first.root) :=
      fun h => hm ⟨h.1, (sizeMismatch_comm _ _).mp h.2⟩
    rw [if_neg hm, if_neg hm2, specSimilarity_comm scheme _ _ hm]

theorem GetPyramidMatchCost_spec_swap (first second : MultiResolutionHistogram)
    (scheme : BinWeightScheme) (hv : ValidPair first second) :
    GetPyramidMatchCost second first scheme =
      if scheme = .BIN_WEIGHT_GLOBAL ∧ sizeMismatch first.root second.root then .assertFailed
      else .value (specCost scheme first.root second.root) := by
  obtain ⟨hA, hB, hlen, sA, sB⟩ := hv
  rw [GetPyramidMatchCost_spec second first scheme hB hA hlen.symm sB sA]
  by_cases hm : scheme = .BIN_WEIGHT_GLOBAL ∧ sizeMismatch first.root second.root
  · have hm2 : scheme = .BIN_WEIGHT_GLOBAL ∧ sizeMismatch second.root first.root :=
      ⟨hm.1, (sizeMismatch_comm _ _).mpr hm.2⟩
    rw [if_pos hm, if_pos hm2]
  · have hm2 : ¬ (scheme = .BIN_WEIGHT_GLOBAL ∧ sizeMismatch second.root first.root) :=
      fun h => hm ⟨h.1, (sizeMismatch_comm _ _).mp h.2⟩
    rw [if_neg hm, if_neg hm2, specCost_comm scheme _ _ hm]

/-- C7: for histograms of the data model `A`, `A1` and `B`, where `A1` is `A`
with bins whose root-relative index path does not occur in `B` removed
together with their subtrees, or with their count, size or descendants
changed (indices and sibling order kept), cost and similarity against `B`
give the same result, value or abort, for `A` and for `A1`, in either
argument order and under every scheme. -/
theorem C7_unmatched_subtrees_contribute_nothing (A A1 B : MultiResolutionHistogram)
    (scheme : BinWeightScheme) (hv : ValidPair A B) (hv1 : ValidPair A1 B)
    (hc : A1.root.count = A.root.count) (hs : A1.root.size = A.root.size)
    (hp : A.root.firstChild.Pruned A1.root.firstChild B.root.firstChild) :
    GetPyramidMatchSimilarity A B scheme = GetPyramidMatchSimilarity A1 B scheme ∧
    GetPyramidMatchCost A B scheme = GetPyramidMatchCost A1 B scheme ∧
    GetPyramidMatchSimilarity B A scheme = GetPyramidMatchSimilarity B A1 scheme ∧
    GetPyramidMatchCost B A scheme = GetPyramidMatchCost B A1 scheme := by
  have hd := pruned_data _ A.root A1.root B.root (le_refl _) hv.1 hv1.1 hv.2.1 hc hs hp
  have e1 := specSimilarity_eq_of_data scheme _ _ _ hd
  have e2 := specCost_eq_of_data scheme _ _ _ hd
  have e3 := sizeMismatch_eq_of_data _ _ _ hd
  have k1 : GetPyramidMatchSimilarity A B scheme = GetPyramidMatchSimilarity A1 B scheme := by
    rw [GetPyramidMatchSimilarity_spec A B scheme hv.1 hv.2.1 hv.2.2.1 hv.2.2.2.1 hv.2.2.2.2,
      GetPyramidMatchSimilarity_spec A1 B scheme hv1.1 hv1.2.1 hv1.2.2.1 hv1.2.2.2.1
        hv1.2.2.2.2, e1]
    simp only [e3]
  have k2 : GetPyramidMatchCost A B scheme = GetPyramidMatchCost A1 B scheme := by
    rw [GetPyramidMatchCost_spec A B scheme hv.1 hv.2.1 hv.2.2.1 hv.2.2.2.1 hv.2.2.2.2,
      GetPyramidMatchCost_spec A1 B scheme hv1.1 hv1.2.1 hv1.2.2.1 hv1.2.2.2.1
        hv1.2.2.2.2, e2]
    simp only [e3]
  refine ⟨k1, k2, ?_, ?_⟩
  · rw [GetPyramidMatchSimilarity_spec_swap A B scheme hv,
      GetPyramidMatchSimilarity_spec_swap A1 B scheme hv1, e1]
    simp only [e3]
  · rw [GetPyramidMatchCost_spec_swap A B scheme hv,
      GetPyramidMatchCost_spec_swap A1 B scheme hv1, e2]
    simp only [e3]

theorem C7_unmatched_subtrees_contribute_nothing_witness :
    ValidPair mismatchA mismatchB ∧ ValidPair mismatchAPruned mismatchB ∧
    mismatchA.root.firstChild.Pruned mismatchAPruned.root.firstChild
      mismatchB.root.firstChild ∧
    GetPyramidMatchSimilarity mismatchA mismatchB .BIN_WEIGHT_LOCAL =
      GetPyramidMatchSimilarity mismatchAPruned mismatchB .BIN_WEIGHT_LOCAL ∧
    GetPyramidMatchCost mismatchA mismatchB .BIN_WEIGHT_LOCAL =
      GetPyramidMatchCost mismatchAPruned mismatchB .BIN_WEIGHT_LOCAL := by
  have hp : mismatchA.root.firstChild.Pruned mismatchAPruned.root.firstChild
      mismatchB.root.firstChild := by
    simp [mismatchA, mismatchAPruned, mismatchB, BinPtr.Pruned, BinPtr.toList]
    exact ⟨4, 1, .null, .null, ⟨rfl, rfl, rfl, rfl⟩, Or.inl rfl, rfl, rfl, rfl⟩
  have h := C7_unmatched_subtrees_contribute_nothing mismatchA mismatchAPruned mismatchB
    .BIN_WEIGHT_LOCAL (by decide) (by decide) rfl rfl hp
  exact ⟨by decide, by decide, hp, h.1, h.2.1⟩

/-! ### Trees of the same shape -/

theorem shapeLe_refl (as : BinPtr) : as.ShapeLe as := by
  induction as with
  | null => trivial
  | bin i c s f ns ih1 ih2 => exact ⟨rfl, le_refl _, ih1, ih2⟩

theorem sameSizes_refl (as : BinPtr) : as.SameSizes as := by
  induction as with
  | null => trivial
  | bin i c s f ns ih1 ih2 => exact ⟨rfl, ih1, ih2⟩

theorem shapeLe_pairs (as : BinPtr) :
    ∀ bs : BinPtr, as.ShapeLe bs → as.Ascending → bs.Ascending →
      pairsWhere (fun x y => decide (x.index.getLast? = y.index.getLast?)) as.toList bs.toList =
        List.zip as.toList bs.toList ∧ as.toList.length = bs.toList.length := by
  induction as with
  | null =>
    intro bs h _ _
    cases bs with
    | null => simp [BinPtr.toList, pairsWhere]
    | bin i2 c2 s2 f2 n2 => simp [BinPtr.ShapeLe] at h
  | bin i1 c1 s1 f1 n1 _ ih2 =>
    intro bs h sa sb
    cases bs with
    | null => simp [BinPtr.ShapeLe] at h
    | bin i2 c2 s2 f2 n2 =>
      simp only [BinPtr.ShapeLe] at h
      simp only [BinPtr.Ascending] at sa sb
      obtain ⟨rfl, _, _, hn⟩ := h
      obtain ⟨e, hl⟩ := ih2 n2 hn sa.2.2 sb.2.2
      simp only [BinPtr.toList, List.zip_cons_cons, List.length_cons, hl, and_true]
      rw [pairsWhere_cons_left, pairsWhere_cons_right_of_false, e]
      · have : n2.toList.filter
            (fun y => decide ((⟨i1, c1, s1, f1, n1⟩ : Bin).index.getLast? = y.index.getLast?))
            = [] := by
          rw [List.filter_eq_nil_iff]
          intro b hb
          obtain ⟨x, y, hx, hy, hlt⟩ := (lastLt_iff _ _).mp (sb.1 b hb)
          simp only [hx, hy, decide_eq_true_eq, Option.some.injEq]
          omega
        rw [List.filter_cons, this]
        simp
      · intro a ha
        obtain ⟨x, y, hx, hy, hlt⟩ := (lastLt_iff _ _).mp (sa.1 a ha)
        simp only [hx, hy, decide_eq_false_iff_not, Option.some.injEq]
        omega

theorem shapeLe_zip (as : BinPtr) :
    ∀ bs : BinPtr, as.ShapeLe bs → ∀ p ∈ List.zip as.toList bs.toList, p.1.ShapeLe p.2 := by
  induction as with
  | null => intro bs _ p hp; simp [BinPtr.toList] at hp
  | bin i1 c1 s1 f1 n1 _ ih2 =>
    intro bs h p hp
    cases bs with
    | null => simp [BinPtr.toList] at hp
    | bin i2 c2 s2 f2 n2 =>
      simp only [BinPtr.ShapeLe] at h
      simp only [BinPtr.toList, List.zip_cons_cons, List.mem_cons] at hp
      rcases hp with rfl | hp
      · exact ⟨h.1, h.2.1, h.2.2.1⟩
      · exact ih2 n2 h.2.2.2 p hp

theorem sameSizes_zip (as : BinPtr) :
    ∀ bs : BinPtr, as.SameSizes bs → ∀ p ∈ List.zip as.toList bs.toList, p.1.SameSizes p.2 := by
  induction as with
  | null => intro bs _ p hp; simp [BinPtr.toList] at hp
  | bin i1 c1 s1 f1 n1 _ ih2 =>
    intro bs h p hp
    cases bs with
    | null => simp [BinPtr.toList] at hp
    | bin i2 c2 s2 f2 n2 =>
      simp only [BinPtr.SameSizes] at h
      simp only [BinPtr.toList, List.zip_cons_cons, List.mem_cons] at hp
      rcases hp with rfl | hp
      · exact ⟨h.1, h.2.1⟩
      · exact ih2 n2 h.2.2 p hp

theorem sizeMonotone_mem {ps : ℚ} {as : BinPtr} (h : as.SizeMonotone ps) {a : Bin}
    (ha : a ∈ as.toList) : a.size ≤ ps ∧ a.SizeMonotone := by
  induction as with
  | null => simp [BinPtr.toList] at ha
  | bin i c s fc ns _ ih2 =>
    simp only [BinPtr.SizeMonotone] at h
    simp only [BinPtr.toList, List.mem_cons] at ha
    rcases ha with rfl | ha
    · exact ⟨h.1.2, h.1.1, h.2.1⟩
    · exact ih2 h.2.2 ha

theorem sum_map_flatMap {α β : Type} (l : List α) (g : α → List β) (f : β → ℚ) :
    ((l.flatMap g).map f).sum = (l.map fun x => ((g x).map f).sum).sum := by
  induction l with
  | nil => rfl
  | cons x l ih => simp [List.flatMap_cons, ih]

theorem specSimilarity_rec (scheme : BinWeightScheme) {A B : Bin} (hA : A.WellFormed)
    (hB : B.WellFormed) :
    specSimilarity scheme A B = specScoreTerm scheme (A, B) +
      ((commonChildren A B).map fun q => specSimilarity scheme q.1 q.2).sum := by
  rw [specSimilarity, ((correspondences_rec hA hB).map _).sum_eq, List.map_cons, List.sum_cons,
    sum_map_flatMap]
  rfl

theorem mem_correspondences_rec {A B : Bin} (hA : A.WellFormed) (hB : B.WellFormed)
    (p : Bin × Bin) :
    p ∈ correspondences A B ↔
      p = (A, B) ∨ ∃ q ∈ commonChildren A B, p ∈ correspondences q.1 q.2 := by
  rw [(correspondences_rec hA hB).mem_iff, List.mem_cons, List.mem_flatMap]

theorem sum_scaled_diff_le {α : Type} (w : ℚ) (Z : List α) (f g h k : α → ℚ)
    (H : ∀ p ∈ Z, w * (f p - g p) ≤ h p - k p) :
    w * ((Z.map f).sum - (Z.map g).sum) ≤ (Z.map h).sum - (Z.map k).sum := by
  induction Z with
  | nil => simp
  | cons p Z ih =>
    have h1 := H p (List.mem_cons_self _ _)
    have h2 := ih (fun q hq => H q (List.mem_cons_of_mem _ hq))
    simp only [List.map_cons, List.sum_cons]
    have e : w * (f p + (Z.map f).sum - (g p + (Z.map g).sum)) =
        w * (f p - g p) + w * ((Z.map f).sum - (Z.map g).sum) := by ring
    rw [e]
    linarith

theorem zip_self_map {α β : Type} (l : List α) (g : α × α → β) :
    (List.zip l l).map g = l.map fun a => g (a, a) := by
  induction l with
  | nil => rfl
  | cons a l ih => simp [ih]

theorem zip_map_fst' {α β γ : Type} (l1 : List α) (l2 : List β) (f : α → γ)
    (h : l1.length = l2.length) :
    (List.zip l1 l2).map (fun p => f p.1) = l1.map f := by
  induction l1 generalizing l2 with
  | nil => simp
  | cons a l1 ih =>
    cases l2 with
    | nil => simp at h
    | cons b l2 =>
      simp only [List.length_cons, Nat.add_right_cancel_iff] at h
      simp [ih l2 h]

theorem mem_zip_self {α : Type} (l : List α) (p : α × α) (hp : p ∈ List.zip l l) :
    p.1 = p.2 ∧ p.1 ∈ l := by
  induction l with
  | nil => simp at hp
  | cons a l ih =>
    simp only [List.zip_cons_cons, List.mem_cons] at hp
    rcases hp with rfl | hp
    · exact ⟨rfl, List.mem_cons_self _ _⟩
    · exact ⟨(ih hp).1, List.mem_cons_of_mem _ (ih hp).2⟩

theorem binSize_self_le (scheme : BinWeightScheme) (a A : Bin) (h0 : 0 ≤ a.size)
    (h : a.size ≤ A.size) :
    1 / (1 + binSize scheme A A) ≤ 1 / (1 + binSize scheme a a) := by
  have ha := binSize_nonneg scheme a a h0 h0
  refine one_div_le_one_div_of_le (by linarith) ?_
  unfold binSize
  split <;> linarith

theorem selfMatch_aux (scheme : BinWeightScheme) :
    ∀ (n : Nat) (A B : Bin), A.firstChild.numBins ≤ n →
      A.WellFormed → B.WellFormed → A.Ascending → B.Ascending →
      A.ShapeLe B → A.SameSizes B → A.SizeMonotone →
      (∀ p ∈ correspondences A B, p.1.size = p.2.size) ∧
      (∀ p ∈ correspondences A A, p.1.size = p.2.size) ∧
      1 / (1 + binSize scheme A A) * (A.count - B.count) ≤
        specSimilarity scheme A A - specSimilarity scheme A B := by
  intro n
  induction n using Nat.strong_induction_on with
  | _ n ih =>
    intro A B hn hA hB sA sB hle hsz hmono
    obtain ⟨eZ, hlen⟩ := shapeLe_pairs _ _ hle.2.2 sA sB
    obtain ⟨eZ0, _⟩ := shapeLe_pairs _ _ (shapeLe_refl A.firstChild) sA sA
    have cAB : commonChildren A B = List.zip A.firstChild.toList B.firstChild.toList := eZ
    have cAA : commonChildren A A = List.zip A.firstChild.toList A.firstChild.toList := eZ0
    -- facts about corresponding children
    have hch : ∀ p ∈ List.zip A.firstChild.toList B.firstChild.toList,
        (∀ q ∈ correspondences p.1 p.2, q.1.size = q.2.size) ∧
        (∀ q ∈ correspondences p.1 p.1, q.1.size = q.2.size) ∧
        1 / (1 + binSize scheme A A) * (p.1.count - p.2.count) ≤
          specSimilarity scheme p.1 p.1 - specSimilarity scheme p.1 p.2 ∧
        p.2.count ≤ p.1.count := by
      intro p hp
      obtain ⟨m1, m2⟩ := List.of_mem_zip (show (p.1, p.2) ∈ _ from hp)
      have w1 := wellFormed_mem hA m1
      have w2 := wellFormed_mem hB m2
      have a1 := ascending_mem sA m1
      have a2 := ascending_mem sB m2
      have l1 := shapeLe_zip _ _ hle.2.2 p hp
      have z1 := sameSizes_zip _ _ hsz.2 p hp
      have mo := sizeMonotone_mem hmono.2 m1
      have nb := numBins_mem m1
      obtain ⟨r1, r2, r3⟩ := ih p.1.firstChild.numBins (by omega) p.1 p.2 (le_refl _)
        w1.2 w2.2 a1 a2 l1 z1 mo.2
      refine ⟨r1, r2, ?_, l1.2.1⟩
      have hw := binSize_self_le scheme p.1 A mo.2.1 mo.1
      have hd : 0 ≤ p.1.count - p.2.count := by linarith [l1.2.1]
      exact le_trans (mul_le_mul_of_nonneg_right hw hd) r3
    refine ⟨?_, ?_, ?_⟩
    · intro p hp
      rcases (mem_correspondences_rec hA hB p).mp hp with rfl | ⟨q, hq, hpq⟩
      · exact hsz.1
      · rw [cAB] at hq
        exact (hch q hq).1 p hpq
    · intro p hp
      rcases (mem_correspondences_rec hA hA p).mp hp with rfl | ⟨q, hq, hpq⟩
      · rfl
      · rw [cAA] at hq
        obtain ⟨e, m1⟩ := mem_zip_self _ q hq
        have hlen1 : A.firstChild.toList.length ≤ B.firstChild.toList.length := by omega
        obtain ⟨b, hb⟩ : ∃ b, (q.1, b) ∈ List.zip A.firstChild.toList B.firstChild.toList := by
          have : q.1 ∈ (List.zip A.firstChild.toList B.firstChild.toList).map Prod.fst := by
            rw [List.map_fst_zip _ _ hlen1]; exact m1
          obtain ⟨p0, hp0, hp1⟩ := List.mem_map.mp this
          exact ⟨p0.2, by rw [← hp1]; exact hp0⟩
        rw [← e] at hpq
        exact (hch (q.1, b) hb).2.1 p hpq
    · rw [specSimilarity_rec scheme hA hA, specSimilarity_rec scheme hA hB, cAA, cAB]
      have t1 : specScoreTerm scheme (A, A) = 1 / (1 + binSize scheme A A) *
          (A.count - ((List.zip A.firstChild.toList B.firstChild.toList).map
            fun p => p.1.count).sum) := by
        simp only [specScoreTerm, childIntersections, cAA, min_self]
        rw [zip_self_map, zip_map_fst' _ _ _ hlen]
        simp
      have t2 : specScoreTerm scheme (A, B) = 1 / (1 + binSize scheme A A) *
          (B.count - ((List.zip A.firstChild.toList B.firstChild.toList).map
            fun p => p.2.count).sum) := by
        have eb : binSize scheme A B = binSize scheme A A := by
          unfold binSize; rw [hsz.1]
        simp only [specScoreTerm, childIntersections, cAB, eb, min_eq_right hle.2.1]
        congr 3
        refine List.map_congr_left ?_
        intro p hp
        exact min_eq_right (hch p hp).2.2.2
      have t3 : ((List.zip A.firstChild.toList A.firstChild.toList).map
            fun q => specSimilarity scheme q.1 q.2).sum =
          ((List.zip A.firstChild.toList B.firstChild.toList).map
            fun p => specSimilarity scheme p.1 p.1).sum := by
        rw [zip_self_map, zip_map_fst' _ _ (fun a => specSimilarity scheme a a) hlen]
      rw [t1, t2, t3]
      have key := sum_scaled_diff_le (1 / (1 + binSize scheme A A))
        (List.zip A.firstChild.toList B.firstChild.toList)
        (fun p => p.1.count) (fun p => p.2.count)
        (fun p => specSimilarity scheme p.1 p.1) (fun p => specSimilarity scheme p.1 p.2)
        (fun p hp => (hch p hp).2.2.1)
      linarith

/-! ### The LOCAL scheme -/

theorem all_passes_local (T : List MatchNode) :
    T.all (passes .BIN_WEIGHT_LOCAL) = true := by
  rw [all_passes_iff]
  rintro ⟨h, _⟩
  cases h

theorem allCounts_mem {P : ℚ → Prop} {as : BinPtr} (h : as.AllCounts P) {a : Bin}
    (ha : a ∈ as.toList) : a.AllCounts P := by
  induction as with
  | null => simp [BinPtr.toList] at ha
  | bin i c s fc ns _ ih2 =>
    simp only [BinPtr.AllCounts] at h
    simp only [BinPtr.toList, List.mem_cons] at ha
    rcases ha with rfl | ha
    · exact ⟨h.1, h.2.1⟩
    · exact ih2 h.2.2 ha

theorem rawIntersection_zero {a b : Bin}
    (h : (a.count = 0 ∧ 0 ≤ b.count) ∨ (b.count = 0 ∧ 0 ≤ a.count)) :
    rawIntersection a b = 0 := by
  rw [rawIntersection_eq_min]
  rcases h with ⟨h1, h2⟩ | ⟨h1, h2⟩
  · rw [h1]; exact min_eq_left h2
  · rw [h1]; exact min_eq_right h2

/-- C12: the bin counts that the histograms report only choose the order in
which `MatchPyramids` gets the two trees: for histograms of the data model
and every scheme, cost and similarity are the same for any two assignments of
the reported bin counts, and equal `MatchPyramids` applied to the two trees
in the order given. -/
theorem C12_bin_count_only_orders (r1 r2 : Bin) (n1 n2 m1 m2 : Int)
    (scheme : BinWeightScheme) (hv : ValidPair ⟨r1, n1⟩ ⟨r2, n2⟩) :
    GetPyramidMatchSimilarity ⟨r1, n1⟩ ⟨r2, n2⟩ scheme =
      GetPyramidMatchSimilarity ⟨r1, m1⟩ ⟨r2, m2⟩ scheme ∧
    GetPyramidMatchCost ⟨r1, n1⟩ ⟨r2, n2⟩ scheme =
      GetPyramidMatchCost ⟨r1, m1⟩ ⟨r2, m2⟩ scheme ∧
    GetPyramidMatchSimilarity ⟨r1, n1⟩ ⟨r2, n2⟩ scheme =
      MatchPyramids ⟨r1, n1⟩ ⟨r2, n2⟩ .SIMILARITY scheme ∧
    GetPyramidMatchCost ⟨r1, n1⟩ ⟨r2, n2⟩ scheme =
      MatchPyramids ⟨r1, n1⟩ ⟨r2, n2⟩ .COST scheme := by
  obtain ⟨hA, hB, hlen, sA, sB⟩ := hv
  refine ⟨?_, ?_, ?_, ?_⟩
  · rw [GetPyramidMatchSimilarity_spec ⟨r1, n1⟩ ⟨r2, n2⟩ scheme hA hB hlen sA sB,
      GetPyramidMatchSimilarity_spec ⟨r1, m1⟩ ⟨r2, m2⟩ scheme hA hB hlen sA sB]
  · rw [GetPyramidMatchCost_spec ⟨r1, n1⟩ ⟨r2, n2⟩ scheme hA hB hlen sA sB,
      GetPyramidMatchCost_spec ⟨r1, m1⟩ ⟨r2, m2⟩ scheme hA hB hlen sA sB]
  · rw [GetPyramidMatchSimilarity_spec ⟨r1, n1⟩ ⟨r2, n2⟩ scheme hA hB hlen sA sB,
      MatchPyramids_spec ⟨r1, n1⟩ ⟨r2, n2⟩ _ scheme hA hB hlen sA sB]
    simp
  · rw [GetPyramidMatchCost_spec ⟨r1, n1⟩ ⟨r2, n2⟩ scheme hA hB hlen sA sB,
      MatchPyramids_spec ⟨r1, n1⟩ ⟨r2, n2⟩ _ scheme hA hB hlen sA sB]
    simp

theorem C12_bin_count_only_orders_witness :
    GetPyramidMatchSimilarity ⟨mismatchA.root, 3⟩ ⟨mismatchB.root, 2⟩ .BIN_WEIGHT_LOCAL =
      GetPyramidMatchSimilarity ⟨mismatchA.root, 1⟩ ⟨mismatchB.root, 7⟩ .BIN_WEIGHT_LOCAL ∧
    GetPyramidMatchCost ⟨mismatchA.root, 3⟩ ⟨mismatchB.root, 2⟩ .BIN_WEIGHT_LOCAL =
      MatchPyramids ⟨mismatchA.root, 3⟩ ⟨mismatchB.root, 2⟩ .COST .BIN_WEIGHT_LOCAL :=
  ⟨(C12_bin_count_only_orders mismatchA.root mismatchB.root 3 2 1 7 .BIN_WEIGHT_LOCAL
      (by decide)).1,
    (C12_bin_count_only_orders mismatchA.root mismatchB.root 3 2 1 7 .BIN_WEIGHT_LOCAL
      (by decide)).2.2.2⟩

/-! ### The ascending order of children -/

/-- C18: the ascending order of children is needed.  In `unsortedA` the
children have last indices `[1, 0]`, in `sortedB` they have `[0, 1]`; all
index paths are well formed.  The bins at path `[0]` share their path, yet the
merge pairs only the bins at path `[1]`: the finalized pairs are those at
paths `[1]` and `[]`, and the similarity returned, `29/10`, differs from the
sum over all pairs of bins sharing an identical path, `41/10`. -/
theorem C18_ascending_order_needed :
    ¬ unsortedA.root.Ascending ∧ sortedB.root.Ascending ∧
    unsortedA.root.WellFormed ∧ sortedB.root.WellFormed ∧
    ((⟨[0], 4, 1, .null, .null⟩ : Bin), (⟨[0], 4, 1, .null, .bin [1] 3 1 .null .null⟩ : Bin)) ∈
      correspondences unsortedA.root sortedB.root ∧
    (∃ st, finalState unsortedA sortedB .BIN_WEIGHT_GLOBAL = .value st ∧
      st.finalized.map (fun r => (r.node_.index, r.counterpart_.index)) =
        [([1], [1]), ([], [])]) ∧
    (∃ st, finalState sortedB unsortedA .BIN_WEIGHT_GLOBAL = .value st ∧
      st.finalized.map (fun r => (r.node_.index, r.counterpart_.index)) =
        [([1], [1]), ([], [])]) ∧
    GetPyramidMatchSimilarity unsortedA sortedB .BIN_WEIGHT_GLOBAL = .value (29 / 10) ∧
    specSimilarity .BIN_WEIGHT_GLOBAL unsortedA.root sortedB.root = 41 / 10 ∧
    GetPyramidMatchSimilarity unsortedA sortedB .BIN_WEIGHT_GLOBAL ≠
      .value (specSimilarity .BIN_WEIGHT_GLOBAL unsortedA.root sortedB.root) := by
  have e1 : GetPyramidMatchSimilarity unsortedA sortedB .BIN_WEIGHT_GLOBAL =
      .value (29 / 10) := by
    simp [GetPyramidMatchSimilarity, MatchPyramids, finalState, runPyramids, initState,
      loop, step, mergeLoop, MatchNode.new, updateSlot, BinPtr.numBins,
      BinPtr.chainLength, unsortedA, sortedB]
    norm_num
  have e2 : specSimilarity .BIN_WEIGHT_GLOBAL unsortedA.root sortedB.root = 41 / 10 := by
    simp [specSimilarity, specScoreTerm, childIntersections, commonChildren, Bin.children,
      BinPtr.toList, correspondences, pairsWhere, Bin.bins, BinPtr.binsBelow, relPath,
      binSize, unsortedA, sortedB]
    norm_num
  refine ⟨by decide, by decide, by decide, by decide, ?_, ?_, ?_, e1, e2, ?_⟩
  · simp [correspondences, pairsWhere, Bin.bins, BinPtr.binsBelow, relPath, unsortedA,
      sortedB]
  · simp [finalState, runPyramids, initState, loop, step, mergeLoop, MatchNode.new,
      updateSlot, BinPtr.numBins, BinPtr.chainLength, unsortedA, sortedB]
  · simp [finalState, runPyramids, initState, loop, step, mergeLoop, MatchNode.new,
      updateSlot, BinPtr.numBins, BinPtr.chainLength, unsortedA, sortedB]
  · rw [e1, e2]
    norm_num

/-! ### The invariant of the pending work set -/

theorem mergePairs_keys (lvl : Nat) :
    ∀ (fuel : Nat) (a b : BinPtr) (ps : List (Bin × Bin)),
      mergePairs lvl fuel a b = .value ps →
      ∀ p ∈ ps, ∃ x, p.1.index.get? lvl = some x ∧ p.2.index.get? lvl = some x := by
  intro fuel
  induction fuel with
  | zero =>
    intro a b ps h
    cases a <;> cases b <;> simp [mergePairs] at h <;> subst h <;> simp
  | succ n ih =>
    intro a b ps h
    cases a with
    | null => simp [mergePairs] at h; subst h; simp
    | bin i1 c1 s1 f1 n1 =>
      cases b with
      | null => simp [mergePairs] at h; subst h; simp
      | bin i2 c2 s2 f2 n2 =>
        simp only [mergePairs] at h
        cases h1 : i1.get? lvl with
        | none => rw [h1] at h; simp at h
        | some x =>
          rw [h1] at h
          cases h2 : i2.get? lvl with
          | none => rw [h2] at h; simp at h
          | some y =>
            rw [h2] at h
            simp only at h
            by_cases hxy : x = y
            · simp only [hxy, if_true] at h
              cases hm : mergePairs lvl n n1 n2 with
              | value qs =>
                rw [hm] at h
                simp only [Outcome.value.injEq] at h
                subst h
                intro p hp
                simp only [List.mem_cons] at hp
                rcases hp with rfl | hp
                · exact ⟨y, by simpa [hxy] using h1, h2⟩
                · exact ih n1 n2 qs hm p hp
              | assertFailed => rw [hm] at h; simp at h
              | outOfRange => rw [hm] at h; simp at h
              | outOfFuel => rw [hm] at h; simp at h
            · simp only [hxy, if_false] at h
              by_cases hlt : x < y
              · simp only [hlt, if_true] at h
                exact ih n1 _ ps h
              · simp only [hlt, if_false] at h
                exact ih _ n2 ps h

theorem binsBelow_wellFormed (as : BinPtr) :
    ∀ (p : List Int), as.WellFormed p → ∀ x ∈ as.binsBelow, x.WellFormed := by
  induction as with
  | null => intro p _ x hx; simp [BinPtr.binsBelow] at hx
  | bin i c s fc ns ih1 ih2 =>
    intro p h x hx
    simp only [BinPtr.WellFormed] at h
    simp only [BinPtr.binsBelow, List.cons_append, List.mem_cons, List.mem_append] at hx
    rcases hx with rfl | hx | hx
    · exact h.2.1
    · exact ih1 i h.2.1 x hx
    · exact ih2 p h.2.2 x hx

theorem bins_wellFormed {A : Bin} (hA : A.WellFormed) {x : Bin} (hx : x ∈ A.bins) :
    x.WellFormed := by
  simp only [Bin.bins, List.mem_cons] at hx
  rcases hx with rfl | hx
  · exact hA
  · exact binsBelow_wellFormed _ _ hA x hx

theorem mem_toList_binsBelow {as : BinPtr} {a : Bin} (ha : a ∈ as.toList) :
    a ∈ as.binsBelow := by
  induction as with
  | null => simp [BinPtr.toList] at ha
  | bin i c s fc ns _ ih2 =>
    simp only [BinPtr.toList, List.mem_cons] at ha
    simp only [BinPtr.binsBelow, List.cons_append, List.mem_cons, List.mem_append]
    rcases ha with rfl | ha
    · exact Or.inl rfl
    · exact Or.inr (Or.inr (ih2 ha))

theorem binsBelow_trans (as : BinPtr) :
    ∀ (x y : Bin), x ∈ as.binsBelow → y ∈ x.firstChild.binsBelow → y ∈ as.binsBelow := by
  induction as with
  | null => intro x y hx; simp [BinPtr.binsBelow] at hx
  | bin i c s fc ns ih1 ih2 =>
    intro x y hx hy
    simp only [BinPtr.binsBelow, List.cons_append, List.mem_cons, List.mem_append] at hx ⊢
    rcases hx with rfl | hx | hx
    · exact Or.inr (Or.inl hy)
    · exact Or.inr (Or.inl (ih1 x y hx hy))
    · exact Or.inr (Or.inr (ih2 x y hx hy))

theorem child_mem_bins {A x y : Bin} (hx : x ∈ A.bins) (hy : y ∈ x.children) : y ∈ A.bins := by
  have hy1 : y ∈ x.firstChild.binsBelow := mem_toList_binsBelow hy
  simp only [Bin.bins, List.mem_cons] at hx ⊢
  rcases hx with rfl | hx
  · exact Or.inr hy1
  · exact Or.inr (binsBelow_trans _ x y hx hy1)

theorem mem_correspondences {A B : Bin} (p : Bin × Bin) :
    p ∈ correspondences A B ↔ p.1 ∈ A.bins ∧ p.2 ∈ B.bins ∧ relPath A p.1 = relPath B p.2 := by
  rw [correspondences, mem_pairsWhere]
  simp

theorem correspondences_facts {A B : Bin} (hA : A.WellFormed) (hB : B.WellFormed)
    (hlen : A.index.length = B.index.length) {p : Bin × Bin}
    (hp : p ∈ correspondences A B) :
    p.1.WellFormed ∧ p.2.WellFormed ∧ p.1.index.length = p.2.index.length := by
  obtain ⟨h1, h2, h3⟩ := (mem_correspondences p).mp hp
  refine ⟨bins_wellFormed hA h1, bins_wellFormed hB h2, ?_⟩
  obtain ⟨q1, e1⟩ := bins_index hA h1
  obtain ⟨q2, e2⟩ := bins_index hB h2
  simp only [relPath, e1, e2, List.drop_left] at h3
  rw [e1, e2, h3, List.length_append, List.length_append, hlen]

theorem correspondences_child {A B : Bin} (hA : A.WellFormed) (hB : B.WellFormed)
    (hlen : A.index.length = B.index.length) {p : Bin × Bin}
    (hp : p ∈ correspondences A B) {a b : Bin} (ha : a ∈ p.1.children)
    (hb : b ∈ p.2.children) {x : Int} (kx : a.index.get? p.1.index.length = some x)
    (ky : b.index.get? p.1.index.length = some x) :
    (a, b) ∈ correspondences A B := by
  obtain ⟨w1, w2, l12⟩ := correspondences_facts hA hB hlen hp
  obtain ⟨h1, h2, h3⟩ := (mem_correspondences p).mp hp
  rw [mem_correspondences]
  refine ⟨child_mem_bins h1 ha, child_mem_bins h2 hb, ?_⟩
  have wa := wellFormed_mem w1 ha
  have wb := wellFormed_mem w2 hb
  obtain ⟨k1, e1, g1⟩ := eq_append_of_dropLast wa.1.1 wa.1.2
  obtain ⟨k2, e2, g2⟩ := eq_append_of_dropLast wb.1.1 wb.1.2
  have f1 := get?_of_dropLast _ _ wa.1.1 wa.1.2
  have f2 := get?_of_dropLast _ _ wb.1.1 wb.1.2
  rw [kx, g1] at f1
  rw [← l12, ky, g2] at f2
  have hk1 : k1 = x := by simpa using f1.symm
  have hk2 : k2 = x := by simpa using f2.symm
  obtain ⟨q1, r1⟩ := bins_index hA h1
  obtain ⟨q2, r2⟩ := bins_index hB h2
  simp only [relPath, r1, r2, List.drop_left] at h3
  simp only [relPath, e1, e2, r1, r2, hk1, hk2, List.append_assoc, List.drop_left, h3]

theorem slotGet_append (xs : List MatchNode) (n : MatchNode) (rest : List MatchNode) :
    slotGet (xs ++ n :: rest) rest.length = some n := by
  induction xs with
  | nil => simp [slotGet]
  | cons x xs ih =>
    have h : (xs ++ n :: rest).length ≠ rest.length := by simp; omega
    rw [List.cons_append, slotGet, if_neg h, ih]

theorem slotGet_cons_lt (x : MatchNode) (rest : List MatchNode) (p : Nat)
    (h : p < rest.length) : slotGet (x :: rest) p = slotGet rest p := by
  have h1 : rest.length ≠ p := by omega
  rw [slotGet, if_neg h1]

theorem slotGet_updateSlot (f : MatchNode → MatchNode) (p q : Nat) (l : List MatchNode) :
    slotGet (updateSlot f p l) q = if q = p then (slotGet l q).map f else slotGet l q := by
  induction l with
  | nil => simp [slotGet, updateSlot]
  | cons x xs ih =>
    by_cases h : xs.length = p
    · by_cases hq : xs.length = q
      · have : q = p := by omega
        simp [updateSlot, slotGet, h, hq, this]
      · have : q ≠ p := by omega
        have hpq : ¬ p = q := fun e => this e.symm
        simp [updateSlot, slotGet, h, this, hpq]
    · by_cases hq : xs.length = q
      · have : q ≠ p := by omega
        simp [updateSlot, slotGet, h, hq, this, updateSlot_length]
      · simp [updateSlot, slotGet, h, hq, updateSlot_length, ih]

theorem stackInv_updateSlot (A B : Bin) (f : MatchNode → MatchNode)
    (hf : ∀ n, (f n).node_ = n.node_ ∧ (f n).counterpart_ = n.counterpart_ ∧
      (f n).parent_ = n.parent_ ∧ (f n).marked_ = n.marked_)
    (p : Nat) (l : List MatchNode) (h : StackInv A B l) : StackInv A B (updateSlot f p l) := by
  induction l with
  | nil => simpa [updateSlot] using h
  | cons x xs ih =>
    obtain ⟨⟨h1, h2, h3⟩, h4⟩ := h
    by_cases hp : xs.length = p
    · simp only [updateSlot, hp, if_true]
      refine ⟨⟨?_, ?_, ?_⟩, h4⟩
      · rw [(hf x).1, (hf x).2.1]; exact h1
      · intro hr; rw [(hf x).1, (hf x).2.1, (hf x).2.2.1]; exact h2 hr
      · intro hr; rw [(hf x).1, (hf x).2.1, (hf x).2.2.1]; exact h3 hr
    · simp only [updateSlot, hp, if_false]
      refine ⟨⟨h1, ?_, ?_⟩, ih h4⟩
      · intro hr
        have : xs = [] := by
          have := congrArg List.length hr
          rw [updateSlot_length] at this
          exact List.length_eq_zero.mp this
        exact h2 this
      · intro hr
        have hne : xs ≠ [] := by
          intro h0; apply hr; rw [h0]; rfl
        obtain ⟨q, m, e1, e2, e3, e4, e5, e6⟩ := h3 hne
        by_cases hq : q = p
        · refine ⟨q, f m, e1, by rw [updateSlot_length]; exact e2, ?_, ?_, ?_, ?_⟩
          · rw [slotGet_updateSlot, if_pos hq, e3]; rfl
          · rw [(hf m).2.2.2]; exact e4
          · rw [(hf m).1]; exact e5
          · rw [(hf m).2.1]; exact e6
        · refine ⟨q, m, e1, by rw [updateSlot_length]; exact e2, ?_, e4, e5, e6⟩
          rw [slotGet_updateSlot, if_neg hq, e3]

theorem stackInv_pushed (A B : Bin) (pslot : Nat) (m : MatchNode)
    (hm : m.marked_ = true) (ps : List (Bin × Bin))
    (hps : ∀ p ∈ ps, (p.1, p.2) ∈ correspondences A B ∧ p.1 ∈ m.node_.children ∧
      p.2 ∈ m.counterpart_.children) :
    ∀ (base : List MatchNode), StackInv A B base → base ≠ [] → pslot < base.length →
      slotGet base pslot = some m → StackInv A B (pushed pslot ps ++ base) := by
  induction ps with
  | nil => intro base hb _ _ _; simpa [pushed] using hb
  | cons p ps ih =>
    intro base hb hne hlt hget
    have e1 : pushed pslot (p :: ps) ++ base =
        pushed pslot ps ++ (MatchNode.new p.1 p.2 0 (some pslot) :: base) := by
      simp [pushed]
    rw [e1]
    obtain ⟨c1, c2, c3⟩ := hps p (List.mem_cons_self _ _)
    refine ih (fun q hq => hps q (List.mem_cons_of_mem _ hq)) _ ?_ (by simp)
      (by simp; omega) (by rw [slotGet_cons_lt _ _ _ hlt]; exact hget)
    refine ⟨⟨c1, fun h => absurd h hne, fun _ => ⟨pslot, m, rfl, hlt, hget, hm, c2, c3⟩⟩, hb⟩

theorem step_expand_any (scheme : BinWeightScheme) (A B : Bin) (L : ℚ) (parent : Option Nat)
    (rest : List MatchNode) (sc co : ℚ) (fin : List MatchNode) (cr : Nat)
    (ps : List (Bin × Bin))
    (hps : mergePairs A.index.length (A.firstChild.chainLength + B.firstChild.chainLength)
      A.firstChild B.firstChild = .value ps) :
    step scheme ⟨⟨A, B, L, parent, false⟩ :: rest, sc, co, fin, cr⟩ =
      .value ⟨pushed rest.length ps ++ ⟨A, B, L, parent, true⟩ :: rest, sc, co, fin,
        cr + ps.length⟩ := by
  simp [step, mergeLoop_eq, hps, updateSlot_append]

theorem step_stackInv (scheme : BinWeightScheme) {A B : Bin} (hA : A.WellFormed)
    (hB : B.WellFormed) (hlen : A.index.length = B.index.length) (st : LoopState)
    (hinv : StackInv A B st.todo) :
    step scheme st ≠ .outOfRange ∧ step scheme st ≠ .outOfFuel ∧
      ∀ st1, step scheme st = .value st1 → StackInv A B st1.todo := by
  obtain ⟨todo, sc, co, fin, cr⟩ := st
  cases todo with
  | nil =>
    simp only [step]
    refine ⟨by simp, by simp, ?_⟩
    intro st1 h
    simp only [Outcome.value.injEq] at h
    subst h
    exact hinv
  | cons cur rest =>
    obtain ⟨a, b, L, parent, marked⟩ := cur
    obtain ⟨⟨h1, h2, h3⟩, h4⟩ := hinv
    simp only at h1 h2 h3
    obtain ⟨w1, w2, l12⟩ := correspondences_facts hA hB hlen h1
    cases marked with
    | false =>
      obtain ⟨ps, hps⟩ := mergePairs_wellFormed a.index.length _ a.firstChild b.firstChild
        a.index b.index w1 w2 rfl l12.symm (le_refl _)
      rw [step_expand_any scheme a b L parent rest sc co fin cr ps hps]
      refine ⟨by simp, by simp, ?_⟩
      intro st1 h
      simp only [Outcome.value.injEq] at h
      subst h
      have hsub := mergePairs_sublist _ _ _ _ _ hps
      have hkeys := mergePairs_keys _ _ _ _ _ hps
      have hbase : StackInv A B ((⟨a, b, L, parent, true⟩ : MatchNode) :: rest) :=
        ⟨⟨h1, h2, h3⟩, h4⟩
      refine stackInv_pushed A B rest.length ⟨a, b, L, parent, true⟩ rfl ps ?_ _ hbase
        (by simp) (by simp) (by simp [slotGet])
      intro p hp
      have m1 : p.1 ∈ a.children := hsub.1.subset (List.mem_map_of_mem _ hp)
      have m2 : p.2 ∈ b.children := hsub.2.subset (List.mem_map_of_mem _ hp)
      obtain ⟨x, kx, ky⟩ := hkeys p hp
      exact ⟨correspondences_child hA hB hlen h1 m1 m2 kx ky, m1, m2⟩
    | true =>
      have hpar : ∀ p, parent = some p → p < rest.length := by
        intro p hp
        by_cases hr : rest = []
        · rw [(h2 hr).1] at hp; cases hp
        · obtain ⟨q, m, e1, e2, _⟩ := h3 hr
          rw [e1] at hp
          cases hp
          exact e2
      rw [step_finalize scheme a b L parent rest sc co fin cr hpar]
      by_cases hp : passes scheme ⟨a, b, L, parent, true⟩ = true
      · rw [if_pos hp]
        refine ⟨by simp, by simp, ?_⟩
        intro st1 h
        simp only [Outcome.value.injEq] at h
        subst h
        cases parent with
        | none => exact h4
        | some p =>
          exact stackInv_updateSlot A B
            (fun n => { n with intersection_ := n.intersection_ + rawIntersection a b })
            (fun n => ⟨rfl, rfl, rfl, rfl⟩) p rest h4
      · rw [if_neg hp]
        exact ⟨by simp, by simp, by simp⟩

theorem stepsFrom_stackInv (scheme : BinWeightScheme) {A B : Bin} (hA : A.WellFormed)
    (hB : B.WellFormed) (hlen : A.index.length = B.index.length) :
    ∀ (n : Nat) (st : LoopState), StackInv A B st.todo →
      stepsFrom scheme n st ≠ .outOfRange ∧ stepsFrom scheme n st ≠ .outOfFuel ∧
        ∀ st1, stepsFrom scheme n st = .value st1 → StackInv A B st1.todo := by
  intro n
  induction n with
  | zero =>
    intro st hinv
    simp only [stepsFrom]
    refine ⟨by simp, by simp, ?_⟩
    intro st1 h
    simp only [Outcome.value.injEq] at h
    subst h
    exact hinv
  | succ n ih =>
    intro st hinv
    obtain ⟨s1, s2, s3⟩ := step_stackInv scheme hA hB hlen st hinv
    simp only [stepsFrom]
    cases hs : step scheme st with
    | value st1 => exact ih st1 (s3 st1 hs)
    | assertFailed => exact ⟨by simp, by simp, by simp⟩
    | outOfRange => exact absurd hs s1
    | outOfFuel => exact absurd hs s2

theorem initState_stackInv (first second : MultiResolutionHistogram)
    (hA : first.root.WellFormed) (hB : second.root.WellFormed) :
    StackInv first.root second.root (initState first second).todo := by
  show StackInv first.root second.root [MatchNode.new first.root second.root 0 none]
  refine ⟨⟨?_, fun _ => ⟨rfl, rfl, rfl⟩, fun h => absurd rfl h⟩, trivial⟩
  exact (mem_correspondences_rec hA hB _).mpr (Or.inl rfl)

theorem slotGet_append_lt (xs below : List MatchNode) (p : Nat) (h : p < below.length) :
    slotGet (xs ++ below) p = slotGet below p := by
  induction xs with
  | nil => rfl
  | cons x xs ih =>
    have h1 : (xs ++ below).length ≠ p := by simp; omega
    rw [List.cons_append, slotGet, if_neg h1, ih]

theorem stackInv_split (A B : Bin) (above : List MatchNode) (n : MatchNode)
    (below : List MatchNode) (h : StackInv A B (above ++ n :: below)) :
    (n.node_, n.counterpart_) ∈ correspondences A B ∧
    (below = [] → n.parent_ = none ∧ n.node_ = A ∧ n.counterpart_ = B) ∧
    (below ≠ [] → ∃ p m, n.parent_ = some p ∧ p < below.length ∧ slotGet below p = some m ∧
      m.marked_ = true ∧ n.node_ ∈ m.node_.children ∧
      n.counterpart_ ∈ m.counterpart_.children) := by
  induction above with
  | nil => exact h.1
  | cons x xs ih => exact ih h.2

theorem stackInv_mem (A B : Bin) (l : List MatchNode) (h : StackInv A B l) :
    ∀ n ∈ l, (n.node_, n.counterpart_) ∈ correspondences A B := by
  induction l with
  | nil => intro n hn; simp at hn
  | cons x xs ih =>
    intro n hn
    simp only [List.mem_cons] at hn
    rcases hn with rfl | hn
    · exact h.1.1
    · exact ih h.2 n hn

/-- C15: for histograms with well-formed index paths, in every state that the
traversal loop reaches, the bottom node of the stack is the root node, the
only one without a parent; every other node pairs two bins with an identical
root-relative index path, and its parent pointer refers to a slot strictly
below its own that still holds a node, which is marked Expanded and pairs the
parents of the two bins. -/
theorem C15_pending_set_invariant (first second : MultiResolutionHistogram)
    (scheme : BinWeightScheme)
    (hA : first.root.WellFormed) (hB : second.root.WellFormed)
    (hlen : first.root.index.length = second.root.index.length)
    (k : Nat) (st : LoopState)
    (hst : stepsFrom scheme k (initState first second) = .value st)
    (above : List MatchNode) (n : MatchNode) (below : List MatchNode)
    (hsplit : st.todo = above ++ n :: below) :
    (n.node_, n.counterpart_) ∈ correspondences first.root second.root ∧
    (below = [] → n.parent_ = none ∧ n.node_ = first.root ∧ n.counterpart_ = second.root) ∧
    (below ≠ [] → ∃ p m, n.parent_ = some p ∧ p < below.length ∧
      slotGet st.todo p = some m ∧ m.marked_ = true ∧ n.node_ ∈ m.node_.children ∧
      n.counterpart_ ∈ m.counterpart_.children) := by
  have hinv := (stepsFrom_stackInv scheme hA hB hlen k _
    (initState_stackInv first second hA hB)).2.2 st hst
  rw [hsplit] at hinv
  obtain ⟨h1, h2, h3⟩ := stackInv_split _ _ above n below hinv
  refine ⟨h1, h2, ?_⟩
  intro hne
  obtain ⟨p, m, e1, e2, e3, e4, e5, e6⟩ := h3 hne
  refine ⟨p, m, e1, e2, ?_, e4, e5, e6⟩
  have e : above ++ n :: below = (above ++ [n]) ++ below := by simp
  rw [hsplit, e, slotGet_append_lt _ _ _ e2]
  exact e3

theorem C15_pending_set_invariant_witness :
    (scenario2ChildA, scenario2ChildB) ∈
      correspondences (scenario2A 2).root (scenario2B 2).root ∧
    ∃ p m, (MatchNode.new scenario2ChildA scenario2ChildB 0 (some 0)).parent_ = some p ∧
      p < 1 ∧
      slotGet [MatchNode.new scenario2ChildA scenario2ChildB 0 (some 0),
        ⟨(scenario2A 2).root, (scenario2B 2).root, 0, none, true⟩] p = some m ∧
      m.marked_ = true ∧ scenario2ChildA ∈ m.node_.children ∧
      scenario2ChildB ∈ m.counterpart_.children := by
  have h := C15_pending_set_invariant (scenario2A 2) (scenario2B 2) .BIN_WEIGHT_GLOBAL
    (by decide) (by decide) rfl 1
    ⟨[MatchNode.new scenario2ChildA scenario2ChildB 0 (some 0),
      ⟨(scenario2A 2).root, (scenario2B 2).root, 0, none, true⟩], 0, 0, [], 2⟩
    (by
      simp [stepsFrom, initState, step, mergeLoop, MatchNode.new, updateSlot,
        BinPtr.chainLength, scenario2A, scenario2B, scenario2ChildA, scenario2ChildB,
        Bin.toPtr])
    [] (MatchNode.new scenario2ChildA scenario2ChildB 0 (some 0))
    [⟨(scenario2A 2).root, (scenario2B 2).root, 0, none, true⟩] rfl
  exact ⟨h.1, h.2.2 (by simp)⟩

/-- C20: for histograms in which the index of every child is the index of its
parent extended by one element and whose root indices have the same length,
no state of the traversal raises the out-of-range error, so neither do
`MatchPyramids` and the two API functions; for the bin pair of every node on
the stack, the lookup of element `next_level` (the length of the index of the
first bin) in the index of every child, on either side, is in range and reads
the last index element of that child. -/
theorem C20_index_access_safe (h1 h2 : MultiResolutionHistogram) (scheme : BinWeightScheme)
    (hA : h1.root.WellFormed) (hB : h2.root.WellFormed)
    (hlen : h1.root.index.length = h2.root.index.length) :
    (∀ k, stepsFrom scheme k (initState h1 h2) ≠ .outOfRange) ∧
    (∀ k st, stepsFrom scheme k (initState h1 h2) = .value st → ∀ cur ∈ st.todo,
      (∀ a ∈ cur.node_.children, ∃ x,
        a.index.get? cur.node_.index.length = some x ∧ a.index.getLast? = some x) ∧
      (∀ b ∈ cur.counterpart_.children, ∃ y,
        b.index.get? cur.node_.index.length = some y ∧ b.index.getLast? = some y)) ∧
    (∀ return_type, MatchPyramids h1 h2 return_type scheme ≠ .outOfRange) ∧
    GetPyramidMatchCost h1 h2 scheme ≠ .outOfRange ∧
    GetPyramidMatchSimilarity h1 h2 scheme ≠ .outOfRange := by
  have hmp : ∀ (f s : MultiResolutionHistogram), f.root.WellFormed → s.root.WellFormed →
      f.root.index.length = s.root.index.length →
      ∀ rt, MatchPyramids f s rt scheme ≠ .outOfRange := by
    intro f s wf ws hl rt
    obtain ⟨T, hT⟩ := finalizedTrace_wellFormed (f.root.firstChild.numBins + 1) none 0
      f.root s.root wf ws hl (le_refl _)
    rw [MatchPyramids_eq f s rt scheme T hT]
    split <;> simp
  refine ⟨?_, ?_, hmp h1 h2 hA hB hlen, ?_, ?_⟩
  · intro k
    exact (stepsFrom_stackInv scheme hA hB hlen k _ (initState_stackInv h1 h2 hA hB)).1
  · intro k st hst cur hcur
    have hinv := (stepsFrom_stackInv scheme hA hB hlen k _
      (initState_stackInv h1 h2 hA hB)).2.2 st hst
    have hc := stackInv_mem _ _ _ hinv cur hcur
    obtain ⟨w1, w2, l12⟩ := correspondences_facts hA hB hlen hc
    constructor
    · intro a ha
      have wa := wellFormed_mem w1 ha
      obtain ⟨x, _, gx⟩ := eq_append_of_dropLast wa.1.1 wa.1.2
      exact ⟨x, by rw [get?_of_dropLast _ _ wa.1.1 wa.1.2, gx], gx⟩
    · intro b hb
      have wb := wellFormed_mem w2 hb
      obtain ⟨y, _, gy⟩ := eq_append_of_dropLast wb.1.1 wb.1.2
      refine ⟨y, ?_, gy⟩
      have := get?_of_dropLast _ _ wb.1.1 wb.1.2
      simp only at l12
      rw [l12, this, gy]
  · unfold GetPyramidMatchCost
    split
    · exact hmp h1 h2 hA hB hlen _
    · exact hmp h2 h1 hB hA hlen.symm _
  · unfold GetPyramidMatchSimilarity
    split
    · exact hmp h1 h2 hA hB hlen _
    · exact hmp h2 h1 hB hA hlen.symm _

theorem C20_index_access_safe_witness :
    (∀ k, stepsFrom .BIN_WEIGHT_GLOBAL k (initState mismatchA mismatchB) ≠ .outOfRange) ∧
    GetPyramidMatchCost mismatchA mismatchB .BIN_WEIGHT_GLOBAL ≠ .outOfRange ∧
    GetPyramidMatchSimilarity mismatchA mismatchB .BIN_WEIGHT_GLOBAL ≠ .outOfRange :=
  ⟨(C20_index_access_safe mismatchA mismatchB .BIN_WEIGHT_GLOBAL (by decide) (by decide)
      rfl).1,
    (C20_index_access_safe mismatchA mismatchB .BIN_WEIGHT_GLOBAL (by decide) (by decide)
      rfl).2.2.2⟩

/-! ### The child merge -/

theorem chainLength_eq (as : BinPtr) : as.chainLength = as.toList.length := by
  induction as with
  | null => rfl
  | bin i c s fc ns _ ih2 => simp [BinPtr.chainLength, BinPtr.toList, ih2]

theorem ascending_pairwise {as : BinPtr} (h : as.Ascending) :
    as.toList.Pairwise (fun a b => lastLt a.index b.index) := by
  induction as with
  | null => simp [BinPtr.toList]
  | bin i c s fc ns _ ih2 =>
    simp only [BinPtr.Ascending] at h
    simp only [BinPtr.toList, List.pairwise_cons]
    exact ⟨h.1, ih2 h.2.2⟩

theorem commonChildren_pairwise {A B : Bin} (hA : A.WellFormed) (hB : B.WellFormed)
    (hlen : A.index.length = B.index.length) (sA : A.Ascending) (sB : B.Ascending) :
    (commonChildren A B).Pairwise (fun p q => lastLt p.1.index q.1.index) := by
  have hsub := (mergePairs_sublist _ _ _ _ _ (mergePairs_children hA hB hlen sA sB)).1
  have := (ascending_pairwise sA).sublist hsub
  rwa [List.pairwise_map] at this

theorem lastLt_irrefl (i : List Int) : ¬ lastLt i i := by
  rw [lastLt_iff]
  rintro ⟨x, y, h1, h2, h3⟩
  rw [h1] at h2
  cases h2
  exact lt_irrefl _ h3

/-- C14: for two bins with well-formed index paths whose child lists are
strictly ascending by last index element, one iteration on the Unexpanded node
of the pair pushes a node for exactly the pairs of children with equal last
index element, each once, in ascending index order (the last one on top),
each with the current node as parent and ledger 0, and marks the current node
Expanded without popping it; the merge stays within a budget of as many steps
as the two child lists have bins. -/
theorem C14_child_merge (scheme : BinWeightScheme) (A B : Bin) (parent : Option Nat)
    (rest : List MatchNode) (sc co : ℚ) (fin : List MatchNode) (cr : Nat)
    (hA : A.WellFormed) (hB : B.WellFormed) (hlen : A.index.length = B.index.length)
    (sA : A.Ascending) (sB : B.Ascending) :
    step scheme ⟨MatchNode.new A B 0 parent :: rest, sc, co, fin, cr⟩ =
      .value ⟨((commonChildren A B).map fun p =>
          MatchNode.new p.1 p.2 0 (some rest.length)).reverse ++
        ⟨A, B, 0, parent, true⟩ :: rest, sc, co, fin, cr + (commonChildren A B).length⟩ ∧
    mergeLoop A.index.length rest.length (A.children.length + B.children.length)
        A.firstChild B.firstChild (MatchNode.new A B 0 parent :: rest) cr =
      .value (((commonChildren A B).map fun p =>
          MatchNode.new p.1 p.2 0 (some rest.length)).reverse ++
        MatchNode.new A B 0 parent :: rest, cr + (commonChildren A B).length) ∧
    (∀ p, p ∈ commonChildren A B ↔
      p.1 ∈ A.children ∧ p.2 ∈ B.children ∧ p.1.index.getLast? = p.2.index.getLast?) ∧
    (commonChildren A B).Nodup ∧
    (commonChildren A B).Pairwise (fun p q => lastLt p.1.index q.1.index) := by
  have hps := mergePairs_children hA hB hlen sA sB
  have hpw := commonChildren_pairwise hA hB hlen sA sB
  refine ⟨?_, ?_, ?_, ?_, hpw⟩
  · rw [step_expand scheme A B parent rest sc co fin cr _ hps]
    rfl
  · simp only [Bin.children, ← chainLength_eq]
    rw [mergeLoop_eq, hps]
    rfl
  · intro p
    rw [commonChildren, mem_pairsWhere]
    simp
  · refine hpw.imp ?_
    intro p q h e
    rw [e] at h
    exact lastLt_irrefl _ h

theorem C14_child_merge_witness :
    step .BIN_WEIGHT_GLOBAL
        ⟨MatchNode.new mismatchA.root mismatchB.root 0 none :: [], 0, 0, [], 1⟩ =
      .value ⟨((commonChildren mismatchA.root mismatchB.root).map fun p =>
          MatchNode.new p.1 p.2 0 (some 0)).reverse ++
        [⟨mismatchA.root, mismatchB.root, 0, none, true⟩], 0, 0, [],
        1 + (commonChildren mismatchA.root mismatchB.root).length⟩ ∧
    (commonChildren mismatchA.root mismatchB.root).Nodup :=
  ⟨(C14_child_merge .BIN_WEIGHT_GLOBAL mismatchA.root mismatchB.root none [] 0 0 [] 1
      (by decide) (by decide) rfl (by decide) (by decide)).1,
    (C14_child_merge .BIN_WEIGHT_GLOBAL mismatchA.root mismatchB.root none [] 0 0 [] 1
      (by decide) (by decide) rfl (by decide) (by decide)).2.2.2.1⟩

/-! ### Post-order -/

theorem prefix_same_length {α : Type} {p q l : List α} (hp : p <+: l) (hq : q <+: l)
    (h : p.length = q.length) : p = q := by
  have h1 : p <+: q := List.prefix_of_prefix_length_le hp hq (le_of_eq h)
  exact List.IsPrefix.eq_of_length h1 h

theorem evalChildren_pairwise (f : Nat → Bin → Bin → Outcome (List MatchNode))
    (R : MatchNode → MatchNode → Prop) (ps : List (Bin × Bin))
    (h : ∀ p ∈ ps, ∀ s T, f s p.1 p.2 = .value T →
      T.Pairwise R ∧ ∀ r ∈ T, p.1.index <+: r.node_.index)
    (hR : ∀ p ∈ ps, ∀ q ∈ ps, p.1.index.length = q.1.index.length → p.1.index ≠ q.1.index →
      ∀ r r1, q.1.index <+: r.node_.index → p.1.index <+: r1.node_.index → R r r1)
    (hd : ps.Pairwise (fun p q =>
      p.1.index.length = q.1.index.length ∧ p.1.index ≠ q.1.index)) :
    ∀ base Tc, evalChildren f base ps = .value Tc →
      Tc.Pairwise R ∧ ∀ r ∈ Tc, ∃ p ∈ ps, p.1.index <+: r.node_.index := by
  induction ps with
  | nil =>
    intro base Tc hTc
    simp [evalChildren] at hTc; subst hTc; simp
  | cons p ps ih =>
    intro base T hT
    simp only [evalChildren] at hT
    cases h1 : evalChildren f (base + 1) ps with
    | value T1 =>
      rw [h1] at hT
      cases h0 : f base p.1 p.2 with
      | value T0 =>
        rw [h0] at hT
        simp only [Outcome.value.injEq] at hT
        subst hT
        rw [List.pairwise_cons] at hd
        obtain ⟨a1, b1⟩ := ih (fun q hq => h q (List.mem_cons_of_mem _ hq))
          (fun q hq q1 hq1 => hR q (List.mem_cons_of_mem _ hq) q1 (List.mem_cons_of_mem _ hq1))
          hd.2 (base + 1) T1 h1
        obtain ⟨a0, b0⟩ := h p (List.mem_cons_self _ _) base T0 h0
        constructor
        · rw [List.pairwise_append]
          refine ⟨a1, a0, ?_⟩
          intro r hr r1 hr1
          obtain ⟨q, hq, hqr⟩ := b1 r hr
          have := hd.1 q hq
          exact hR p (List.mem_cons_self _ _) q (List.mem_cons_of_mem _ hq) this.1 this.2 r r1
            hqr (b0 r1 hr1)
        · intro r hr
          rcases List.mem_append.mp hr with hr | hr
          · obtain ⟨q, hq, hqr⟩ := b1 r hr
            exact ⟨q, List.mem_cons_of_mem _ hq, hqr⟩
          · exact ⟨p, List.mem_cons_self _ _, b0 r hr⟩
      | assertFailed => rw [h0] at hT; simp at hT
      | outOfRange => rw [h0] at hT; simp at hT
      | outOfFuel => rw [h0] at hT; simp at hT
    | assertFailed => rw [h1] at hT; simp at hT
    | outOfRange => rw [h1] at hT; simp at hT
    | outOfFuel => rw [h1] at hT; simp at hT

theorem commonChildren_distinct {A B : Bin} (hA : A.WellFormed) (hB : B.WellFormed)
    (hlen : A.index.length = B.index.length) (sA : A.Ascending) (sB : B.Ascending) :
    (commonChildren A B).Pairwise (fun p q =>
      p.1.index.length = q.1.index.length ∧ p.1.index ≠ q.1.index) := by
  have hpw := commonChildren_pairwise hA hB hlen sA sB
  have hmem : ∀ p ∈ commonChildren A B, p.1.index.length = A.index.length + 1 := by
    intro p hp
    obtain ⟨_, _, _, _, _, m1, _⟩ := commonChildren_mem hA hB hlen sA sB hp
    have w := wellFormed_mem hA m1
    exact length_of_dropLast _ _ w.1.1 w.1.2
  rw [List.pairwise_iff_forall_sublist] at hpw ⊢
  intro p q hpq
  have hp : p ∈ commonChildren A B := hpq.subset (by simp)
  have hq : q ∈ commonChildren A B := hpq.subset (by simp)
  refine ⟨by rw [hmem p hp, hmem q hq], ?_⟩
  intro e
  have := hpw hpq
  rw [e] at this
  exact lastLt_irrefl _ this

theorem finalizedTrace_postOrder :
    ∀ (d : Nat) (parent : Option Nat) (slot : Nat) (A B : Bin) (T : List MatchNode),
      A.WellFormed → B.WellFormed → A.index.length = B.index.length →
      A.Ascending → B.Ascending →
      finalizedTrace d parent slot A B = .value T →
      T.Pairwise (fun r r1 =>
        ¬ (r.node_.index <+: r1.node_.index ∧ r.node_.index ≠ r1.node_.index)) ∧
      ∀ r ∈ T, A.index <+: r.node_.index := by
  intro d
  induction d with
  | zero => intro _ _ A B T _ _ _ _ _ h; simp [finalizedTrace] at h
  | succ d ih =>
    intro parent slot A B T hA hB hlen sA sB hT
    simp only [finalizedTrace, mergePairs_children hA hB hlen sA sB] at hT
    cases hTc : evalChildren (fun s a b => finalizedTrace d (some slot) s a b) (slot + 1)
        (commonChildren A B) with
    | value Tc =>
      rw [hTc] at hT
      simp only [Outcome.value.injEq] at hT
      subst hT
      obtain ⟨c1, c2⟩ := evalChildren_pairwise _
        (fun r r1 => ¬ (r.node_.index <+: r1.node_.index ∧ r.node_.index ≠ r1.node_.index))
        (commonChildren A B)
        (fun p hp s T h => by
          obtain ⟨w1, w2, l, a1, a2, _, _⟩ := commonChildren_mem hA hB hlen sA sB hp
          exact ih (some slot) s p.1 p.2 T w1 w2 l a1 a2 h)
        (by
          intro p _ q _ hl hne r r1 hqr hpr1 hcon
          exact hne (prefix_same_length hpr1 (hqr.trans hcon.1) hl))
        (commonChildren_distinct hA hB hlen sA sB) (slot + 1) Tc hTc
      have hchild : ∀ r ∈ Tc, A.index <+: r.node_.index ∧
          A.index.length < r.node_.index.length := by
        intro r hr
        obtain ⟨p, hp, hpr⟩ := c2 r hr
        obtain ⟨_, _, _, _, _, m1, _⟩ := commonChildren_mem hA hB hlen sA sB hp
        have w := wellFormed_mem hA m1
        obtain ⟨k, e, _⟩ := eq_append_of_dropLast w.1.1 w.1.2
        have hpre : A.index <+: p.1.index := ⟨[k], e.symm⟩
        have hl := hpr.length_le
        have hl2 := length_of_dropLast _ _ w.1.1 w.1.2
        exact ⟨hpre.trans hpr, by omega⟩
      constructor
      · rw [List.pairwise_append]
        refine ⟨c1, by simp, ?_⟩
        intro r hr r1 hr1
        simp only [List.mem_singleton] at hr1
        subst hr1
        rintro ⟨hpre, _⟩
        have := hpre.length_le
        have := (hchild r hr).2
        simp only at *
        omega
      · intro r hr
        rcases List.mem_append.mp hr with hr | hr
        · exact (hchild r hr).1
        · simp only [List.mem_singleton] at hr
          subst hr
          exact List.prefix_refl _
    | assertFailed => rw [hTc] at hT; simp at hT
    | outOfRange => rw [hTc] at hT; simp at hT
    | outOfFuel => rw [hTc] at hT; simp at hT

/-- C13: for histograms of the data model on which the traversal does not
abort, the finalized bin pairs are, up to order, exactly the pairs of bins
sharing an identical root-relative index path, each once; no finalized pair
is followed by a pair at a path that extends its own path, so every pair comes
after all its matched descendants; and the ledger of every finalized pair is
the sum of the raw intersections of its matched children. -/
theorem C13_post_order_exactly_once (first second : MultiResolutionHistogram)
    (scheme : BinWeightScheme) (hv : ValidPair first second)
    (hne : finalState first second scheme ≠ .assertFailed) :
    ∃ st, finalState first second scheme = .value st ∧
      (st.finalized.map MatchNode.pair).Perm (correspondences first.root second.root) ∧
      st.finalized.Pairwise (fun r r1 =>
        ¬ (relPath first.root r.node_ <+: relPath first.root r1.node_ ∧
          relPath first.root r.node_ ≠ relPath first.root r1.node_)) ∧
      ∀ r ∈ st.finalized, r.intersection_ = childIntersections r.node_ r.counterpart_ := by
  obtain ⟨hA, hB, hlen, sA, sB⟩ := hv
  obtain ⟨T, hT⟩ := finalizedTrace_wellFormed (first.root.firstChild.numBins + 1) none 0
    first.root second.root hA hB hlen (le_refl _)
  obtain ⟨hperm, hled⟩ := finalizedTrace_spec _ _ _ _ _ _ hA hB hlen sA sB hT
  obtain ⟨hpw, hpre⟩ := finalizedTrace_postOrder _ _ _ _ _ _ hA hB hlen sA sB hT
  have hfs := finalState_eq first second scheme T hT
  by_cases hp : T.all (passes scheme) = true
  · rw [if_pos hp] at hfs
    refine ⟨_, hfs, hperm, ?_, hled⟩
    refine hpw.imp_of_mem ?_
    intro r r1 hr hr1 hR hcon
    obtain ⟨q, e⟩ := hpre r hr
    obtain ⟨q1, e1⟩ := hpre r1 hr1
    have g : relPath first.root r.node_ = q := by simp [relPath, ← e]
    have g1 : relPath first.root r1.node_ = q1 := by simp [relPath, ← e1]
    rw [g, g1] at hcon
    apply hR
    rw [← e, ← e1]
    exact ⟨(List.prefix_append_right_inj _).mpr hcon.1, fun h => hcon.2 (List.append_cancel_left h)⟩
  · rw [if_neg hp] at hfs
    exact absurd hfs hne

theorem C13_post_order_exactly_once_witness :
    ∃ st, finalState mismatchA (scenario2B 2) .BIN_WEIGHT_GLOBAL = .value st ∧
      (st.finalized.map MatchNode.pair).Perm
        (correspondences mismatchA.root (scenario2B 2).root) ∧
      st.finalized.Pairwise (fun r r1 =>
        ¬ (relPath mismatchA.root r.node_ <+: relPath mismatchA.root r1.node_ ∧
          relPath mismatchA.root r.node_ ≠ relPath mismatchA.root r1.node_)) ∧
      ∀ r ∈ st.finalized, r.intersection_ = childIntersections r.node_ r.counterpart_ :=
  C13_post_order_exactly_once mismatchA (scenario2B 2) .BIN_WEIGHT_GLOBAL (by decide) (by
    simp [finalState, runPyramids, initState, loop, step, mergeLoop, MatchNode.new,
      updateSlot, BinPtr.numBins, BinPtr.chainLength, mismatchA, scenario2B,
      scenario2ChildB, Bin.toPtr])

/-! ### Number of iterations -/

theorem countP_pushed (cur : Nat) (ps : List (Bin × Bin)) :
    (pushed cur ps).countP (fun n => n.marked_) = 0 := by
  rw [List.countP_eq_zero]
  intro n hn
  simp only [pushed, List.mem_reverse, List.mem_map] at hn
  obtain ⟨p, _, rfl⟩ := hn
  simp [MatchNode.new]

theorem step_progress (scheme : BinWeightScheme) (st st1 : LoopState) (hne : st.todo ≠ [])
    (h : step scheme st = .value st1) : progress st1 = progress st + 1 := by
  obtain ⟨todo, sc, co, fin, cr⟩ := st
  cases todo with
  | nil => exact absurd rfl hne
  | cons cur rest =>
    obtain ⟨a, b, L, parent, marked⟩ := cur
    cases marked with
    | false =>
      simp only [step, mergeLoop_eq] at h
      cases hps : mergePairs a.index.length
          (a.firstChild.chainLength + b.firstChild.chainLength) a.firstChild b.firstChild with
      | value ps =>
        rw [hps] at h
        simp only [Bool.not_false, if_true, Outcome.value.injEq] at h
        subst h
        simp only [progress, updateSlot_append, List.countP_append, countP_pushed,
          List.countP_cons]
        simp
        omega
      | assertFailed => rw [hps] at h; simp at h
      | outOfRange => rw [hps] at h; simp at h
      | outOfFuel => rw [hps] at h; simp at h
    | true =>
      by_cases hpass : scheme = .BIN_WEIGHT_GLOBAL ∧ a.size ≠ b.size
      · simp [step, hpass] at h
      · cases parent with
        | none =>
          simp [step, hpass] at h
          subst h
          simp [progress, List.countP_cons]
          omega
        | some p =>
          by_cases hp : rest.length = p
          · simp [step, hpass, updateSlot, hp] at h
            subst h
            simp [progress, List.countP_cons]
            omega
          · simp [step, hpass, updateSlot, hp] at h
            subst h
            have hc : ∀ (l : List MatchNode),
                (updateSlot (fun n => { n with intersection_ := n.intersection_ +
                  if b.count < a.count then b.count else a.count }) p l).countP
                    (fun n => n.marked_) = l.countP (fun n => n.marked_) := by
              intro l
              induction l with
              | nil => rfl
              | cons x xs ih =>
                by_cases hx : xs.length = p
                · simp [updateSlot, hx, List.countP_cons]
                · simp [updateSlot, hx, List.countP_cons, ih]
            simp [progress, List.countP_cons, hc]
            omega

theorem loop_progress (scheme : BinWeightScheme) :
    ∀ (k : Nat) (st st1 : LoopState), loop scheme k st = .value st1 →
      st1.todo = [] ∧ progress st1 ≤ progress st + k := by
  intro k
  induction k with
  | zero =>
    intro st st1 h
    cases ht : st.todo with
    | nil =>
      simp only [loop, ht, Outcome.value.injEq] at h
      subst h
      exact ⟨ht, le_refl _⟩
    | cons x xs => simp [loop, ht] at h
  | succ k ih =>
    intro st st1 h
    cases ht : st.todo with
    | nil =>
      simp only [loop, ht, Outcome.value.injEq] at h
      subst h
      exact ⟨ht, by omega⟩
    | cons x xs =>
      rw [loop_succ_cons _ _ _ (by rw [ht]; simp)] at h
      cases hs : step scheme st with
      | value st2 =>
        rw [hs] at h
        obtain ⟨e1, e2⟩ := ih st2 st1 h
        have := step_progress scheme st st2 (by rw [ht]; simp) hs
        exact ⟨e1, by omega⟩
      | assertFailed => rw [hs] at h; simp at h
      | outOfRange => rw [hs] at h; simp at h
      | outOfFuel => rw [hs] at h; simp at h

theorem loop_mono (scheme : BinWeightScheme) :
    ∀ (k : Nat) (st : LoopState), loop scheme k st ≠ .outOfFuel →
      ∀ j, loop scheme (k + j) st = loop scheme k st := by
  intro k
  induction k with
  | zero =>
    intro st h j
    cases ht : st.todo with
    | nil => cases j <;> simp [loop, ht]
    | cons x xs => simp [loop, ht] at h
  | succ k ih =>
    intro st h j
    cases ht : st.todo with
    | nil =>
      have e : k + 1 + j = (k + j) + 1 := by omega
      rw [e]
      simp [loop, ht]
    | cons x xs =>
      have e : k + 1 + j = (k + j) + 1 := by omega
      have hne : st.todo ≠ [] := by rw [ht]; simp
      rw [e, loop_succ_cons _ _ _ hne, loop_succ_cons _ _ _ hne]
      rw [loop_succ_cons _ _ _ hne] at h
      cases hs : step scheme st with
      | value st2 =>
        rw [hs] at h
        exact ih st2 h j
      | assertFailed => rfl
      | outOfRange => rfl
      | outOfFuel => rfl

/-- C16: for histograms of the data model the traversal loop terminates,
within the budget of `MatchPyramids`, with a value or an abort; when it does
not abort it performs exactly `2 * N` iterations, where `N` is the number of
bin pairs sharing an identical root-relative index path (`2 * N` iterations
end the loop, fewer do not), and it leaves the stack empty, with `N` nodes
created and `N` nodes released. -/
theorem C16_termination_and_iterations (first second : MultiResolutionHistogram)
    (scheme : BinWeightScheme) (hv : ValidPair first second) :
    finalState first second scheme ≠ .outOfFuel ∧
    finalState first second scheme ≠ .outOfRange ∧
    (finalState first second scheme ≠ .assertFailed →
      ∃ st, runPyramids (2 * (correspondences first.root second.root).length) first second
          scheme = .value st ∧
        finalState first second scheme = .value st ∧
        st.todo = [] ∧
        st.created = (correspondences first.root second.root).length ∧
        st.finalized.length = (correspondences first.root second.root).length ∧
        ∀ k, k < 2 * (correspondences first.root second.root).length →
          runPyramids k first second scheme = .outOfFuel) := by
  obtain ⟨hA, hB, hlen, sA, sB⟩ := hv
  obtain ⟨T, hT⟩ := finalizedTrace_wellFormed (first.root.firstChild.numBins + 1) none 0
    first.root second.root hA hB hlen (le_refl _)
  obtain ⟨hperm, _⟩ := finalizedTrace_spec _ _ _ _ _ _ hA hB hlen sA sB hT
  have hN : T.length = (correspondences first.root second.root).length := by
    rw [← hperm.length_eq, List.length_map]
  have hfs := finalState_eq first second scheme T hT
  have hrun0 := runPyramids_eq first second scheme T hT 0
  rw [Nat.add_zero] at hrun0
  have hrun : runPyramids (2 * (correspondences first.root second.root).length) first second
      scheme = if T.all (passes scheme) then
        .value ⟨[], scoreOf scheme T, costOf scheme T, T, T.length⟩
      else .assertFailed := by
    rw [← hN]; exact hrun0
  by_cases hp : T.all (passes scheme) = true
  · rw [if_pos hp] at hfs hrun
    refine ⟨by rw [hfs]; simp, by rw [hfs]; simp, ?_⟩
    intro _
    refine ⟨_, hrun, hfs, rfl, hN, hN, ?_⟩
    intro k hk
    by_contra hcon
    have hmono := loop_mono scheme k (initState first second) hcon
      (2 * (correspondences first.root second.root).length - k)
    have e : k + (2 * (correspondences first.root second.root).length - k) =
        2 * (correspondences first.root second.root).length := by omega
    rw [e] at hmono
    have hval : loop scheme k (initState first second) =
        .value ⟨[], scoreOf scheme T, costOf scheme T, T, T.length⟩ := by
      rw [← hmono]; exact hrun
    have hpr := (loop_progress scheme k _ _ hval).2
    simp only [progress, initState, MatchNode.new, List.countP_cons, List.countP_nil,
      List.length_nil] at hpr
    simp at hpr
    omega
  · rw [if_neg hp] at hfs
    exact ⟨by rw [hfs]; simp, by rw [hfs]; simp, fun h => absurd hfs h⟩

theorem C16_termination_and_iterations_witness :
    ∃ st, runPyramids (2 * (correspondences mismatchA.root (scenario2B 2).root).length)
        mismatchA (scenario2B 2) .BIN_WEIGHT_GLOBAL = .value st ∧
      finalState mismatchA (scenario2B 2) .BIN_WEIGHT_GLOBAL = .value st ∧
      st.todo = [] ∧
      st.created = (correspondences mismatchA.root (scenario2B 2).root).length ∧
      st.finalized.length = (correspondences mismatchA.root (scenario2B 2).root).length ∧
      ∀ k, k < 2 * (correspondences mismatchA.root (scenario2B 2).root).length →
        runPyramids k mismatchA (scenario2B 2) .BIN_WEIGHT_GLOBAL = .outOfFuel :=
  (C16_termination_and_iterations mismatchA (scenario2B 2) .BIN_WEIGHT_GLOBAL
    (by decide)).2.2 (by
      simp [finalState, runPyramids, initState, loop, step, mergeLoop, MatchNode.new,
        updateSlot, BinPtr.numBins, BinPtr.chainLength, mismatchA, scenario2B,
        scenario2ChildB, Bin.toPtr])

/-! ### Naive matrix multiplication -/

theorem dot_fold (n t : Nat) (mem1 : Nat → ℚ) (pa pb : Nat) :
    ∀ (j : Nat), (∀ kk < j, t ≠ pa + kk) → (∀ kk < j, t ≠ pb + kk * n) →
      ((List.range j).foldl (dotStep n t) (mem1, pa, pb)).2.1 = pa + j ∧
      ((List.range j).foldl (dotStep n t) (mem1, pa, pb)).2.2 = pb + j * n ∧
      ((List.range j).foldl (dotStep n t) (mem1, pa, pb)).1 t =
        mem1 t + Finset.sum (Finset.range j) (fun kk => mem1 (pa + kk) * mem1 (pb + kk * n)) ∧
      ∀ x, x ≠ t → ((List.range j).foldl (dotStep n t) (mem1, pa, pb)).1 x = mem1 x := by
  intro j
  induction j with
  | zero => intro _ _; simp
  | succ j ih =>
    intro h1 h2
    obtain ⟨e1, e2, e3, e4⟩ := ih (fun kk hk => h1 kk (by omega)) (fun kk hk => h2 kk (by omega))
    rw [List.range_succ, List.foldl_append]
    simp only [List.foldl_cons, List.foldl_nil, dotStep]
    refine ⟨by rw [e1]; omega, by rw [e2]; ring, ?_, ?_⟩
    · rw [Function.update_same, e3, e1, e2, e4 _ (h1 j (by omega)).symm,
        e4 _ (h2 j (by omega)).symm, Finset.sum_range_succ]
      ring
    · intro x hx
      rw [Function.update_noteq hx, e4 x hx]

theorem index_lt {m n row col : Nat} (hr : row < m) (hc : col < n) : row * n + col < m * n := by
  have : (row + 1) * n ≤ m * n := Nat.mul_le_mul_right n hr
  have e : (row + 1) * n = row * n + n := by ring
  omega

theorem cellStep_spec (m n k a b c : Nat) (mem cur : Nat → ℚ)
    (hca : ∀ i < m * n, ∀ j < m * k, c + i ≠ a + j)
    (hcb : ∀ i < m * n, ∀ j < k * n, c + i ≠ b + j)
    (ha : ∀ j < m * k, cur (a + j) = mem (a + j))
    (hb : ∀ j < k * n, cur (b + j) = mem (b + j))
    (row col : Nat) (hr : row < m) (hc : col < n) :
    cellStep n k a b c row cur col (c + (row * n + col)) = productEntry n k a b mem row col ∧
    ∀ x, x ≠ c + (row * n + col) → cellStep n k a b c row cur col x = cur x := by
  have hi := index_lt hr hc
  have h1 : ∀ kk < k, c + (row * n + col) ≠ a + row * k + kk := by
    intro kk hk
    have := hca _ hi (row * k + kk) (index_lt hr hk)
    intro e
    apply this
    omega
  have h2 : ∀ kk < k, c + (row * n + col) ≠ b + col + kk * n := by
    intro kk hk
    have := hcb _ hi (kk * n + col) (index_lt hk hc)
    intro e
    apply this
    omega
  obtain ⟨_, _, e3, e4⟩ := dot_fold n (c + (row * n + col))
    (Function.update cur (c + (row * n + col)) 0) (a + row * k) (b + col) k h1 h2
  constructor
  · rw [cellStep, e3, Function.update_same, zero_add, productEntry]
    refine Finset.sum_congr rfl ?_
    intro kk hk
    have hk1 := Finset.mem_range.mp hk
    rw [Function.update_noteq (h1 kk hk1).symm, Function.update_noteq (h2 kk hk1).symm]
    have g1 : a + row * k + kk = a + (row * k + kk) := by omega
    have g2 : b + col + kk * n = b + (kk * n + col) := by omega
    rw [g1, g2, ha _ (index_lt hr hk1), hb _ (index_lt hk1 hc)]
  · intro x hx
    rw [cellStep, e4 x hx, Function.update_noteq hx]

theorem rowStep_spec (m n k a b c : Nat) (mem cur : Nat → ℚ)
    (hca : ∀ i < m * n, ∀ j < m * k, c + i ≠ a + j)
    (hcb : ∀ i < m * n, ∀ j < k * n, c + i ≠ b + j)
    (ha : ∀ j < m * k, cur (a + j) = mem (a + j))
    (hb : ∀ j < k * n, cur (b + j) = mem (b + j))
    (row : Nat) (hr : row < m) :
    ∀ (j : Nat), j ≤ n →
      (∀ col < j, (List.range j).foldl (cellStep n k a b c row) cur (c + (row * n + col)) =
        productEntry n k a b mem row col) ∧
      ∀ x, (∀ col < j, x ≠ c + (row * n + col)) →
        (List.range j).foldl (cellStep n k a b c row) cur x = cur x := by
  intro j
  induction j with
  | zero => intro _; simp
  | succ j ih =>
    intro hj
    obtain ⟨e1, e2⟩ := ih (by omega)
    rw [List.range_succ, List.foldl_append]
    simp only [List.foldl_cons, List.foldl_nil]
    have hframe : ∀ i, (∀ t < m * n, c + t ≠ i) →
        (List.range j).foldl (cellStep n k a b c row) cur i = cur i := by
      intro i hi
      exact e2 i (fun col hc => (hi _ (index_lt hr (by omega))).symm)
    obtain ⟨f1, f2⟩ := cellStep_spec m n k a b c mem
      ((List.range j).foldl (cellStep n k a b c row) cur) hca hcb
      (fun t ht => by rw [hframe _ (fun i hi => hca i hi t ht)]; exact ha t ht)
      (fun t ht => by rw [hframe _ (fun i hi => hcb i hi t ht)]; exact hb t ht)
      row j hr (by omega)
    constructor
    · intro col hc
      by_cases hcj : col = j
      · rw [hcj]; exact f1
      · rw [f2 _ (by omega)]
        exact e1 col (by omega)
    · intro x hx
      rw [f2 x (hx j (by omega))]
      exact e2 x (fun col hc => hx col (by omega))

theorem rows_spec (m n k a b c : Nat) (mem : Nat → ℚ)
    (hca : ∀ i < m * n, ∀ j < m * k, c + i ≠ a + j)
    (hcb : ∀ i < m * n, ∀ j < k * n, c + i ≠ b + j) :
    ∀ (j : Nat), j ≤ m →
      (∀ row < j, ∀ col < n, (List.range j).foldl (rowStep n k a b c) mem
        (c + (row * n + col)) = productEntry n k a b mem row col) ∧
      ∀ x, (∀ row < j, ∀ col < n, x ≠ c + (row * n + col)) →
        (List.range j).foldl (rowStep n k a b c) mem x = mem x := by
  intro j
  induction j with
  | zero => intro _; simp
  | succ j ih =>
    intro hj
    obtain ⟨e1, e2⟩ := ih (by omega)
    rw [List.range_succ, List.foldl_append]
    simp only [List.foldl_cons, List.foldl_nil]
    have hframe : ∀ i, (∀ t < m * n, c + t ≠ i) →
        (List.range j).foldl (rowStep n k a b c) mem i = mem i := by
      intro i hi
      exact e2 i (fun row hr col hc => (hi _ (index_lt (by omega) hc)).symm)
    obtain ⟨f1, f2⟩ := rowStep_spec m n k a b c mem
      ((List.range j).foldl (rowStep n k a b c) mem) hca hcb
      (fun t ht => hframe _ (fun i hi => hca i hi t ht))
      (fun t ht => hframe _ (fun i hi => hcb i hi t ht))
      j (by omega) n (le_refl _)
    constructor
    · intro row hr col hc
      by_cases hrj : row = j
      · rw [hrj]; exact f1 col hc
      · rw [rowStep, f2 _ ?_]
        · exact e1 row (by omega) col hc
        · intro col1 hc1 e
          have h1 : row * n + col < (row + 1) * n := by
            have : (row + 1) * n = row * n + n := by ring
            omega
          have h2 : (row + 1) * n ≤ j * n := Nat.mul_le_mul_right n (by omega)
          omega
    · intro x hx
      rw [rowStep, f2 x (fun col hc => hx j (by omega) col hc)]
      exact e2 x (fun row hr col hc => hx row (by omega) col hc)

theorem math_matrix_mult_naive_float_eq (m n k a b c : Nat) (mem : Nat → ℚ) :
    math_matrix_mult_naive_float m n k a b c mem = math_matrix_mult_naive m n k a b c mem := rfl

/-- C19: with `a` holding `m * k` cells, `b` holding `k * n` cells and the
`m * n` cells of `c` apart from both, after `math_matrix_mult_naive` the cell
`c[row*n+col]` holds the sum over `kk < k` of `a[row*k+kk] * b[kk*n+col]` for
every `row < m` and `col < n`, whatever `c` held before (so 0 when `k = 0`),
every cell outside `c` is unchanged, in particular those of `a` and `b`, and
`math_matrix_mult_naive_float` gives the same memory. -/
theorem C19_naive_matrix_product (m n k a b c : Nat) (mem : Nat → ℚ)
    (hca : ∀ i < m * n, ∀ j < m * k, c + i ≠ a + j)
    (hcb : ∀ i < m * n, ∀ j < k * n, c + i ≠ b + j) :
    (∀ row < m, ∀ col < n,
      math_matrix_mult_naive m n k a b c mem (c + (row * n + col)) =
        Finset.sum (Finset.range k)
          (fun kk => mem (a + (row * k + kk)) * mem (b + (kk * n + col)))) ∧
    (k = 0 → ∀ row < m, ∀ col < n,
      math_matrix_mult_naive m n k a b c mem (c + (row * n + col)) = 0) ∧
    (∀ x, (∀ i < m * n, x ≠ c + i) → math_matrix_mult_naive m n k a b c mem x = mem x) ∧
    (∀ j < m * k, math_matrix_mult_naive m n k a b c mem (a + j) = mem (a + j)) ∧
    (∀ j < k * n, math_matrix_mult_naive m n k a b c mem (b + j) = mem (b + j)) ∧
    math_matrix_mult_naive_float m n k a b c mem = math_matrix_mult_naive m n k a b c mem := by
  obtain ⟨e1, e2⟩ := rows_spec m n k a b c mem hca hcb m (le_refl _)
  have hframe : ∀ x, (∀ i < m * n, x ≠ c + i) →
      math_matrix_mult_naive m n k a b c mem x = mem x := by
    intro x hx
    exact e2 x (fun row hr col hc => hx _ (index_lt hr hc))
  refine ⟨fun row hr col hc => e1 row hr col hc, ?_, hframe, ?_, ?_,
    math_matrix_mult_naive_float_eq m n k a b c mem⟩
  · intro hk row hr col hc
    rw [math_matrix_mult_naive, e1 row hr col hc, productEntry, hk]
    simp
  · intro j hj
    exact hframe _ (fun i hi e => hca i hi j hj e.symm)
  · intro j hj
    exact hframe _ (fun i hi e => hcb i hi j hj e.symm)

theorem C19_naive_matrix_product_witness :
    (∀ i < 2 * 2, ∀ j < 2 * 2, 8 + i ≠ 0 + j) ∧
    (∀ i < 2 * 2, ∀ j < 2 * 2, 8 + i ≠ 4 + j) ∧
    math_matrix_mult_naive 2 2 2 0 4 8 exampleMem (8 + (1 * 2 + 0)) = 43 ∧
    math_matrix_mult_naive_float 2 2 2 0 4 8 exampleMem (8 + (1 * 2 + 0)) = 43 ∧
    math_matrix_mult_naive 2 2 2 0 4 8 exampleMem 5 = 6 := by
  have h1 : ∀ i < 2 * 2, ∀ j < 2 * 2, 8 + i ≠ 0 + j := by omega
  have h2 : ∀ i < 2 * 2, ∀ j < 2 * 2, 8 + i ≠ 4 + j := by omega
  obtain ⟨e1, _, _, _, e5, e6⟩ := C19_naive_matrix_product 2 2 2 0 4 8 exampleMem h1 h2
  have v : math_matrix_mult_naive 2 2 2 0 4 8 exampleMem (8 + (1 * 2 + 0)) = 43 := by
    rw [e1 1 (by omega) 0 (by omega)]
    simp [Finset.sum_range_succ, exampleMem]
    norm_num
  refine ⟨h1, h2, v, ?_, ?_⟩
  · rw [e6]; exact v
  · have := e5 1 (by omega)
    rw [this]
    simp [exampleMem]
    norm_num

/-! ### Rounding to `double` -/


theorem leadingBit_step (q s w W : Nat) (hW : W = 2 * w)
    (h : (1 ≤ q → 2 ^ s ≤ q) ∧ (q < 2 ^ (s + W) ∨ s + W = 2048)) :
    (1 ≤ q → 2 ^ (if 2 ^ (s + w) ≤ q then s + w else s) ≤ q) ∧
    (q < 2 ^ ((if 2 ^ (s + w) ≤ q then s + w else s) + w) ∨
      (if 2 ^ (s + w) ≤ q then s + w else s) + w = 2048) := by
  subst hW
  by_cases hc : 2 ^ (s + w) ≤ q
  · simp only [if_pos hc]
    refine ⟨fun _ => hc, ?_⟩
    rcases h.2 with h2 | h2
    · left
      have e : s + w + w = s + 2 * w := by omega
      rw [e]; exact h2
    · right; omega
  · simp only [if_neg hc]
    exact ⟨h.1, Or.inl (by omega)⟩

theorem leadingBit_spec (q : Nat) :
    (1 ≤ q → 2 ^ leadingBit q ≤ q) ∧ (q < 2 ^ (leadingBit q + 1) ∨ leadingBit q + 1 = 2048) := by
  have h0 : (1 ≤ q → 2 ^ 0 ≤ q) ∧ (q < 2 ^ (0 + 2048) ∨ 0 + 2048 = 2048) :=
    ⟨fun h => by simpa using h, Or.inr rfl⟩
  have h1 := leadingBit_step q _ 1024 2048 (by norm_num) h0
  have h2 := leadingBit_step q _ 512 1024 (by norm_num) h1
  have h3 := leadingBit_step q _ 256 512 (by norm_num) h2
  have h4 := leadingBit_step q _ 128 256 (by norm_num) h3
  have h5 := leadingBit_step q _ 64 128 (by norm_num) h4
  have h6 := leadingBit_step q _ 32 64 (by norm_num) h5
  have h7 := leadingBit_step q _ 16 32 (by norm_num) h6
  have h8 := leadingBit_step q _ 8 16 (by norm_num) h7
  have h9 := leadingBit_step q _ 4 8 (by norm_num) h8
  have h10 := leadingBit_step q _ 2 4 (by norm_num) h9
  have h11 := leadingBit_step q _ 1 2 (by norm_num) h10
  unfold leadingBit
  simp only [List.foldl]
  exact h11

theorem leadingBit_zero : leadingBit 0 = 0 := by decide!

theorem exponent_bounds (x : ℚ) : -1022 ≤ exponent x ∧ exponent x ≤ 1023 := by
  unfold exponent
  have h1 : min (leadingBit ⌊|x| * 2 ^ 1022⌋.toNat : ℤ) 2045 ≤ 2045 := min_le_right _ _
  have h2 : (0 : ℤ) ≤ min (leadingBit ⌊|x| * 2 ^ 1022⌋.toNat : ℤ) 2045 :=
    le_min (Int.natCast_nonneg _) (by norm_num)
  constructor <;> omega

theorem floor_toNat_cast (y : ℚ) (hy : 0 ≤ y) : ((⌊y⌋.toNat : ℕ) : ℚ) = (⌊y⌋ : ℚ) := by
  have h : (0 : ℤ) ≤ ⌊y⌋ := Int.floor_nonneg.mpr hy
  have e : ((⌊y⌋.toNat : ℕ) : ℤ) = ⌊y⌋ := Int.toNat_of_nonneg h
  exact_mod_cast e

theorem exponent_le_abs (x : ℚ) (h : -1022 < exponent x) : (2 : ℚ) ^ exponent x ≤ |x| := by
  have hy : (0 : ℚ) ≤ |x| * 2 ^ 1022 := by positivity
  obtain ⟨hs, _⟩ := leadingBit_spec ⌊|x| * 2 ^ 1022⌋.toNat
  unfold exponent at h ⊢
  set Q := ⌊|x| * 2 ^ 1022⌋.toNat with hQ
  have hpos : 1 ≤ Q := by
    by_contra hc
    have : Q = 0 := by omega
    rw [this, leadingBit_zero] at h
    simp at h
  have h1 : (2 : ℚ) ^ leadingBit Q ≤ (Q : ℚ) := by exact_mod_cast hs hpos
  have h2 : (Q : ℚ) ≤ |x| * 2 ^ 1022 := by
    rw [hQ, floor_toNat_cast _ hy]
    exact Int.floor_le _
  have h3 : (2 : ℚ) ^ (min (leadingBit Q : ℤ) 2045) ≤ (2 : ℚ) ^ leadingBit Q := by
    rw [← zpow_natCast]
    exact zpow_le_zpow_right₀ (by norm_num) (min_le_left _ _)
  rw [zpow_sub₀ (by norm_num : (2 : ℚ) ≠ 0)]
  rw [div_le_iff₀ (by positivity)]
  calc (2 : ℚ) ^ (min (leadingBit Q : ℤ) 2045) ≤ (2 : ℚ) ^ leadingBit Q := h3
    _ ≤ (Q : ℚ) := h1
    _ ≤ |x| * 2 ^ 1022 := h2
    _ = |x| * 2 ^ (1022 : ℤ) := by rw [zpow_ofNat]

theorem abs_lt_exponent (x : ℚ) (h : exponent x < 1023) : |x| < (2 : ℚ) ^ (exponent x + 1) := by
  have hy : (0 : ℚ) ≤ |x| * 2 ^ 1022 := by positivity
  obtain ⟨_, hs⟩ := leadingBit_spec ⌊|x| * 2 ^ 1022⌋.toNat
  unfold exponent at h ⊢
  set Q := ⌊|x| * 2 ^ 1022⌋.toNat with hQ
  have hlt : (leadingBit Q : ℤ) < 2045 := by
    by_contra hc
    rw [min_eq_right (by omega)] at h
    omega
  have hmin : min (leadingBit Q : ℤ) 2045 = leadingBit Q := min_eq_left (by omega)
  have hq : Q < 2 ^ (leadingBit Q + 1) := by
    rcases hs with hs | hs
    · exact hs
    · omega
  have h1 : (Q : ℚ) + 1 ≤ (2 : ℚ) ^ (leadingBit Q + 1) := by exact_mod_cast hq
  have h2 : |x| * 2 ^ 1022 < (Q : ℚ) + 1 := by
    rw [hQ, floor_toNat_cast _ hy]
    exact Int.lt_floor_add_one _
  rw [hmin]
  have e : (leadingBit Q : ℤ) - 1022 + 1 = ((leadingBit Q + 1 : ℕ) : ℤ) - 1022 := by push_cast; ring
  rw [e, zpow_sub₀ (by norm_num : (2 : ℚ) ≠ 0), lt_div_iff₀ (by positivity), zpow_natCast]
  calc |x| * 2 ^ (1022 : ℤ) = |x| * 2 ^ 1022 := by rw [zpow_ofNat]
    _ < (Q : ℚ) + 1 := h2
    _ ≤ _ := h1

theorem roundHalfEven_intCast (k : ℤ) : roundHalfEven (k : ℚ) = k := by
  simp [roundHalfEven]

theorem roundHalfEven_near (y : ℚ) :
    (roundHalfEven y : ℚ) - 1 / 2 ≤ y ∧ y ≤ (roundHalfEven y : ℚ) + 1 / 2 := by
  have h1 : (⌊y⌋ : ℚ) ≤ y := Int.floor_le y
  have h2 : y < (⌊y⌋ : ℚ) + 1 := Int.lt_floor_add_one y
  unfold roundHalfEven
  split
  · constructor <;> linarith
  · split
    · push_cast; constructor <;> linarith
    · split
      · constructor <;> linarith
      · push_cast; constructor <;> linarith

theorem roundHalfEven_mono {y z : ℚ} (h : y ≤ z) : roundHalfEven y ≤ roundHalfEven z := by
  by_contra hc
  have hlt : roundHalfEven z + 1 ≤ roundHalfEven y := by omega
  have hq : (roundHalfEven z : ℚ) + 1 ≤ (roundHalfEven y : ℚ) := by exact_mod_cast hlt
  have h1 := (roundHalfEven_near y).1
  have h2 := (roundHalfEven_near z).2
  have e : y = z := by linarith
  rw [e] at hc
  exact hc (le_refl _)

theorem roundHalfEven_nonneg {y : ℚ} (h : 0 ≤ y) : 0 ≤ roundHalfEven y := by
  have := roundHalfEven_mono h
  rw [show (0 : ℚ) = ((0 : ℤ) : ℚ) by norm_num, roundHalfEven_intCast] at this
  exact this

theorem roundQ_nonneg {x : ℚ} (h : 0 ≤ x) : 0 ≤ roundQ x := by
  unfold roundQ
  have hu : (0 : ℚ) < 2 ^ (exponent x - 52) := by positivity
  have : (0 : ℤ) ≤ roundHalfEven (x / 2 ^ (exponent x - 52)) :=
    roundHalfEven_nonneg (div_nonneg h hu.le)
  have h2 : (0 : ℚ) ≤ (roundHalfEven (x / 2 ^ (exponent x - 52)) : ℚ) := by exact_mod_cast this
  positivity

theorem exponent_mono {x y : ℚ} (h : |x| ≤ |y|) : exponent x ≤ exponent y := by
  by_contra hc
  have hlt : exponent y < exponent x := by omega
  have bx := exponent_bounds x
  have bY := exponent_bounds y
  have h1 := exponent_le_abs x (by omega)
  have h2 := abs_lt_exponent y (by omega)
  have h3 : (2 : ℚ) ^ (exponent y + 1) ≤ 2 ^ exponent x :=
    zpow_le_zpow_right₀ (by norm_num) (by omega)
  linarith

theorem roundQ_mono {x y : ℚ} (hx : 0 ≤ x) (h : x ≤ y) : roundQ x ≤ roundQ y := by
  have hy : 0 ≤ y := le_trans hx h
  have hab : |x| ≤ |y| := by rw [abs_of_nonneg hx, abs_of_nonneg hy]; exact h
  have hexp := exponent_mono hab
  have hux : (0 : ℚ) < 2 ^ (exponent x - 52) := by positivity
  have huy : (0 : ℚ) < 2 ^ (exponent y - 52) := by positivity
  rcases eq_or_lt_of_le hexp with he | he
  · unfold roundQ
    rw [← he]
    have : roundHalfEven (x / 2 ^ (exponent x - 52)) ≤
        roundHalfEven (y / 2 ^ (exponent x - 52)) :=
      roundHalfEven_mono (div_le_div_of_nonneg_right h hux.le)
    have h2 : (roundHalfEven (x / 2 ^ (exponent x - 52)) : ℚ) ≤
        (roundHalfEven (y / 2 ^ (exponent x - 52)) : ℚ) := by exact_mod_cast this
    exact mul_le_mul_of_nonneg_right h2 hux.le
  · have bx := exponent_bounds x
    have bY := exponent_bounds y
    have h1 : |x| < 2 ^ (exponent x + 1) := abs_lt_exponent x (by omega)
    have h2 : (2 : ℚ) ^ exponent y ≤ |y| := exponent_le_abs y (by omega)
    rw [abs_of_nonneg hx] at h1
    rw [abs_of_nonneg hy] at h2
    have e1 : (2 : ℚ) ^ (exponent x + 1) = 2 ^ (53 : ℤ) * 2 ^ (exponent x - 52) := by
      rw [← zpow_add₀ (by norm_num : (2 : ℚ) ≠ 0)]; congr 1; ring
    have e2 : (2 : ℚ) ^ exponent y = 2 ^ (52 : ℤ) * 2 ^ (exponent y - 52) := by
      rw [← zpow_add₀ (by norm_num : (2 : ℚ) ≠ 0)]; congr 1; ring
    have a1 : x / 2 ^ (exponent x - 52) ≤ (((2 : ℤ) ^ 53 : ℤ) : ℚ) := by
      rw [div_le_iff₀ hux]
      have : (((2 : ℤ) ^ 53 : ℤ) : ℚ) = 2 ^ (53 : ℤ) := by norm_num
      rw [this, ← e1]; exact h1.le
    have a2 : (((2 : ℤ) ^ 52 : ℤ) : ℚ) ≤ y / 2 ^ (exponent y - 52) := by
      rw [le_div_iff₀ huy]
      have : (((2 : ℤ) ^ 52 : ℤ) : ℚ) = 2 ^ (52 : ℤ) := by norm_num
      rw [this, ← e2]; exact h2
    have r1 := roundHalfEven_mono a1
    have r2 := roundHalfEven_mono a2
    rw [roundHalfEven_intCast] at r1 r2
    have c1 : (((2 : ℤ) ^ 53 : ℤ) : ℚ) = 2 ^ (53 : ℤ) := by norm_num
    have c2 : (((2 : ℤ) ^ 52 : ℤ) : ℚ) = 2 ^ (52 : ℤ) := by norm_num
    have q1 : (roundHalfEven (x / 2 ^ (exponent x - 52)) : ℚ) ≤ 2 ^ (53 : ℤ) := by
      rw [← c1]; exact Int.cast_le.mpr r1
    have q2 : (2 : ℚ) ^ (52 : ℤ) ≤ (roundHalfEven (y / 2 ^ (exponent y - 52)) : ℚ) := by
      rw [← c2]; exact Int.cast_le.mpr r2
    have h3 : (2 : ℚ) ^ (exponent x + 1) ≤ 2 ^ exponent y :=
      zpow_le_zpow_right₀ (by norm_num) (by omega)
    unfold roundQ
    calc (roundHalfEven (x / 2 ^ (exponent x - 52)) : ℚ) * 2 ^ (exponent x - 52)
        ≤ 2 ^ (53 : ℤ) * 2 ^ (exponent x - 52) := mul_le_mul_of_nonneg_right q1 hux.le
      _ = 2 ^ (exponent x + 1) := e1.symm
      _ ≤ 2 ^ exponent y := h3
      _ = 2 ^ (52 : ℤ) * 2 ^ (exponent y - 52) := e2
      _ ≤ _ := mul_le_mul_of_nonneg_right q2 huy.le

theorem roundQ_of_grid {x : ℚ} (k : ℤ) (h : x / 2 ^ (exponent x - 52) = k) : roundQ x = x := by
  have hu : (2 : ℚ) ^ (exponent x - 52) ≠ 0 := by positivity
  unfold roundQ
  rw [h, roundHalfEven_intCast, ← h]
  field_simp

theorem roundQ_natCast (n : ℕ) (h : n ≤ 2 ^ 53) : roundQ (n : ℚ) = n := by
  have b := exponent_bounds (n : ℚ)
  have hn : (0 : ℚ) ≤ n := Nat.cast_nonneg n
  have hle : exponent (n : ℚ) ≤ 53 := by
    by_contra hc
    have h1 := exponent_le_abs (n : ℚ) (by omega)
    rw [abs_of_nonneg hn] at h1
    have h2 : (2 : ℚ) ^ (54 : ℤ) ≤ 2 ^ exponent (n : ℚ) :=
      zpow_le_zpow_right₀ (by norm_num) (by omega)
    have h3 : (n : ℚ) ≤ 2 ^ 53 := by exact_mod_cast h
    norm_num at h2
    linarith
  rcases eq_or_lt_of_le hle with he | he
  · have h1 := exponent_le_abs (n : ℚ) (by omega)
    rw [abs_of_nonneg hn, he] at h1
    have h3 : (n : ℚ) ≤ 2 ^ 53 := by exact_mod_cast h
    have e : (n : ℚ) = 2 ^ 53 := le_antisymm h3 (by rw [zpow_ofNat] at h1; exact h1)
    apply roundQ_of_grid (2 ^ 52)
    rw [he, e]
    norm_num
  · obtain ⟨j, hj⟩ : ∃ j : ℕ, (j : ℤ) = 52 - exponent (n : ℚ) := ⟨(52 - exponent (n : ℚ)).toNat,
      Int.toNat_of_nonneg (by omega)⟩
    apply roundQ_of_grid ((n : ℤ) * 2 ^ j)
    have e : exponent (n : ℚ) - 52 = -(j : ℤ) := by omega
    rw [e, zpow_neg, zpow_natCast]
    push_cast
    field_simp

theorem round_natCast (n : ℕ) (h : n ≤ 2 ^ 53) : Double.round (n : ℚ) = .fin n := by
  unfold Double.round
  rw [roundQ_natCast n h, if_pos]
  rw [abs_of_nonneg (Nat.cast_nonneg n)]
  have h3 : (n : ℚ) ≤ 2 ^ 53 := by exact_mod_cast h
  have h4 : (2 : ℚ) ^ 53 < 2 ^ 1024 := pow_lt_pow_right₀ (by norm_num) (by norm_num)
  linarith

theorem round_zero : Double.round 0 = .fin 0 := by
  have := round_natCast 0 (by positivity)
  simpa using this

theorem round_nonneg {x : ℚ} (h : 0 ≤ x) :
    (∃ r, Double.round x = .fin r ∧ 0 ≤ r) ∨ Double.round x = .inf false := by
  unfold Double.round
  split
  · exact Or.inl ⟨_, rfl, roundQ_nonneg h⟩
  · right
    have : ¬ x < 0 := not_lt.mpr h
    simp [this]

theorem round_le {x c : ℚ} (hx : 0 ≤ x) (h : x ≤ c) (hc : roundQ c = c) (hc2 : c < 2 ^ 1024) :
    ∃ r, Double.round x = .fin r ∧ 0 ≤ r ∧ r ≤ c := by
  have h1 := roundQ_mono hx h
  rw [hc] at h1
  have h0 := roundQ_nonneg hx
  unfold Double.round
  rw [if_pos (by rw [abs_of_nonneg h0]; linarith)]
  exact ⟨_, rfl, h0, h1⟩

theorem round_ge {x c : ℚ} (hc0 : 0 ≤ c) (h : c ≤ x) (hc : roundQ c = c) :
    (∃ r, Double.round x = .fin r ∧ c ≤ r) ∨ Double.round x = .inf false := by
  have h1 := roundQ_mono hc0 h
  rw [hc] at h1
  unfold Double.round
  split
  · exact Or.inl ⟨_, rfl, h1⟩
  · right
    have : ¬ x < 0 := not_lt.mpr (le_trans hc0 h)
    simp [this]

theorem roundQ_one : roundQ 1 = 1 := by
  have := roundQ_natCast 1 (by norm_num)
  simpa using this

/-! ### The traversal in `double` arithmetic -/

theorem mergeLoopD_eq (lvl cur : Nat) (fuel : Nat) (a b : BinPtr) (todo : List MatchNodeD)
    (created : Nat) :
    mergeLoopD lvl cur fuel a b todo created =
      match mergePairs lvl fuel a b with
      | .value ps => .value (pushedD cur ps ++ todo, created + ps.length)
      | .assertFailed => .assertFailed
      | .outOfRange => .outOfRange
      | .outOfFuel => .outOfFuel := by
  induction fuel generalizing a b todo created with
  | zero =>
    cases a <;> cases b <;> simp [mergeLoopD, mergePairs, pushedD]
  | succ n ih =>
    cases a with
    | null => simp [mergeLoopD, mergePairs, pushedD]
    | bin i1 c1 s1 f1 n1 =>
      cases b with
      | null => simp [mergeLoopD, mergePairs, pushedD]
      | bin i2 c2 s2 f2 n2 =>
        simp only [mergeLoopD, mergePairs]
        cases h1 : i1.get? lvl with
        | none => simp
        | some x =>
          cases h2 : i2.get? lvl with
          | none => simp
          | some y =>
            simp only
            by_cases hxy : x = y
            · simp only [hxy, if_true]
              rw [ih]
              cases mergePairs lvl n n1 n2 <;> simp [pushedD, Nat.add_comm, Nat.add_left_comm]
            · simp only [hxy, if_false]
              by_cases hlt : x < y
              · simp only [hlt, if_true]; rw [ih]
              · simp only [hlt, if_false]; rw [ih]

theorem updateSlotD_length (f : MatchNodeD → MatchNodeD) (i : Nat) (l : List MatchNodeD) :
    (updateSlotD f i l).length = l.length := by
  induction l with
  | nil => rfl
  | cons x xs ih => by_cases h : xs.length = i <;> simp [updateSlotD, h, ih]

theorem updateSlotD_append (f : MatchNodeD → MatchNodeD) (xs : List MatchNodeD)
    (n : MatchNodeD) (rest : List MatchNodeD) :
    updateSlotD f rest.length (xs ++ n :: rest) = xs ++ f n :: rest := by
  induction xs with
  | nil => simp [updateSlotD]
  | cons x xs ih =>
    have h : (xs ++ n :: rest).length ≠ rest.length := by simp; omega
    rw [List.cons_append, updateSlotD, if_neg h, ih]
    rfl

theorem updateSlotD_cons_lt (f : MatchNodeD → MatchNodeD) (p : Nat) (x : MatchNodeD)
    (rest : List MatchNodeD) (h : p < rest.length) :
    updateSlotD f p (x :: rest) = x :: updateSlotD f p rest := by
  have h1 : rest.length ≠ p := by omega
  simp [updateSlotD, h1]

theorem bumpD_length (parent : Option Nat) (xs : List Double) (l : List MatchNodeD) :
    (bumpD parent xs l).length = l.length := by
  cases parent <;> simp [bumpD, updateSlotD_length]

theorem bumpD_cons_lt (p : Nat) (xs : List Double) (n : MatchNodeD) (rest : List MatchNodeD)
    (h : p < rest.length) :
    bumpD (some p) xs (n :: rest) = n :: bumpD (some p) xs rest := by
  simp [bumpD, updateSlotD_cons_lt _ _ _ _ h]

theorem bumpD_nil (parent : Option Nat) (l : List MatchNodeD) : bumpD parent [] l = l := by
  cases parent with
  | none => rfl
  | some p =>
    simp only [bumpD]
    induction l with
    | nil => rfl
    | cons x xs ih =>
      by_cases h : xs.length = p
      · simp [updateSlotD, h]
      · rw [updateSlotD, if_neg h, ih]

theorem bumpD_bumpD (parent : Option Nat) (xs ys : List Double) (l : List MatchNodeD) :
    bumpD parent ys (bumpD parent xs l) = bumpD parent (xs ++ ys) l := by
  cases parent with
  | none => rfl
  | some p =>
    simp only [bumpD]
    induction l with
    | nil => rfl
    | cons a as ih =>
      by_cases h : as.length = p
      · simp [updateSlotD, h, List.foldl_append]
      · simp [updateSlotD, h, ih, updateSlotD_length]

theorem bumpD_head (xs : List Double) (n : MatchNodeD) (rest : List MatchNodeD) :
    bumpD (some rest.length) xs (n :: rest) =
      { n with intersection_ := xs.foldl Double.add n.intersection_ } :: rest := by
  simp [bumpD, updateSlotD]

theorem loopD_succ_cons (scheme : BinWeightScheme) (fuel : Nat) (st : LoopStateD)
    (h : st.todo ≠ []) :
    loopD scheme (fuel + 1) st =
      match stepD scheme st with
      | .value st1 => loopD scheme fuel st1
      | .assertFailed => .assertFailed
      | .outOfRange => .outOfRange
      | .outOfFuel => .outOfFuel := by
  cases hst : st.todo with
  | nil => exact absurd hst h
  | cons x xs => simp [loopD, hst]

theorem loopD_nil (scheme : BinWeightScheme) (k : Nat) (sc co : Double)
    (fin : List MatchNodeD) (cr : Nat) :
    loopD scheme k ⟨[], sc, co, fin, cr⟩ = .value ⟨[], sc, co, fin, cr⟩ := by
  cases k <;> simp [loopD]

theorem stepD_expand (scheme : BinWeightScheme) (A B : Bin) (parent : Option Nat)
    (rest : List MatchNodeD) (sc co : Double) (fin : List MatchNodeD) (cr : Nat)
    (ps : List (Bin × Bin))
    (hps : mergePairs A.index.length (A.firstChild.chainLength + B.firstChild.chainLength)
      A.firstChild B.firstChild = .value ps) :
    stepD scheme ⟨MatchNodeD.new A B (.fin 0) parent :: rest, sc, co, fin, cr⟩ =
      .value ⟨pushedD rest.length ps ++ ⟨A, B, .fin 0, parent, true⟩ :: rest, sc, co, fin,
        cr + ps.length⟩ := by
  simp [stepD, MatchNodeD.new, mergeLoopD_eq, hps, updateSlotD_append]

theorem rawIntersection_gt (A B : Bin) :
    (if (Double.fin A.count).gt (.fin B.count) = true then Double.fin B.count
      else Double.fin A.count) = .fin (rawIntersection A B) := by
  unfold rawIntersection Double.gt
  by_cases h : A.count > B.count <;> simp [h]

theorem stepD_finalize (scheme : BinWeightScheme) (A B : Bin) (L : Double)
    (parent : Option Nat) (rest : List MatchNodeD) (sc co : Double) (fin : List MatchNodeD)
    (cr : Nat) (hp : ∀ p, parent = some p → p < rest.length) :
    stepD scheme ⟨⟨A, B, L, parent, true⟩ :: rest, sc, co, fin, cr⟩ =
      if passes scheme ⟨A, B, 0, parent, true⟩ then
        .value ⟨bumpD parent [.fin (rawIntersection A B)] rest,
          sc.add ((weightD scheme A B).mul ((Double.fin (rawIntersection A B)).sub L)),
          co.add ((binSizeD scheme A B).mul ((Double.fin (rawIntersection A B)).sub L)),
          fin ++ [⟨A, B, L, parent, true⟩], cr⟩
      else .assertFailed := by
  have hraw := rawIntersection_gt A B
  by_cases hpass : scheme = .BIN_WEIGHT_GLOBAL ∧ A.size ≠ B.size
  · simp [stepD, passes, hpass, Double.eq]
  · cases parent with
    | none =>
      simp only [stepD, passes, Double.eq, bumpD, weightD, binSizeD, hraw]
      simp [hpass]
    | some p =>
      have h := hp p rfl
      simp only [stepD, passes, Double.eq, bumpD, weightD, binSizeD, hraw,
        updateSlotD_cons_lt _ _ _ _ h]
      simp [hpass]

theorem scoreD_append (scheme : BinWeightScheme) (sc : Double) (T1 T2 : List MatchNodeD) :
    scoreD scheme sc (T1 ++ T2) = scoreD scheme (scoreD scheme sc T1) T2 := by
  simp [scoreD, List.foldl_append]

theorem costD_append (scheme : BinWeightScheme) (co : Double) (T1 T2 : List MatchNodeD) :
    costD scheme co (T1 ++ T2) = costD scheme (costD scheme co T1) T2 := by
  simp [costD, List.foldl_append]

theorem loopD_children (scheme : BinWeightScheme) (pslot : Nat)
    (f : Nat → Bin → Bin → Outcome (List MatchNode)) (hf : SimulatesAtD scheme pslot f)
    (ps : List (Bin × Bin)) :
    ∀ (base : Nat) (Tc : List MatchNode), evalChildren f base ps = .value Tc →
    ∀ (below : List MatchNodeD) (sc co : Double) (fin : List MatchNodeD) (cr k : Nat),
      below.length = base → pslot < base →
      loopD scheme (2 * Tc.length + k)
          ⟨pushedD pslot ps ++ below, sc, co, fin, cr + ps.length⟩ =
        if Tc.all (passes scheme) then
          loopD scheme k
            ⟨bumpD (some pslot) (ps.reverse.map fun p => Double.fin (rawIntersection p.1 p.2))
              below,
            scoreD scheme sc (Tc.map MatchNode.toD), costD scheme co (Tc.map MatchNode.toD),
            fin ++ Tc.map MatchNode.toD, cr + Tc.length⟩
        else .assertFailed := by
  induction ps with
  | nil =>
    intro base Tc hTc below sc co fin cr k _ _
    simp only [evalChildren, Outcome.value.injEq] at hTc
    subst hTc
    simp [pushedD, bumpD_nil, scoreD, costD]
  | cons p ps ih =>
    intro base Tc hTc below sc co fin cr k hlen hlt
    simp only [evalChildren] at hTc
    cases h1 : evalChildren f (base + 1) ps with
    | value T1 =>
      rw [h1] at hTc
      cases h0 : f base p.1 p.2 with
      | value T0 =>
        rw [h0] at hTc
        simp only [Outcome.value.injEq] at hTc
        subst hTc
        have e1 : pushedD pslot (p :: ps) ++ below =
            pushedD pslot ps ++ (MatchNodeD.new p.1 p.2 (.fin 0) (some pslot) :: below) := by
          simp [pushedD]
        have e2 : 2 * (T1 ++ T0).length + k = 2 * T1.length + (2 * T0.length + k) := by
          simp; omega
        have e3 : cr + (p :: ps).length = (cr + 1) + ps.length := by simp; omega
        rw [e1, e2, e3]
        rw [ih (base + 1) T1 h1 _ sc co fin (cr + 1) (2 * T0.length + k) (by simp [hlen])
          (by omega)]
        by_cases hp1 : T1.all (passes scheme) = true
        · rw [if_pos hp1]
          rw [bumpD_cons_lt _ _ _ _ (by omega)]
          have e4 : cr + 1 + T1.length = (cr + T1.length) + 1 := by omega
          rw [e4]
          rw [hf base p.1 p.2 T0 h0 _ _ _ _ _ k (by simp [bumpD_length, hlen]) hlt]
          by_cases hp0 : T0.all (passes scheme) = true
          · have hall : (T1 ++ T0).all (passes scheme) = true := by
              simp only [List.all_append, hp1, hp0, Bool.and_self]
            rw [if_pos hp0, if_pos hall, bumpD_bumpD]
            simp only [List.map_append, scoreD_append, costD_append, List.reverse_cons,
              List.map_cons, List.map_nil, List.length_append, List.append_assoc]
            congr 2
            omega
          · have hall : ¬ (T1 ++ T0).all (passes scheme) = true := by
              simp only [List.all_append, hp1, Bool.true_and]; exact hp0
            rw [if_neg hp0, if_neg hall]
        · have hall : ¬ (T1 ++ T0).all (passes scheme) = true := by
            simp only [List.all_append, Bool.and_eq_true, not_and]
            intro h; exact absurd h hp1
          rw [if_neg hp1, if_neg hall]
      | assertFailed => rw [h0] at hTc; simp at hTc
      | outOfRange => rw [h0] at hTc; simp at hTc
      | outOfFuel => rw [h0] at hTc; simp at hTc
    | assertFailed => rw [h1] at hTc; simp at hTc
    | outOfRange => rw [h1] at hTc; simp at hTc
    | outOfFuel => rw [h1] at hTc; simp at hTc

theorem loopD_finalizedTrace (scheme : BinWeightScheme) :
    ∀ (d : Nat) (parent : Option Nat) (slot : Nat) (A B : Bin) (T : List MatchNode),
    finalizedTrace d parent slot A B = .value T →
    ∀ (rest : List MatchNodeD) (sc co : Double) (fin : List MatchNodeD) (cr k : Nat),
      rest.length = slot → (∀ p, parent = some p → p < slot) →
      loopD scheme (2 * T.length + k)
          ⟨MatchNodeD.new A B (.fin 0) parent :: rest, sc, co, fin, cr + 1⟩ =
        if T.all (passes scheme) then
          loopD scheme k ⟨bumpD parent [.fin (rawIntersection A B)] rest,
            scoreD scheme sc (T.map MatchNode.toD), costD scheme co (T.map MatchNode.toD),
            fin ++ T.map MatchNode.toD, cr + T.length⟩
        else .assertFailed := by
  intro d
  induction d with
  | zero => intro parent slot A B T h; simp [finalizedTrace] at h
  | succ d ih =>
    intro parent slot A B T hT rest sc co fin cr k hlen hpar
    simp only [finalizedTrace] at hT
    cases hps : mergePairs A.index.length
        (A.firstChild.chainLength + B.firstChild.chainLength) A.firstChild B.firstChild with
    | value ps =>
      rw [hps] at hT
      simp only at hT
      cases hTc : evalChildren (fun s a b => finalizedTrace d (some slot) s a b) (slot + 1) ps with
      | value Tc =>
        rw [hTc] at hT
        simp only [Outcome.value.injEq] at hT
        subst hT
        have hf : SimulatesAtD scheme slot (fun s a b => finalizedTrace d (some slot) s a b) := by
          intro slot1 a b T1 h1 rest1 sc1 co1 fin1 cr1 k1 hl1 hlt1
          exact ih (some slot) slot1 a b T1 h1 rest1 sc1 co1 fin1 cr1 k1 hl1
            (by intro p hp; cases hp; exact hlt1)
        have e1 : 2 * (Tc ++ [(⟨A, B, (ps.map fun p => rawIntersection p.1 p.2).sum, parent,
            true⟩ : MatchNode)]).length + k = (2 * Tc.length + ((k + 1))) + 1 := by
          simp; omega
        rw [e1, loopD_succ_cons _ _ _ (by simp), stepD_expand scheme A B parent rest sc co fin
          (cr + 1) ps hps]
        simp only
        subst hlen
        rw [loopD_children scheme rest.length _ hf ps (rest.length + 1) Tc hTc _ sc co fin
          (cr + 1) (k + 1) (by simp) (by omega)]
        have hlast : MatchNode.toD ⟨A, B, (ps.map fun p => rawIntersection p.1 p.2).sum, parent,
            true⟩ = ⟨A, B, ledgerOf ps, parent, true⟩ := by
          simp [MatchNode.toD, ledgerD, hps]
        have hpassEq : passes scheme ⟨A, B, (ps.map fun p => rawIntersection p.1 p.2).sum,
            parent, true⟩ = passes scheme ⟨A, B, 0, parent, true⟩ := rfl
        by_cases hp1 : Tc.all (passes scheme) = true
        · rw [if_pos hp1, bumpD_head, loopD_succ_cons _ _ _ (by simp)]
          simp only
          have hL : List.foldl Double.add (Double.fin 0)
              (ps.reverse.map fun p => Double.fin (rawIntersection p.1 p.2)) = ledgerOf ps := rfl
          rw [hL, stepD_finalize scheme A B _ parent rest _ _ _ _ hpar]
          by_cases hp0 : passes scheme ⟨A, B, 0, parent, true⟩ = true
          · have hall : (Tc ++ [(⟨A, B, (ps.map fun p => rawIntersection p.1 p.2).sum, parent,
                true⟩ : MatchNode)]).all (passes scheme) = true := by
              simp only [List.all_append, hp1, List.all_cons, hpassEq, hp0, List.all_nil,
                Bool.and_self]
            rw [if_pos hp0, if_pos hall]
            simp only [List.map_append, List.map_cons, List.map_nil, hlast, scoreD_append,
              costD_append, List.length_append, List.length_singleton, List.append_assoc]
            congr 2
            omega
          · have hall : ¬ (Tc ++ [(⟨A, B, (ps.map fun p => rawIntersection p.1 p.2).sum, parent,
                true⟩ : MatchNode)]).all (passes scheme) = true := by
              simp only [List.all_append, hp1, List.all_cons, List.all_nil, Bool.and_true,
                Bool.true_and, hpassEq]
              exact hp0
            rw [if_neg hp0, if_neg hall]
        · have hall : ¬ (Tc ++ [(⟨A, B, (ps.map fun p => rawIntersection p.1 p.2).sum, parent,
              true⟩ : MatchNode)]).all (passes scheme) = true := by
            simp only [List.all_append, Bool.and_eq_true, not_and]
            intro h; exact absurd h hp1
          rw [if_neg hp1, if_neg hall]
      | assertFailed => rw [hTc] at hT; simp at hT
      | outOfRange => rw [hTc] at hT; simp at hT
      | outOfFuel => rw [hTc] at hT; simp at hT
    | assertFailed => rw [hps] at hT; simp at hT
    | outOfRange => rw [hps] at hT; simp at hT
    | outOfFuel => rw [hps] at hT; simp at hT

theorem finalStateD_eq (first second : MultiResolutionHistogram) (scheme : BinWeightScheme)
    (T : List MatchNode) (hT : matchTrace first second = .value T) :
    finalStateD first second scheme =
      if T.all (passes scheme) then
        .value ⟨[], scoreD scheme (.fin 0) (T.map MatchNode.toD),
          costD scheme (.fin 0) (T.map MatchNode.toD), T.map MatchNode.toD, T.length⟩
      else .assertFailed := by
  have hle := finalizedTrace_length_le _ _ _ _ _ _ hT
  obtain ⟨k, hk⟩ : ∃ k, 2 * (first.root.firstChild.numBins + 1) = 2 * T.length + k :=
    ⟨2 * (first.root.firstChild.numBins + 1) - 2 * T.length, by omega⟩
  have h := loopD_finalizedTrace scheme _ none 0 first.root second.root T hT [] (.fin 0)
    (.fin 0) [] 0 k rfl (by intro p hp; cases hp)
  simp only [finalStateD, initStateD]
  rw [hk]
  simp only [zero_add, List.nil_append, bumpD, loopD_nil] at h
  exact h

theorem MatchPyramidsD_eq (first second : MultiResolutionHistogram)
    (return_type : MatchReturnType) (scheme : BinWeightScheme)
    (T : List MatchNode) (hT : matchTrace first second = .value T) :
    MatchPyramidsD first second return_type scheme =
      if T.all (passes scheme) then
        .value (if return_type = .COST then costD scheme (.fin 0) (T.map MatchNode.toD)
          else scoreD scheme (.fin 0) (T.map MatchNode.toD))
      else .assertFailed := by
  simp only [MatchPyramidsD]
  rw [finalStateD_eq first second scheme T hT]
  by_cases hp : T.all (passes scheme) = true
  · simp [hp]
  · simp [hp]

/-! ### Exact steps of the `double` arithmetic -/

theorem add_fin_natCast (a b : ℕ) (h : a + b ≤ 2 ^ 53) :
    (Double.fin a).add (.fin b) = .fin ((a + b : ℕ) : ℚ) := by
  have := round_natCast (a + b) h
  simp only [Double.add]
  rw [← this]
  push_cast
  rfl

theorem sub_fin_natCast (a b : ℕ) (hb : b ≤ a) (ha : a ≤ 2 ^ 53) :
    (Double.fin a).sub (.fin b) = .fin ((a - b : ℕ) : ℚ) := by
  have := round_natCast (a - b) (by omega)
  simp only [Double.sub, Double.neg, Double.add]
  rw [← this]
  congr 1
  rw [Nat.cast_sub hb]
  ring

theorem foldl_add_natCast (xs : List ℕ) :
    ∀ (a : ℕ), a + xs.sum ≤ 2 ^ 53 →
      (xs.map fun (n : ℕ) => Double.fin (n : ℚ)).foldl Double.add (.fin (a : ℚ)) =
        .fin ((a + xs.sum : ℕ) : ℚ) := by
  induction xs with
  | nil => intro a _; simp
  | cons x xs ih =>
    intro a h
    simp only [List.sum_cons] at h
    simp only [List.map_cons, List.foldl_cons, List.sum_cons]
    rw [add_fin_natCast a x (by omega), ih (a + x) (by omega)]
    congr 2
    omega

theorem smallNat_min {x y : ℚ} (hx : SmallNat x) (hy : SmallNat y) : SmallNat (min x y) := by
  obtain ⟨a, rfl, ha⟩ := hx
  obtain ⟨b, rfl, hb⟩ := hy
  refine ⟨min a b, by push_cast; rfl, ?_⟩
  exact le_trans (min_le_left _ _) ha

theorem ledgerOf_eq (ps : List (Bin × Bin))
    (hn : ∀ p ∈ ps, SmallNat (rawIntersection p.1 p.2))
    (hs : (ps.map fun p => rawIntersection p.1 p.2).sum ≤ 2 ^ 53) :
    ∃ s : ℕ, (ps.map fun p => rawIntersection p.1 p.2).sum = s ∧ s ≤ 2 ^ 53 ∧
      ledgerOf ps = .fin (s : ℚ) := by
  obtain ⟨ns, hns⟩ : ∃ ns : List ℕ, ps.map (fun p => rawIntersection p.1 p.2) =
      ns.map (fun (n : ℕ) => (n : ℚ)) := by
    clear hs
    induction ps with
    | nil => exact ⟨[], rfl⟩
    | cons p ps ih =>
      obtain ⟨ns, h⟩ := ih (fun q hq => hn q (List.mem_cons_of_mem _ hq))
      obtain ⟨n, h1, _⟩ := hn p (List.mem_cons_self _ _)
      exact ⟨n :: ns, by simp [h, h1]⟩
  have hsum : (ps.map fun p => rawIntersection p.1 p.2).sum = ((ns.sum : ℕ) : ℚ) := by
    rw [hns]; simp
  have hle : ns.sum ≤ 2 ^ 53 := by
    rw [hsum] at hs
    exact_mod_cast hs
  refine ⟨ns.sum, hsum, hle, ?_⟩
  have hrev : (ps.reverse.map fun p => Double.fin (rawIntersection p.1 p.2)) =
      (ns.reverse.map fun (n : ℕ) => Double.fin (n : ℚ)) := by
    have e1 : (ps.reverse.map fun p => Double.fin (rawIntersection p.1 p.2)) =
        ((ps.map fun p => rawIntersection p.1 p.2).map Double.fin).reverse := by
      simp [List.map_reverse]
    rw [e1, hns]
    simp [List.map_reverse]
  unfold ledgerOf
  rw [hrev]
  have := foldl_add_natCast ns.reverse 0 (by rw [List.sum_reverse]; omega)
  rw [List.sum_reverse] at this
  simpa using this

theorem binSizeD_nonneg (scheme : BinWeightScheme) (a b : Bin) (ha : 0 ≤ a.size)
    (hb : 0 ≤ b.size) :
    (∃ r, binSizeD scheme a b = .fin r ∧ 0 ≤ r) ∨ binSizeD scheme a b = .inf false := by
  unfold binSizeD
  split
  · exact Or.inl ⟨_, rfl, ha⟩
  · exact round_nonneg (add_nonneg ha hb)

theorem roundQ_two_pow : roundQ (2 ^ 1023) = 2 ^ 1023 := by decide!

theorem binSizeD_fin (scheme : BinWeightScheme) (a b : Bin)
    (ha : 0 ≤ a.size ∧ a.size ≤ 2 ^ 1022) (hb : 0 ≤ b.size ∧ b.size ≤ 2 ^ 1022) :
    ∃ r, binSizeD scheme a b = .fin r ∧ 0 ≤ r := by
  unfold binSizeD
  split
  · exact ⟨_, rfl, ha.1⟩
  · have h1 : a.size + b.size ≤ 2 ^ 1023 := by
      have : (2 : ℚ) ^ 1023 = 2 ^ 1022 + 2 ^ 1022 := by ring
      linarith [ha.2, hb.2]
    have h2 : (2 : ℚ) ^ 1023 < 2 ^ 1024 := pow_lt_pow_right₀ (by norm_num) (by norm_num)
    obtain ⟨r, e, h0, _⟩ := round_le (add_nonneg ha.1 hb.1) h1 roundQ_two_pow h2
    exact ⟨r, e, h0⟩

theorem one_lt_two_pow : (1 : ℚ) < 2 ^ 1024 := one_lt_pow₀ (by norm_num) (by norm_num)

theorem weightD_bounds (scheme : BinWeightScheme) (a b : Bin) (ha : 0 ≤ a.size)
    (hb : 0 ≤ b.size) : ∃ w, weightD scheme a b = .fin w ∧ 0 ≤ w ∧ w ≤ 1 := by
  unfold weightD
  rcases binSizeD_nonneg scheme a b ha hb with ⟨r, e, hr⟩ | e
  · rw [e]
    simp only [Double.add]
    rcases round_ge zero_le_one (show (1 : ℚ) ≤ 1 + r by linarith) roundQ_one with
      ⟨d, e1, hd⟩ | e1
    · rw [e1]
      have hd0 : d ≠ 0 := by linarith
      simp only [Double.div, if_neg hd0]
      have h1 : (0 : ℚ) ≤ 1 / d := by positivity
      have h2 : 1 / d ≤ 1 := by
        rw [div_le_one (by linarith)]; exact hd
      exact round_le h1 h2 roundQ_one one_lt_two_pow
    · rw [e1]
      exact ⟨0, rfl, le_refl _, zero_le_one⟩
  · rw [e]
    exact ⟨0, rfl, le_refl _, zero_le_one⟩

theorem mul_fin_bound {w : ℚ} (h0 : 0 ≤ w) (h1 : w ≤ 1) (m : ℕ) (hm : m ≤ 2 ^ 53) :
    ∃ t, (Double.fin w).mul (.fin (m : ℚ)) = .fin t ∧ 0 ≤ t ∧ t ≤ m := by
  have hm0 : (0 : ℚ) ≤ m := Nat.cast_nonneg m
  have hlt : (m : ℚ) < 2 ^ 1024 := by
    have h3 : (m : ℚ) ≤ 2 ^ 53 := by exact_mod_cast hm
    have h4 : (2 : ℚ) ^ 53 < 2 ^ 1024 := pow_lt_pow_right₀ (by norm_num) (by norm_num)
    linarith
  exact round_le (mul_nonneg h0 hm0) (by nlinarith) (roundQ_natCast m hm) hlt

theorem nonnegOrInf_round {x : ℚ} (h : 0 ≤ x) : (Double.round x).NonnegOrInf := by
  rcases round_nonneg h with ⟨r, e, hr⟩ | e
  · exact Or.inr ⟨r, e, hr⟩
  · exact Or.inl e

theorem nonnegOrInf_add {x y : Double} (hx : x.NonnegOrInf) (hy : y.NonnegOrInf) :
    (x.add y).NonnegOrInf := by
  rcases hx with rfl | ⟨a, rfl, ha⟩ <;> rcases hy with rfl | ⟨b, rfl, hb⟩
  · exact Or.inl rfl
  · exact Or.inl rfl
  · exact Or.inl rfl
  · exact nonnegOrInf_round (add_nonneg ha hb)

theorem allSizes_mem {P : ℚ → Prop} {as : BinPtr} (h : as.AllSizes P) {a : Bin}
    (ha : a ∈ as.toList) : a.AllSizes P := by
  induction as with
  | null => simp [BinPtr.toList] at ha
  | bin i c s fc ns _ ih2 =>
    simp only [BinPtr.AllSizes] at h
    simp only [BinPtr.toList, List.mem_cons] at ha
    rcases ha with rfl | ha
    · exact ⟨h.1, h.2.1⟩
    · exact ih2 h.2.2 ha

theorem finalizedTrace_sizes (P : ℚ → Prop) :
    ∀ (d : Nat) (parent : Option Nat) (slot : Nat) (A B : Bin) (T : List MatchNode),
      (A.AllSizes P ∧ B.AllSizes P) →
      finalizedTrace d parent slot A B = .value T →
      ∀ r ∈ T, P r.node_.size ∧ P r.counterpart_.size := by
  refine finalizedTrace_forall (fun A B => A.AllSizes P ∧ B.AllSizes P)
    (fun r => P r.node_.size ∧ P r.counterpart_.size) ?_ ?_
  · intro A B hQ a ha b hb
    exact ⟨allSizes_mem hQ.1.2 ha, allSizes_mem hQ.2.2 hb⟩
  · intro A B ps parent hQ _
    exact ⟨hQ.1.1, hQ.2.1⟩

theorem finalizedTrace_exactD :
    ∀ (d : Nat) (parent : Option Nat) (slot : Nat) (A B : Bin) (T : List MatchNode),
      ((A.Nonneg ∧ A.Conserving ∧ B.Nonneg ∧ B.Conserving) ∧
        A.AllCounts SmallNat ∧ B.AllCounts SmallNat) →
      finalizedTrace d parent slot A B = .value T →
      ∀ r ∈ T, ∃ m : ℕ, netIntersection r = m ∧ m ≤ 2 ^ 53 ∧
        netIntersectionD r.toD = .fin (m : ℚ) := by
  refine finalizedTrace_forall
    (fun A B => (A.Nonneg ∧ A.Conserving ∧ B.Nonneg ∧ B.Conserving) ∧
      A.AllCounts SmallNat ∧ B.AllCounts SmallNat)
    (fun r => ∃ m : ℕ, netIntersection r = m ∧ m ≤ 2 ^ 53 ∧
      netIntersectionD r.toD = .fin (m : ℚ)) ?_ ?_
  · intro A B hQ a ha b hb
    exact ⟨⟨nonneg_mem hQ.1.1.2.2 ha, conserving_mem hQ.1.2.1.2 ha, nonneg_mem hQ.1.2.2.1.2.2 hb,
      conserving_mem hQ.1.2.2.2.2 hb⟩, allCounts_mem hQ.2.1.2 ha, allCounts_mem hQ.2.2.2 hb⟩
  · intro A B ps parent hQ hps
    obtain ⟨⟨nA, cA, nB, cB⟩, iA, iB⟩ := hQ
    have hsub := mergePairs_sublist _ _ _ _ _ hps
    have hraw : SmallNat (rawIntersection A B) := by
      rw [rawIntersection_eq_min]; exact smallNat_min iA.1 iB.1
    have hn : ∀ p ∈ ps, SmallNat (rawIntersection p.1 p.2) := by
      intro p hp
      have m1 : p.1 ∈ A.firstChild.toList := hsub.1.subset (List.mem_map_of_mem _ hp)
      have m2 : p.2 ∈ B.firstChild.toList := hsub.2.subset (List.mem_map_of_mem _ hp)
      rw [rawIntersection_eq_min]
      exact smallNat_min (allCounts_mem iA.2 m1).1 (allCounts_mem iB.2 m2).1
    have hle := ledger_le_count nA nB cA cB hps
    obtain ⟨n, hn1, hn2⟩ := hraw
    have hs : (ps.map fun p => rawIntersection p.1 p.2).sum ≤ 2 ^ 53 := by
      have : (n : ℚ) ≤ 2 ^ 53 := by exact_mod_cast hn2
      linarith
    obtain ⟨s, hs1, hs2, hs3⟩ := ledgerOf_eq ps hn hs
    have hsn : s ≤ n := by
      rw [hs1, hn1] at hle
      exact_mod_cast hle
    refine ⟨n - s, ?_, by omega, ?_⟩
    · simp only [netIntersection, hs1, hn1]
      rw [Nat.cast_sub hsn]
    · simp only [netIntersectionD, MatchNode.toD, ledgerD, hps, hs3, hn1]
      exact sub_fin_natCast n s hsn hn2

theorem scoreD_bounds (scheme : BinWeightScheme) (T : List MatchNode)
    (hR : ∀ r ∈ T, ∃ m : ℕ, netIntersection r = m ∧ m ≤ 2 ^ 53 ∧
      netIntersectionD r.toD = .fin (m : ℚ))
    (hS : ∀ r ∈ T, 0 ≤ r.node_.size ∧ 0 ≤ r.counterpart_.size) :
    ∀ (s : ℚ) (N : ℕ), 0 ≤ s → s ≤ N → (N : ℚ) + (T.map netIntersection).sum ≤ 2 ^ 53 →
      ∃ v, scoreD scheme (.fin s) (T.map MatchNode.toD) = .fin v ∧ 0 ≤ v ∧
        v ≤ N + (T.map netIntersection).sum := by
  induction T with
  | nil =>
    intro s N h0 h1 _
    exact ⟨s, rfl, h0, by simpa using h1⟩
  | cons r T ih =>
    intro s N h0 h1 hsum
    obtain ⟨m, hm1, hm2, hm3⟩ := hR r (List.mem_cons_self _ _)
    obtain ⟨z1, z2⟩ := hS r (List.mem_cons_self _ _)
    have hRT : ∀ q ∈ T, ∃ m : ℕ, netIntersection q = m ∧ m ≤ 2 ^ 53 ∧
        netIntersectionD q.toD = .fin (m : ℚ) := fun q hq => hR q (List.mem_cons_of_mem _ hq)
    have hpos : (0 : ℚ) ≤ (T.map netIntersection).sum := by
      refine List.sum_nonneg ?_
      intro x hx
      obtain ⟨q, hq, rfl⟩ := List.mem_map.mp hx
      obtain ⟨k, hk, _⟩ := hRT q hq
      rw [hk]; exact Nat.cast_nonneg k
    simp only [List.map_cons, List.sum_cons, hm1] at hsum ⊢
    obtain ⟨w, hw, w0, w1⟩ := weightD_bounds scheme r.node_ r.counterpart_ z1 z2
    obtain ⟨t, ht, t0, t1⟩ := mul_fin_bound w0 w1 m hm2
    have hNm : N + m ≤ 2 ^ 53 := by
      have : ((N + m : ℕ) : ℚ) ≤ 2 ^ 53 := by push_cast; linarith
      exact_mod_cast this
    have hlt : ((N + m : ℕ) : ℚ) < 2 ^ 1024 := by
      have h3 : ((N + m : ℕ) : ℚ) ≤ 2 ^ 53 := by exact_mod_cast hNm
      have h4 : (2 : ℚ) ^ 53 < 2 ^ 1024 := pow_lt_pow_right₀ (by norm_num) (by norm_num)
      linarith
    obtain ⟨s1, hs1, a0, a1⟩ := round_le (add_nonneg h0 t0)
      (show s + t ≤ ((N + m : ℕ) : ℚ) by push_cast; linarith) (roundQ_natCast _ hNm) hlt
    have hstep : scoreD scheme (.fin s) (r.toD :: T.map MatchNode.toD) =
        scoreD scheme (.fin s1) (T.map MatchNode.toD) := by
      simp only [scoreD, List.foldl_cons]
      have e : weightD scheme r.toD.node_ r.toD.counterpart_ =
          weightD scheme r.node_ r.counterpart_ := rfl
      rw [e, hw, hm3, ht]
      simp only [Double.add, hs1]
    rw [hstep]
    obtain ⟨v, hv, v0, v1⟩ := ih hRT (fun q hq => hS q (List.mem_cons_of_mem _ hq)) s1 (N + m)
      a0 a1 (by push_cast; linarith)
    refine ⟨v, hv, v0, ?_⟩
    push_cast at v1
    linarith

theorem costD_nonneg (scheme : BinWeightScheme) (T : List MatchNode)
    (hR : ∀ r ∈ T, ∃ m : ℕ, netIntersection r = m ∧ m ≤ 2 ^ 53 ∧
      netIntersectionD r.toD = .fin (m : ℚ))
    (hS : ∀ r ∈ T, (0 ≤ r.node_.size ∧ r.node_.size ≤ 2 ^ 1022) ∧
      (0 ≤ r.counterpart_.size ∧ r.counterpart_.size ≤ 2 ^ 1022)) :
    ∀ (co : Double), co.NonnegOrInf → (costD scheme co (T.map MatchNode.toD)).NonnegOrInf := by
  induction T with
  | nil => intro co h; exact h
  | cons r T ih =>
    intro co hco
    obtain ⟨m, _, _, hm3⟩ := hR r (List.mem_cons_self _ _)
    obtain ⟨z1, z2⟩ := hS r (List.mem_cons_self _ _)
    obtain ⟨b, hb, b0⟩ := binSizeD_fin scheme r.node_ r.counterpart_ z1 z2
    have hstep : costD scheme co (r.toD :: T.map MatchNode.toD) =
        costD scheme (co.add (Double.round (b * m))) (T.map MatchNode.toD) := by
      simp only [costD, List.foldl_cons]
      have e : binSizeD scheme r.toD.node_ r.toD.counterpart_ =
          binSizeD scheme r.node_ r.counterpart_ := rfl
      rw [e, hb, hm3]
      rfl
    simp only [List.map_cons]
    rw [hstep]
    exact ih (fun q hq => hR q (List.mem_cons_of_mem _ hq))
      (fun q hq => hS q (List.mem_cons_of_mem _ hq)) _
      (nonnegOrInf_add hco (nonnegOrInf_round (mul_nonneg b0 (Nat.cast_nonneg m))))

theorem MatchPyramidsD_bounds (first second : MultiResolutionHistogram)
    (scheme : BinWeightScheme)
    (hA : first.root.WellFormed) (hB : second.root.WellFormed)
    (hlen : first.root.index.length = second.root.index.length)
    (nA : first.root.Nonneg) (nB : second.root.Nonneg)
    (cA : first.root.Conserving) (cB : second.root.Conserving)
    (iA : first.root.AllCounts SmallNat) (iB : second.root.AllCounts SmallNat) :
    (∀ st, finalStateD first second scheme = .value st →
      ∀ r ∈ st.finalized, ∃ x, netIntersectionD r = .fin x ∧ 0 ≤ x) ∧
    (MatchPyramidsD first second .SIMILARITY scheme ≠ .assertFailed →
      ∃ v, MatchPyramidsD first second .SIMILARITY scheme = .value (.fin v) ∧ 0 ≤ v ∧
        v ≤ min first.root.count second.root.count) ∧
    ((first.root.AllSizes (fun s => s ≤ 2 ^ 1022) ∧
        second.root.AllSizes (fun s => s ≤ 2 ^ 1022)) →
      MatchPyramidsD first second .COST scheme ≠ .assertFailed →
      ∃ c, MatchPyramidsD first second .COST scheme = .value c ∧ c.NonnegOrInf) := by
  obtain ⟨T, hT⟩ := finalizedTrace_wellFormed (first.root.firstChild.numBins + 1) none 0
    first.root second.root hA hB hlen (le_refl _)
  have hR := finalizedTrace_exactD _ _ _ _ _ _ ⟨⟨nA, cA, nB, cB⟩, iA, iB⟩ hT
  have hN := finalizedTrace_nonneg _ _ _ _ _ _ ⟨nA, cA, nB, cB⟩ hT
  have hsum := finalizedTrace_net_sum _ _ _ _ _ _ hT
  have hraw : SmallNat (rawIntersection first.root second.root) := by
    rw [rawIntersection_eq_min]; exact smallNat_min iA.1 iB.1
  refine ⟨?_, ?_, ?_⟩
  · intro st hst r hr
    rw [finalStateD_eq first second scheme T hT] at hst
    by_cases hp : T.all (passes scheme) = true
    · rw [if_pos hp] at hst
      simp only [Outcome.value.injEq] at hst
      subst hst
      obtain ⟨q, hq, rfl⟩ := List.mem_map.mp hr
      obtain ⟨m, _, _, hm⟩ := hR q hq
      exact ⟨m, hm, Nat.cast_nonneg m⟩
    · rw [if_neg hp] at hst
      cases hst
  · intro hne
    rw [MatchPyramidsD_eq first second _ scheme T hT] at hne ⊢
    by_cases hp : T.all (passes scheme) = true
    · rw [if_pos hp]
      obtain ⟨n, hn1, hn2⟩ := hraw
      obtain ⟨v, hv, v0, v1⟩ := scoreD_bounds scheme T hR (fun r hr => (hN r hr).2) 0 0
        (le_refl _) (by simp) (by
          rw [hsum, hn1]
          have : (n : ℚ) ≤ 2 ^ 53 := by exact_mod_cast hn2
          simpa using this)
      refine ⟨v, ?_, v0, ?_⟩
      · simp [hv]
      · rw [hsum, rawIntersection_eq_min] at v1
        simpa using v1
    · rw [if_neg hp] at hne
      exact absurd rfl hne
  · intro hs hne
    rw [MatchPyramidsD_eq first second _ scheme T hT] at hne ⊢
    by_cases hp : T.all (passes scheme) = true
    · rw [if_pos hp]
      have hS := finalizedTrace_sizes (fun s => s ≤ 2 ^ 1022) _ _ _ _ _ _ hs hT
      refine ⟨_, rfl, ?_⟩
      simp only [if_true]
      exact costD_nonneg scheme T hR
        (fun r hr => ⟨⟨(hN r hr).2.1, (hS r hr).1⟩, ⟨(hN r hr).2.2, (hS r hr).2⟩⟩) _
        (Or.inr ⟨0, rfl, le_refl _⟩)
    · rw [if_neg hp] at hne
      exact absurd rfl hne

/-! ### The LOCAL scheme in `double` arithmetic -/

theorem mul_fin_zero (w : ℚ) : (Double.fin w).mul (.fin 0) = .fin 0 := by
  simp only [Double.mul, mul_zero, round_zero]

theorem add_fin_zero : (Double.fin 0).add (.fin 0) = .fin 0 := by
  simp only [Double.add, add_zero, round_zero]

theorem finalizedTrace_zeroD :
    ∀ (d : Nat) (parent : Option Nat) (slot : Nat) (A B : Bin) (T : List MatchNode),
      ((A.AllCounts (fun c => c = 0) ∧ B.AllCounts (fun c => 0 ≤ c)) ∨
        (B.AllCounts (fun c => c = 0) ∧ A.AllCounts (fun c => 0 ≤ c))) →
      finalizedTrace d parent slot A B = .value T →
      ∀ r ∈ T, netIntersectionD r.toD = .fin 0 := by
  refine finalizedTrace_forall
    (fun A B => (A.AllCounts (fun c => c = 0) ∧ B.AllCounts (fun c => 0 ≤ c)) ∨
        (B.AllCounts (fun c => c = 0) ∧ A.AllCounts (fun c => 0 ≤ c)))
    (fun r => netIntersectionD r.toD = .fin 0) ?_ ?_
  · intro A B hQ a ha b hb
    rcases hQ with ⟨h1, h2⟩ | ⟨h1, h2⟩
    · exact Or.inl ⟨allCounts_mem h1.2 ha, allCounts_mem h2.2 hb⟩
    · exact Or.inr ⟨allCounts_mem h1.2 hb, allCounts_mem h2.2 ha⟩
  · intro A B ps parent hQ hps
    have hsub := mergePairs_sublist _ _ _ _ _ hps
    have hz : ∀ p ∈ ps, rawIntersection p.1 p.2 = 0 := by
      intro p hp
      have m1 : p.1 ∈ A.firstChild.toList := hsub.1.subset (List.mem_map_of_mem _ hp)
      have m2 : p.2 ∈ B.firstChild.toList := hsub.2.subset (List.mem_map_of_mem _ hp)
      rcases hQ with ⟨h1, h2⟩ | ⟨h1, h2⟩
      · exact rawIntersection_zero
          (Or.inl ⟨(allCounts_mem h1.2 m1).1, (allCounts_mem h2.2 m2).1⟩)
      · exact rawIntersection_zero
          (Or.inr ⟨(allCounts_mem h1.2 m2).1, (allCounts_mem h2.2 m1).1⟩)
    have hs : (ps.map fun p => rawIntersection p.1 p.2).sum = 0 := by
      refine List.sum_eq_zero ?_
      intro x hx
      obtain ⟨p, hp, rfl⟩ := List.mem_map.mp hx
      exact hz p hp
    have h0 : rawIntersection A B = 0 := by
      rcases hQ with ⟨h1, h2⟩ | ⟨h1, h2⟩
      · exact rawIntersection_zero (Or.inl ⟨h1.1, h2.1⟩)
      · exact rawIntersection_zero (Or.inr ⟨h1.1, h2.1⟩)
    obtain ⟨s, hs1, _, hs3⟩ := ledgerOf_eq ps
      (fun p hp => ⟨0, by rw [hz p hp]; simp, by positivity⟩) (by rw [hs]; positivity)
    have hs0 : s = 0 := by
      rw [hs] at hs1
      exact_mod_cast hs1.symm
    subst hs0
    simp only [netIntersectionD, MatchNode.toD, ledgerD, hps, hs3, h0]
    have := sub_fin_natCast 0 0 (le_refl _) (by positivity)
    simpa using this

theorem scoreD_zero (scheme : BinWeightScheme) (T : List MatchNode)
    (hR : ∀ r ∈ T, netIntersectionD r.toD = .fin 0)
    (hS : ∀ r ∈ T, 0 ≤ r.node_.size ∧ 0 ≤ r.counterpart_.size) :
    scoreD scheme (.fin 0) (T.map MatchNode.toD) = .fin 0 := by
  induction T with
  | nil => rfl
  | cons r T ih =>
    obtain ⟨z1, z2⟩ := hS r (List.mem_cons_self _ _)
    obtain ⟨w, hw, _, _⟩ := weightD_bounds scheme r.node_ r.counterpart_ z1 z2
    have hstep : scoreD scheme (.fin 0) (r.toD :: T.map MatchNode.toD) =
        scoreD scheme (.fin 0) (T.map MatchNode.toD) := by
      simp only [scoreD, List.foldl_cons]
      have e : weightD scheme r.toD.node_ r.toD.counterpart_ =
          weightD scheme r.node_ r.counterpart_ := rfl
      rw [e, hw, hR r (List.mem_cons_self _ _), mul_fin_zero, add_fin_zero]
    simp only [List.map_cons]
    rw [hstep]
    exact ih (fun q hq => hR q (List.mem_cons_of_mem _ hq))
      (fun q hq => hS q (List.mem_cons_of_mem _ hq))

theorem costD_zero (scheme : BinWeightScheme) (T : List MatchNode)
    (hR : ∀ r ∈ T, netIntersectionD r.toD = .fin 0)
    (hS : ∀ r ∈ T, (0 ≤ r.node_.size ∧ r.node_.size ≤ 2 ^ 1022) ∧
      (0 ≤ r.counterpart_.size ∧ r.counterpart_.size ≤ 2 ^ 1022)) :
    costD scheme (.fin 0) (T.map MatchNode.toD) = .fin 0 := by
  induction T with
  | nil => rfl
  | cons r T ih =>
    obtain ⟨z1, z2⟩ := hS r (List.mem_cons_self _ _)
    obtain ⟨b, hb, _⟩ := binSizeD_fin scheme r.node_ r.counterpart_ z1 z2
    have hstep : costD scheme (.fin 0) (r.toD :: T.map MatchNode.toD) =
        costD scheme (.fin 0) (T.map MatchNode.toD) := by
      simp only [costD, List.foldl_cons]
      have e : binSizeD scheme r.toD.node_ r.toD.counterpart_ =
          binSizeD scheme r.node_ r.counterpart_ := rfl
      rw [e, hb, hR r (List.mem_cons_self _ _), mul_fin_zero, add_fin_zero]
    simp only [List.map_cons]
    rw [hstep]
    exact ih (fun q hq => hR q (List.mem_cons_of_mem _ hq))
      (fun q hq => hS q (List.mem_cons_of_mem _ hq))

theorem MatchPyramidsD_local (first second : MultiResolutionHistogram)
    (hA : first.root.WellFormed) (hB : second.root.WellFormed)
    (hlen : first.root.index.length = second.root.index.length) :
    (∀ return_type, ∃ v, MatchPyramidsD first second return_type .BIN_WEIGHT_LOCAL = .value v) ∧
    (((first.root.AllCounts (fun c => c = 0) ∧ second.root.AllCounts (fun c => 0 ≤ c)) ∨
        (second.root.AllCounts (fun c => c = 0) ∧ first.root.AllCounts (fun c => 0 ≤ c))) →
      ((first.root.AllSizes (fun s => 0 ≤ s) ∧ second.root.AllSizes (fun s => 0 ≤ s)) →
        MatchPyramidsD first second .SIMILARITY .BIN_WEIGHT_LOCAL = .value (.fin 0)) ∧
      ((first.root.AllSizes (fun s => 0 ≤ s ∧ s ≤ 2 ^ 1022) ∧
          second.root.AllSizes (fun s => 0 ≤ s ∧ s ≤ 2 ^ 1022)) →
        MatchPyramidsD first second .COST .BIN_WEIGHT_LOCAL = .value (.fin 0))) := by
  obtain ⟨T, hT⟩ := finalizedTrace_wellFormed (first.root.firstChild.numBins + 1) none 0
    first.root second.root hA hB hlen (le_refl _)
  have hall := all_passes_local T
  refine ⟨?_, ?_⟩
  · intro rt
    rw [MatchPyramidsD_eq first second rt _ T hT, if_pos hall]
    exact ⟨_, rfl⟩
  · intro hz
    have h0 := finalizedTrace_zeroD _ _ _ _ _ _ hz hT
    constructor
    · intro hs
      have hS := finalizedTrace_sizes (fun s => 0 ≤ s) _ _ _ _ _ _ hs hT
      rw [MatchPyramidsD_eq first second _ _ T hT, if_pos hall, scoreD_zero _ T h0 hS]
      simp
    · intro hs
      have hS := finalizedTrace_sizes (fun s => 0 ≤ s ∧ s ≤ 2 ^ 1022) _ _ _ _ _ _ hs hT
      rw [MatchPyramidsD_eq first second _ _ T hT, if_pos hall, costD_zero _ T h0 hS]
      simp

/-! ### Claims settled in `double` arithmetic -/

theorem le_two_pow_of_le {q : ℚ} (h : q ≤ 1024) : q ≤ 2 ^ 1022 := by
  have h2 : (2 : ℚ) ^ 10 ≤ 2 ^ 1022 := pow_le_pow_right₀ (by norm_num) (by norm_num)
  have h3 : (2 : ℚ) ^ 10 = 1024 := by norm_num
  rw [h3] at h2
  exact le_trans h h2

/-- C4 (amended): in the `double` arithmetic of the code, for histograms with
well-formed index paths in which every count is a natural number not above
`2^53`, all sizes are nonnegative and the count of every bin is at least the
sum of the counts of its children, and every scheme under which the
computation does not abort, the similarity is a finite value that is at least
zero; when in addition no size is above `2^1022`, the cost is a value that is
at least zero or `+∞`, never NaN. -/
theorem C4_nonnegative (h1 h2 : MultiResolutionHistogram) (scheme : BinWeightScheme)
    (hA : h1.root.WellFormed) (hB : h2.root.WellFormed)
    (hlen : h1.root.index.length = h2.root.index.length)
    (nA : h1.root.Nonneg) (nB : h2.root.Nonneg)
    (cA : h1.root.Conserving) (cB : h2.root.Conserving)
    (iA : h1.root.AllCounts SmallNat) (iB : h2.root.AllCounts SmallNat) :
    (GetPyramidMatchSimilarityD h1 h2 scheme ≠ .assertFailed →
      ∃ v, GetPyramidMatchSimilarityD h1 h2 scheme = .value (.fin v) ∧ 0 ≤ v) ∧
    ((h1.root.AllSizes (fun s => s ≤ 2 ^ 1022) ∧ h2.root.AllSizes (fun s => s ≤ 2 ^ 1022)) →
      GetPyramidMatchCostD h1 h2 scheme ≠ .assertFailed →
      ∃ c, GetPyramidMatchCostD h1 h2 scheme = .value c ∧
        (c = .inf false ∨ ∃ x, c = .fin x ∧ 0 ≤ x)) := by
  have k1 := MatchPyramidsD_bounds h1 h2 scheme hA hB hlen nA nB cA cB iA iB
  have k2 := MatchPyramidsD_bounds h2 h1 scheme hB hA hlen.symm nB nA cB cA iB iA
  constructor
  · unfold GetPyramidMatchSimilarityD
    split
    · intro hne
      obtain ⟨v, hv, h0, _⟩ := k1.2.1 hne
      exact ⟨v, hv, h0⟩
    · intro hne
      obtain ⟨v, hv, h0, _⟩ := k2.2.1 hne
      exact ⟨v, hv, h0⟩
  · intro hs
    unfold GetPyramidMatchCostD
    split
    · exact k1.2.2 hs
    · exact k2.2.2 ⟨hs.2, hs.1⟩

theorem C4_nonnegative_witness :
    (∃ v, GetPyramidMatchSimilarityD (scenario2A 2) (scenario2B 2) .BIN_WEIGHT_GLOBAL =
      .value (.fin v) ∧ 0 ≤ v) ∧
    (∃ c, GetPyramidMatchCostD (scenario2A 2) (scenario2B 2) .BIN_WEIGHT_GLOBAL = .value c ∧
      (c = .inf false ∨ ∃ x, c = .fin x ∧ 0 ≤ x)) := by
  have h := C4_nonnegative (scenario2A 2) (scenario2B 2) .BIN_WEIGHT_GLOBAL
    (by decide) (by decide) rfl
    (by simp [Bin.Nonneg, BinPtr.Nonneg, scenario2A, scenario2ChildA, Bin.toPtr])
    (by simp [Bin.Nonneg, BinPtr.Nonneg, scenario2B, scenario2ChildB, Bin.toPtr])
    (by simp [Bin.Conserving, BinPtr.Conserving, BinPtr.countSum, scenario2A, scenario2ChildA,
      Bin.toPtr]; norm_num)
    (by simp [Bin.Conserving, BinPtr.Conserving, BinPtr.countSum, scenario2B, scenario2ChildB,
      Bin.toPtr]; norm_num)
    ⟨⟨10, by norm_num [scenario2A], by norm_num⟩,
      ⟨4, by norm_num [scenario2ChildA], by norm_num⟩, trivial, trivial⟩
    ⟨⟨10, by norm_num [scenario2B], by norm_num⟩,
      ⟨6, by norm_num [scenario2ChildB], by norm_num⟩, trivial, trivial⟩
  refine ⟨h.1 (by decide!), h.2 ⟨?_, ?_⟩ (by decide!)⟩
  · simp [Bin.AllSizes, BinPtr.AllSizes, scenario2A, scenario2ChildA, Bin.toPtr]
    constructor <;> exact le_two_pow_of_le (by norm_num)
  · simp [Bin.AllSizes, BinPtr.AllSizes, scenario2B, scenario2ChildB, Bin.toPtr]
    constructor <;> exact le_two_pow_of_le (by norm_num)

/-- C4 as stated fails in the arithmetic of the code.  In `invertedCounts`
all counts and sizes are nonnegative and the computation does not abort, yet
the similarity of the histogram with itself under GLOBAL is `-7/2`.  Count
conservation alone does not repair it: in `roundingTree` the counts of the
children add up to the count of the root, but the ledger of the root is
rounded up twice, and the cost of the histogram with itself under GLOBAL is
`-2^-52`.  With sizes that overflow, `hugeSize` under LOCAL, the cost is
NaN. -/
theorem C4_nonnegative_counterexample :
    (invertedCounts.root.Nonneg ∧
      GetPyramidMatchSimilarityD invertedCounts invertedCounts .BIN_WEIGHT_GLOBAL =
        .value (.fin (-7 / 2))) ∧
    (roundingTree.root.Nonneg ∧ roundingTree.root.Conserving ∧
      roundingTree.root.AllCounts Double.Representable ∧
      GetPyramidMatchCostD roundingTree roundingTree .BIN_WEIGHT_GLOBAL =
        .value (.fin (-1 / 2 ^ 52))) ∧
    (hugeSize.root.Nonneg ∧ Double.Representable (2 ^ 1023) ∧
      GetPyramidMatchCostD hugeSize hugeSize .BIN_WEIGHT_LOCAL = .value .nan) := by
  refine ⟨⟨?_, by decide!⟩, ⟨?_, ?_, ?_, by decide!⟩, ⟨?_, by decide!, by decide!⟩⟩
  · simp [Bin.Nonneg, BinPtr.Nonneg, invertedCounts]
  · simp [Bin.Nonneg, BinPtr.Nonneg, roundingTree]
    norm_num
  · simp [Bin.Conserving, BinPtr.Conserving, BinPtr.countSum, roundingTree]
    norm_num
  · exact ⟨by decide!, by decide!, True.intro, by decide!, True.intro, by decide!, True.intro,
      True.intro⟩
  · simp [Bin.Nonneg, BinPtr.Nonneg, hugeSize]

/-- C11 (amended): in the `double` arithmetic of the code, under the LOCAL
scheme, for histograms with well-formed index paths, cost and similarity
never abort but return a value.  When every count of one of the two
histograms is zero and the counts of the other are nonnegative, the
similarity is 0 if all sizes are nonnegative, and the cost is 0 if all sizes
are nonnegative and not above `2^1022`, so that the sum of two sizes is
finite. -/
theorem C11_local_never_aborts (h1 h2 : MultiResolutionHistogram)
    (hA : h1.root.WellFormed) (hB : h2.root.WellFormed)
    (hlen : h1.root.index.length = h2.root.index.length) :
    (∃ v, GetPyramidMatchCostD h1 h2 .BIN_WEIGHT_LOCAL = .value v) ∧
    (∃ v, GetPyramidMatchSimilarityD h1 h2 .BIN_WEIGHT_LOCAL = .value v) ∧
    (((h1.root.AllCounts (fun c => c = 0) ∧ h2.root.AllCounts (fun c => 0 ≤ c)) ∨
        (h2.root.AllCounts (fun c => c = 0) ∧ h1.root.AllCounts (fun c => 0 ≤ c))) →
      ((h1.root.AllSizes (fun s => 0 ≤ s) ∧ h2.root.AllSizes (fun s => 0 ≤ s)) →
        GetPyramidMatchSimilarityD h1 h2 .BIN_WEIGHT_LOCAL = .value (.fin 0)) ∧
      ((h1.root.AllSizes (fun s => 0 ≤ s ∧ s ≤ 2 ^ 1022) ∧
          h2.root.AllSizes (fun s => 0 ≤ s ∧ s ≤ 2 ^ 1022)) →
        GetPyramidMatchCostD h1 h2 .BIN_WEIGHT_LOCAL = .value (.fin 0))) := by
  have k1 := MatchPyramidsD_local h1 h2 hA hB hlen
  have k2 := MatchPyramidsD_local h2 h1 hB hA hlen.symm
  refine ⟨?_, ?_, ?_⟩
  · unfold GetPyramidMatchCostD
    split
    · exact k1.1 _
    · exact k2.1 _
  · unfold GetPyramidMatchSimilarityD
    split
    · exact k1.1 _
    · exact k2.1 _
  · intro hz
    constructor
    · intro hs
      unfold GetPyramidMatchSimilarityD
      split
      · exact (k1.2 hz).1 hs
      · exact (k2.2 hz.symm).1 ⟨hs.2, hs.1⟩
    · intro hs
      unfold GetPyramidMatchCostD
      split
      · exact (k1.2 hz).2 hs
      · exact (k2.2 hz.symm).2 ⟨hs.2, hs.1⟩

theorem C11_local_never_aborts_witness :
    (∃ v, GetPyramidMatchCostD mismatchA mismatchB .BIN_WEIGHT_LOCAL = .value v) ∧
    (∃ v, GetPyramidMatchSimilarityD mismatchA mismatchB .BIN_WEIGHT_LOCAL = .value v) ∧
    GetPyramidMatchSimilarityD zeroCounts mismatchA .BIN_WEIGHT_LOCAL = .value (.fin 0) ∧
    GetPyramidMatchCostD zeroCounts mismatchA .BIN_WEIGHT_LOCAL = .value (.fin 0) := by
  have h1 := C11_local_never_aborts mismatchA mismatchB (by decide) (by decide) rfl
  have h2 := C11_local_never_aborts zeroCounts mismatchA (by decide) (by decide) rfl
  have hz : (zeroCounts.root.AllCounts (fun c => c = 0) ∧
      mismatchA.root.AllCounts (fun c => 0 ≤ c)) := by
    constructor
    · simp [Bin.AllCounts, BinPtr.AllCounts, zeroCounts]
    · simp [Bin.AllCounts, BinPtr.AllCounts, mismatchA]
  have hs : zeroCounts.root.AllSizes (fun s => 0 ≤ s ∧ s ≤ 2 ^ 1022) ∧
      mismatchA.root.AllSizes (fun s => 0 ≤ s ∧ s ≤ 2 ^ 1022) := by
    constructor
    · simp only [Bin.AllSizes, BinPtr.AllSizes, zeroCounts]
      refine ⟨⟨by norm_num, le_two_pow_of_le (by norm_num)⟩,
        ⟨by norm_num, le_two_pow_of_le (by norm_num)⟩, trivial,
        ⟨by norm_num, le_two_pow_of_le (by norm_num)⟩, trivial, trivial⟩
    · simp only [Bin.AllSizes, BinPtr.AllSizes, mismatchA]
      refine ⟨⟨by norm_num, le_two_pow_of_le (by norm_num)⟩,
        ⟨by norm_num, le_two_pow_of_le (by norm_num)⟩, trivial,
        ⟨by norm_num, le_two_pow_of_le (by norm_num)⟩, trivial, trivial⟩
  have hs0 : zeroCounts.root.AllSizes (fun s => 0 ≤ s) ∧
      mismatchA.root.AllSizes (fun s => 0 ≤ s) := by
    constructor
    · simp [Bin.AllSizes, BinPtr.AllSizes, zeroCounts]
    · simp [Bin.AllSizes, BinPtr.AllSizes, mismatchA]
  exact ⟨h1.1, h1.2.1, (h2.2.2 (Or.inl hz)).1 hs0, (h2.2.2 (Or.inl hz)).2 hs⟩

/-- C11 as stated fails in the arithmetic of the code: the two histograms
`hugeSize` consist of a root only, with count 0 and the finite size `2^1023`.
Under LOCAL the sum of the two sizes overflows, and the cost returned is
`∞ * 0`, which is NaN and not 0; the similarity returned is 0. -/
theorem C11_local_never_aborts_counterexample :
    hugeSize.root.WellFormed ∧ hugeSize.root.AllCounts (fun c => c = 0) ∧
    hugeSize.root.AllSizes (fun s => 0 ≤ s ∧ Double.Representable s) ∧
    GetPyramidMatchCostD hugeSize hugeSize .BIN_WEIGHT_LOCAL = .value .nan ∧
    GetPyramidMatchCostD hugeSize hugeSize .BIN_WEIGHT_LOCAL ≠ .value (.fin 0) ∧
    GetPyramidMatchSimilarityD hugeSize hugeSize .BIN_WEIGHT_LOCAL = .value (.fin 0) := by
  refine ⟨by decide, ?_, ?_, by decide!, by decide!, by decide!⟩
  · simp [Bin.AllCounts, BinPtr.AllCounts, hugeSize]
  · exact ⟨⟨by simp [hugeSize], by decide!⟩, True.intro⟩

/-- C17 (amended): in the `double` arithmetic of the code, for histograms
with well-formed index paths in which every count is a natural number not
above `2^53`, all sizes are nonnegative and the count of every bin is at least
the sum of the counts of its children, and every scheme under which the
computation does not abort, every net intersection is a finite value that is
at least zero, and the similarity is a finite value between 0 and
`min(rootA.count, rootB.count)`. -/
theorem C17_similarity_bounds (h1 h2 : MultiResolutionHistogram) (scheme : BinWeightScheme)
    (hA : h1.root.WellFormed) (hB : h2.root.WellFormed)
    (hlen : h1.root.index.length = h2.root.index.length)
    (nA : h1.root.Nonneg) (nB : h2.root.Nonneg)
    (cA : h1.root.Conserving) (cB : h2.root.Conserving)
    (iA : h1.root.AllCounts SmallNat) (iB : h2.root.AllCounts SmallNat) :
    (∀ st, finalStateD h1 h2 scheme = .value st →
      ∀ r ∈ st.finalized, ∃ x, netIntersectionD r = .fin x ∧ 0 ≤ x) ∧
    (∀ st, finalStateD h2 h1 scheme = .value st →
      ∀ r ∈ st.finalized, ∃ x, netIntersectionD r = .fin x ∧ 0 ≤ x) ∧
    (GetPyramidMatchSimilarityD h1 h2 scheme ≠ .assertFailed →
      ∃ v, GetPyramidMatchSimilarityD h1 h2 scheme = .value (.fin v) ∧ 0 ≤ v ∧
        v ≤ min h1.root.count h2.root.count) := by
  have k1 := MatchPyramidsD_bounds h1 h2 scheme hA hB hlen nA nB cA cB iA iB
  have k2 := MatchPyramidsD_bounds h2 h1 scheme hB hA hlen.symm nB nA cB cA iB iA
  refine ⟨k1.1, k2.1, ?_⟩
  unfold GetPyramidMatchSimilarityD
  split
  · exact k1.2.1
  · intro hne
    obtain ⟨v, hv, h0, hle⟩ := k2.2.1 hne
    exact ⟨v, hv, h0, by rw [min_comm]; exact hle⟩

theorem C17_similarity_bounds_witness :
    ∃ v, GetPyramidMatchSimilarityD (scenario2A 2) (scenario2B 2) .BIN_WEIGHT_GLOBAL =
        .value (.fin v) ∧ 0 ≤ v ∧
      v ≤ min (scenario2A 2).root.count (scenario2B 2).root.count :=
  (C17_similarity_bounds (scenario2A 2) (scenario2B 2) .BIN_WEIGHT_GLOBAL
    (by decide) (by decide) rfl
    (by simp [Bin.Nonneg, BinPtr.Nonneg, scenario2A, scenario2ChildA, Bin.toPtr])
    (by simp [Bin.Nonneg, BinPtr.Nonneg, scenario2B, scenario2ChildB, Bin.toPtr])
    (by simp [Bin.Conserving, BinPtr.Conserving, BinPtr.countSum, scenario2A, scenario2ChildA,
      Bin.toPtr]; norm_num)
    (by simp [Bin.Conserving, BinPtr.Conserving, BinPtr.countSum, scenario2B, scenario2ChildB,
      Bin.toPtr]; norm_num)
    ⟨⟨10, by norm_num [scenario2A], by norm_num⟩,
      ⟨4, by norm_num [scenario2ChildA], by norm_num⟩, trivial, trivial⟩
    ⟨⟨10, by norm_num [scenario2B], by norm_num⟩,
      ⟨6, by norm_num [scenario2ChildB], by norm_num⟩, trivial, trivial⟩).2.2 (by decide!)

/-- C17 as stated fails in the arithmetic of the code.  In `roundingTree` all
counts and sizes are nonnegative doubles, children are in ascending order and
the counts of the three children add up to the count `1 + 3 * 2^-52` of the
root.  Matched with itself under GLOBAL, the ledger of the root is rounded up
twice, to `1 + 4 * 2^-52`: the net intersection of the root pair is `-2^-52`,
and the similarity `1 + 4 * 2^-52` is above the count of the root. -/
theorem C17_similarity_bounds_counterexample :
    roundingTree.root.WellFormed ∧ roundingTree.root.Ascending ∧
    roundingTree.root.Nonneg ∧ roundingTree.root.Conserving ∧
    roundingTree.root.AllCounts Double.Representable ∧
    finalNetsD roundingTree roundingTree .BIN_WEIGHT_GLOBAL =
      .value [.fin (1 + 1 / 2 ^ 52), .fin (1 / 2 ^ 53), .fin (3 / 2 ^ 53), .fin (-1 / 2 ^ 52)] ∧
    GetPyramidMatchSimilarityD roundingTree roundingTree .BIN_WEIGHT_GLOBAL =
      .value (.fin (1 + 4 / 2 ^ 52)) ∧
    ¬ ((1 + 4 / 2 ^ 52 : ℚ) ≤ min roundingTree.root.count roundingTree.root.count) := by
  refine ⟨by decide, by decide, ?_, ?_, ?_, by decide!, by decide!, ?_⟩
  · simp [Bin.Nonneg, BinPtr.Nonneg, roundingTree]
    norm_num
  · simp [Bin.Conserving, BinPtr.Conserving, BinPtr.countSum, roundingTree]
    norm_num
  · exact ⟨by decide!, by decide!, True.intro, by decide!, True.intro, by decide!, True.intro,
      True.intro⟩
  · simp [roundingTree]
    norm_num

/-! ### The self-match property -/

/-- C5 (amended): with arithmetic taken as exact, for every scheme and
histograms `A`, `B` of the data model that have the same shape, where at every shared path the count of `B` is at
most the count of `A` and the size of `B` equals the size of `A`, and where
the sizes of `A` are nonnegative and no bin of `A` is larger than its parent,
both similarities are values and
`GetPyramidMatchSimilarity(A, A, s) ≥ GetPyramidMatchSimilarity(A, B, s)`. -/
theorem C5_self_match_dominates (A B : MultiResolutionHistogram) (scheme : BinWeightScheme)
    (hv : ValidPair A B) (hle : A.root.ShapeLe B.root) (hsz : A.root.SameSizes B.root)
    (hmono : A.root.SizeMonotone) :
    ∃ vAA vAB, GetPyramidMatchSimilarity A A scheme = .value vAA ∧
      GetPyramidMatchSimilarity A B scheme = .value vAB ∧ vAB ≤ vAA := by
  obtain ⟨hA, hB, hlen, sA, sB⟩ := hv
  obtain ⟨m1, m2, hineq⟩ := selfMatch_aux scheme _ A.root B.root (le_refl _) hA hB sA sB hle hsz
    hmono
  have n1 : ¬ (scheme = .BIN_WEIGHT_GLOBAL ∧ sizeMismatch A.root B.root) := by
    rintro ⟨_, p, hp, hne⟩
    exact hne (m1 p hp)
  have n2 : ¬ (scheme = .BIN_WEIGHT_GLOBAL ∧ sizeMismatch A.root A.root) := by
    rintro ⟨_, p, hp, hne⟩
    exact hne (m2 p hp)
  refine ⟨specSimilarity scheme A.root A.root, specSimilarity scheme A.root B.root, ?_, ?_, ?_⟩
  · rw [GetPyramidMatchSimilarity_spec A A scheme hA hA rfl sA sA, if_neg n2]
  · rw [GetPyramidMatchSimilarity_spec A B scheme hA hB hlen sA sB, if_neg n1]
  · have hb := binSize_nonneg scheme A.root A.root hmono.1 hmono.1
    have hw : 0 ≤ 1 / (1 + binSize scheme A.root A.root) :=
      div_nonneg zero_le_one (by linarith)
    have hd : 0 ≤ A.root.count - B.root.count := by linarith [hle.2.1]
    have := mul_nonneg hw hd
    linarith

theorem C5_self_match_dominates_witness :
    ValidPair (scenario2B 2) (scenario2A 2) ∧
    ∃ vAA vAB, GetPyramidMatchSimilarity (scenario2B 2) (scenario2B 2) .BIN_WEIGHT_LOCAL =
        .value vAA ∧
      GetPyramidMatchSimilarity (scenario2B 2) (scenario2A 2) .BIN_WEIGHT_LOCAL =
        .value vAB ∧ vAB ≤ vAA :=
  ⟨by decide,
    C5_self_match_dominates (scenario2B 2) (scenario2A 2) .BIN_WEIGHT_LOCAL (by decide)
      (by
        simp [Bin.ShapeLe, BinPtr.ShapeLe, scenario2A, scenario2B, scenario2ChildA,
          scenario2ChildB, Bin.toPtr]
        norm_num)
      (by
        simp [Bin.SameSizes, BinPtr.SameSizes, scenario2A, scenario2B, scenario2ChildA,
          scenario2ChildB, Bin.toPtr])
      (by
        simp [Bin.SizeMonotone, BinPtr.SizeMonotone, scenario2B, scenario2ChildB, Bin.toPtr])⟩

/-- C5 as stated fails.  Under LOCAL, for the root-only histograms with count
5 and sizes 10 and 0, which have the same shape and equal counts, the
similarity of the first with itself is `5/21` and with the second `5/11`.
Under GLOBAL, `largeChildA` and `largeChildB` have the same shape and sizes
and the counts of the second are at most those of the first, yet the
similarity of the first with itself is 1 and with the second 10.  In the
`double` arithmetic of the code the order also fails by rounding where exact
arithmetic gives a tie: for `tieTree 4` and `tieTree 1`, which have the same
shape and sizes, the exact similarities are both `10/3`, and the code returns
`7505999378950826 / 2^51` for the first with itself and
`7505999378950827 / 2^51` for the first with the second. -/
theorem C5_self_match_dominates_counterexample :
    (ValidPair (rootOnly 5 10 1) (rootOnly 5 0 1) ∧
      (rootOnly 5 10 1).root.ShapeLe (rootOnly 5 0 1).root ∧
      GetPyramidMatchSimilarity (rootOnly 5 10 1) (rootOnly 5 10 1) .BIN_WEIGHT_LOCAL =
        .value (5 / 21) ∧
      GetPyramidMatchSimilarity (rootOnly 5 10 1) (rootOnly 5 0 1) .BIN_WEIGHT_LOCAL =
        .value (5 / 11) ∧
      ¬ ((5 / 11 : ℚ) ≤ 5 / 21)) ∧
    (ValidPair largeChildA largeChildB ∧
      largeChildA.root.ShapeLe largeChildB.root ∧
      GetPyramidMatchSimilarity largeChildA largeChildA .BIN_WEIGHT_GLOBAL = .value 1 ∧
      GetPyramidMatchSimilarity largeChildA largeChildB .BIN_WEIGHT_GLOBAL = .value 10 ∧
      ¬ ((10 : ℚ) ≤ 1)) ∧
    (ValidPair (tieTree 4) (tieTree 1) ∧
      (tieTree 4).root.ShapeLe (tieTree 1).root ∧
      (tieTree 4).root.SameSizes (tieTree 1).root ∧
      (tieTree 4).root.SizeMonotone ∧
      GetPyramidMatchSimilarityD (tieTree 4) (tieTree 4) .BIN_WEIGHT_GLOBAL =
        .value (.fin (7505999378950826 / 2 ^ 51)) ∧
      GetPyramidMatchSimilarityD (tieTree 4) (tieTree 1) .BIN_WEIGHT_GLOBAL =
        .value (.fin (7505999378950827 / 2 ^ 51)) ∧
      ¬ ((7505999378950827 / 2 ^ 51 : ℚ) ≤ 7505999378950826 / 2 ^ 51)) := by
  refine ⟨⟨by decide, ?_, ?_, ?_, by norm_num⟩, ⟨by decide, ?_, ?_, ?_, by norm_num⟩,
    ⟨by decide, ?_, ?_, ?_, by decide!, by decide!, by norm_num⟩⟩
  · simp [Bin.ShapeLe, BinPtr.ShapeLe, rootOnly]
  · simp [GetPyramidMatchSimilarity, MatchPyramids, finalState, runPyramids, initState,
      loop, step, mergeLoop, MatchNode.new, updateSlot, BinPtr.numBins,
      BinPtr.chainLength, rootOnly]
    norm_num
  · simp [GetPyramidMatchSimilarity, MatchPyramids, finalState, runPyramids, initState,
      loop, step, mergeLoop, MatchNode.new, updateSlot, BinPtr.numBins,
      BinPtr.chainLength, rootOnly]
    norm_num
  · simp [Bin.ShapeLe, BinPtr.ShapeLe, largeChildA, largeChildB]
  · simp [GetPyramidMatchSimilarity, MatchPyramids, finalState, runPyramids, initState,
      loop, step, mergeLoop, MatchNode.new, updateSlot, BinPtr.numBins,
      BinPtr.chainLength, largeChildA]
    norm_num
  · simp [GetPyramidMatchSimilarity, MatchPyramids, finalState, runPyramids, initState,
      loop, step, mergeLoop, MatchNode.new, updateSlot, BinPtr.numBins,
      BinPtr.chainLength, largeChildA, largeChildB]
    norm_num
  · simp [Bin.ShapeLe, BinPtr.ShapeLe, tieTree]
  · simp [Bin.SameSizes, BinPtr.SameSizes, tieTree]
  · simp [Bin.SizeMonotone, BinPtr.SizeMonotone, tieTree]

end libpmk
